import Mathlib

/-!
Verification development for the note-nomi ingestion pipeline.

The Python source (app/note_kinds.py, app/analysis_worker.py, app/storage.py,
app/service.py, app/job_runner.py) is shallowly embedded below.  Strings are
modelled as `List Char` (`Str`); the Python standard-library URL helpers
(`urllib.parse.urlsplit`, `urlunsplit`, `parse_qsl`, `urlencode`, `quote_plus`,
`unquote`) that `normalize_url` and the kind classifier call are embedded
faithfully, including percent-encoding at the UTF-8 byte level.  I/O-performing
stages (HTTP fetch, HTML extraction, the LLM analyzers) are modelled as
explicit oracle parameters carrying their observable results, and the SQLite
store is modelled as an in-memory structure whose operations mirror the SQL
statements of `storage.py` row by row.  Fallible Python code (functions that
can raise) returns `Option`.
-/

namespace NoteNomi

/-- Python strings, modelled as lists of characters. -/
abbrev Str := List Char

/-- `s.toList` shorthand used by concrete witnesses. -/
def str (s : String) : Str := s.toList

/-! ### Basic character classes (ASCII-level, matching the Python predicates used) -/

/-- ASCII lowercase of one character (`str.lower` restricted to ASCII; every
comparison in the embedded code is against ASCII-only constants, where Python's
Unicode `lower` agrees with the ASCII mapping). -/
def asciiLowerChar (c : Char) : Char :=
  if 65 ≤ c.toNat ∧ c.toNat ≤ 90 then Char.ofNat (c.toNat + 32) else c

def asciiLower (s : Str) : Str := s.map asciiLowerChar

def isAsciiAlpha (c : Char) : Bool :=
  (65 ≤ c.toNat ∧ c.toNat ≤ 90) ∨ (97 ≤ c.toNat ∧ c.toNat ≤ 122)

def isAsciiDigit (c : Char) : Bool := 48 ≤ c.toNat ∧ c.toNat ≤ 57

/-- `scheme_chars` of `urllib.parse`. -/
def isSchemeChar (c : Char) : Bool :=
  isAsciiAlpha c ∨ isAsciiDigit c ∨ c = '+' ∨ c = '-' ∨ c = '.'

/-- `_WHATWG_C0_CONTROL_OR_SPACE` of `urllib.parse`. -/
def isC0OrSpace (c : Char) : Bool := c.toNat ≤ 32

/-- `_UNSAFE_URL_BYTES_TO_REMOVE` of `urllib.parse`: tab, CR, LF. -/
def isUnsafeUrlChar (c : Char) : Bool := c = Char.ofNat 9 ∨ c = Char.ofNat 13 ∨ c = Char.ofNat 10

/-! ### Generic split helpers mirroring `str.split` / `str.partition` -/

/-- `s.split(sep, 1)`: text before the first `sep`, and `some` rest after it. -/
def splitOnce (sep : Char) : Str → Str × Option Str
  | [] => ([], none)
  | c :: cs =>
    if c = sep then ([], some cs)
    else
      let r := splitOnce sep cs
      (c :: r.1, r.2)

/-- `s.split(sep)`: all fields; `"".split(sep) = [""]`. -/
def splitAll (sep : Char) : Str → List Str
  | [] => [[]]
  | c :: cs =>
    let r := splitAll sep cs
    if c = sep then [] :: r
    else (c :: r.headI) :: r.tail

/-- Substring test (`needle in haystack` for Python strings). -/
def isSubstr (needle haystack : Str) : Bool :=
  (List.range (haystack.length + 1)).any (fun i => needle.isPrefixOf (haystack.drop i))

/-! ### `urllib.parse.urlsplit` / `urlunsplit`

Embedded from CPython's `urllib/parse.py` (the version targeted by the repo,
which requires Python ≥ 3.11): leading C0-control/space characters are
stripped, tab/CR/LF are removed everywhere, an RFC-style scheme prefix is
recognised and lowercased, `//`-prefixed netlocs run to the first `/?#`, then
fragment and query are split off.  CPython additionally rejects some netlocs
(`_check_bracketed_host` on bracketed hosts, `_checknetloc` on non-ASCII
netlocs that NFKC-expand into separators); `netlocOk` keeps the
mismatched-bracket rejection and conservatively accepts the rest.  All
operations below pass `netloc` through unchanged, so any refinement of this
pure predicate leaves every theorem intact; concrete witnesses only use
bracket-free ASCII netlocs, on which all CPython versions agree. -/

structure SplitResult where
  scheme : Str
  netloc : Str
  path : Str
  query : Str
  fragment : Str
deriving Repr, DecidableEq

/-- The scheme-recognition step of `urlsplit`: a leading `:` at index `i > 0`
whose prefix starts with an ASCII letter and consists of scheme characters is
split off and lowercased. -/
def splitScheme (s : Str) : Str × Str :=
  match s.findIdx? (· = ':') with
  | none => ([], s)
  | some i =>
    if 0 < i ∧ isAsciiAlpha s.headI ∧ (s.take i).all isSchemeChar
    then (asciiLower (s.take i), s.drop (i + 1))
    else ([], s)

def isNetlocDelim (c : Char) : Bool := c = '/' ∨ c = '?' ∨ c = '#'

/-- `_splitnetloc`: the netloc runs from after `//` to the first `/?#`. -/
def splitNetloc (s : Str) : Str × Str :=
  (s.takeWhile (fun c => ¬ isNetlocDelim c), s.dropWhile (fun c => ¬ isNetlocDelim c))

/-- Netloc validation of `urlsplit` (raises `ValueError` in Python ⇒ `false`). -/
def netlocOk (netloc : Str) : Bool :=
  ¬ ((netloc.contains '[' ∧ ¬ netloc.contains ']') ∨
     (netloc.contains ']' ∧ ¬ netloc.contains '['))

def urlsplit (u : Str) : Option SplitResult :=
  let u1 := (u.dropWhile isC0OrSpace).filter (fun c => ¬ isUnsafeUrlChar c)
  let sr := splitScheme u1
  let nr := if ['/', '/'].isPrefixOf sr.2 then splitNetloc (sr.2.drop 2) else ([], sr.2)
  if netlocOk nr.1 then
    let fr := splitOnce '#' nr.2
    let qr := splitOnce '?' fr.1
    some ⟨sr.1, nr.1, qr.1, qr.2.getD [], fr.2.getD []⟩
  else none

/-- `uses_netloc` of `urllib.parse` (the empty scheme entry is irrelevant to
`urlunsplit`, whose condition also requires a non-empty scheme). -/
def usesNetloc : List Str :=
  [[], str "ftp", str "http", str "gopher", str "nntp", str "telnet", str "imap",
   str "wais", str "file", str "mms", str "https", str "shttp", str "snews",
   str "prospero", str "rtsp", str "rtsps", str "rtspu", str "rsync", str "svn",
   str "svn+ssh", str "sftp", str "nfs", str "git", str "git+ssh", str "ws", str "wss"]

def urlunsplit (scheme netloc path query fragment : Str) : Str :=
  let url1 :=
    if netloc ≠ [] ∨ (scheme ≠ [] ∧ usesNetloc.contains scheme ∧ ¬ ['/', '/'].isPrefixOf path)
    then
      let p := if path ≠ [] ∧ ¬ ['/'].isPrefixOf path then '/' :: path else path
      '/' :: '/' :: (netloc ++ p)
    else path
  let url2 := if scheme ≠ [] then scheme ++ ':' :: url1 else url1
  let url3 := if query ≠ [] then url2 ++ '?' :: query else url2
  if fragment ≠ [] then url3 ++ '#' :: fragment else url3

/-! ### UTF-8 and percent-encoding (`quote_plus` / `unquote`) -/

/-- UTF-8 bytes of one character (`str.encode('utf-8')`, per character). -/
def utf8Char (c : Char) : List Nat :=
  let n := c.toNat
  if n < 128 then [n]
  else if n < 2048 then [192 + n / 64, 128 + n % 64]
  else if n < 65536 then [224 + n / 4096, 128 + (n / 64) % 64, 128 + n % 64]
  else [240 + n / 262144, 128 + (n / 4096) % 64, 128 + (n / 64) % 64, 128 + n % 64]

def utf8Encode (s : Str) : List Nat := (s.map utf8Char).flatten

/-- U+FFFD, the replacement character used by `errors='replace'`. -/
def replChar : Char := Char.ofNat 65533

def isCont (b : Nat) : Bool := 128 ≤ b ∧ b < 192

/-- Fueled body of the UTF-8 decoder; every step consumes at least one byte,
so fuel `≥ length` suffices (the fuel only makes the recursion structural). -/
def utf8DecodeLoop : Nat → List Nat → Str
  | 0, _ => []
  | _, [] => []
  | fuel + 1, b :: rest =>
    if b < 128 then Char.ofNat b :: utf8DecodeLoop fuel rest
    else if b < 194 then replChar :: utf8DecodeLoop fuel rest
    else if b < 224 then
      match rest with
      | b1 :: r =>
        if isCont b1 then Char.ofNat ((b - 192) * 64 + (b1 - 128)) :: utf8DecodeLoop fuel r
        else replChar :: utf8DecodeLoop fuel (b1 :: r)
      | [] => [replChar]
    else if b < 240 then
      match rest with
      | b1 :: b2 :: r =>
        if (isCont b1 ∧ isCont b2) ∧ (b ≠ 224 ∨ 160 ≤ b1) ∧ (b ≠ 237 ∨ b1 < 160) then
          Char.ofNat ((b - 224) * 4096 + (b1 - 128) * 64 + (b2 - 128)) :: utf8DecodeLoop fuel r
        else replChar :: utf8DecodeLoop fuel (b1 :: b2 :: r)
      | _ => replChar :: utf8DecodeLoop fuel rest
    else if b < 245 then
      match rest with
      | b1 :: b2 :: b3 :: r =>
        if (isCont b1 ∧ isCont b2 ∧ isCont b3) ∧ (b ≠ 240 ∨ 144 ≤ b1) ∧ (b ≠ 244 ∨ b1 < 144) then
          Char.ofNat ((b - 240) * 262144 + (b1 - 128) * 4096 + (b2 - 128) * 64 + (b3 - 128))
            :: utf8DecodeLoop fuel r
        else replChar :: utf8DecodeLoop fuel (b1 :: b2 :: b3 :: r)
      | _ => replChar :: utf8DecodeLoop fuel rest
    else replChar :: utf8DecodeLoop fuel rest

/-- `bytes.decode('utf-8', errors='replace')`: a strict UTF-8 decoder
(overlong and surrogate encodings rejected) that substitutes U+FFFD for
invalid sequences and resumes after the offending lead byte. -/
def utf8DecodeReplace (bs : List Nat) : Str := utf8DecodeLoop bs.length bs

/-- `_ALWAYS_SAFE` of `urllib.parse`: ASCII alphanumerics and `_.-~`. -/
def isAlwaysSafe (c : Char) : Bool :=
  isAsciiAlpha c ∨ isAsciiDigit c ∨ c = '_' ∨ c = '.' ∨ c = '-' ∨ c = '~'

def hexDigitUpper (n : Nat) : Char :=
  if n < 10 then Char.ofNat (48 + n) else Char.ofNat (55 + n)

/-- `%XX` (uppercase) escape of one byte. -/
def pctHexByte (b : Nat) : Str := ['%', hexDigitUpper (b / 16), hexDigitUpper (b % 16)]

/-- One character of `quote(s, safe)`: safe bytes pass through, everything
else is percent-encoded at the UTF-8 byte level. -/
def quoteChar (safe : List Char) (c : Char) : Str :=
  if isAlwaysSafe c ∨ c ∈ safe then [c] else (utf8Char c).flatMap pctHexByte

def pyQuote (safe : List Char) (s : Str) : Str := s.flatMap (quoteChar safe)

/-- `quote_plus(s, safe='')`. -/
def pyQuotePlus (s : Str) : Str :=
  if ' ' ∈ s then (pyQuote [' '] s).map (fun c => if c = ' ' then '+' else c)
  else pyQuote [] s

def isHexChar (c : Char) : Bool :=
  isAsciiDigit c ∨ (65 ≤ c.toNat ∧ c.toNat ≤ 70) ∨ (97 ≤ c.toNat ∧ c.toNat ≤ 102)

def hexVal (c : Char) : Nat :=
  if isAsciiDigit c then c.toNat - 48 else if c.toNat ≤ 70 then c.toNat - 55 else c.toNat - 87

/-- Fueled body of `unquote_to_bytes` (fuel `≥ length` suffices). -/
def percentToBytesLoop : Nat → Str → List Nat
  | 0, _ => []
  | _, [] => []
  | fuel + 1, c :: rest =>
    if c = '%' then
      match rest with
      | a :: b :: rest2 =>
        if isHexChar a ∧ isHexChar b then
          (hexVal a * 16 + hexVal b) :: percentToBytesLoop fuel rest2
        else c.toNat :: percentToBytesLoop fuel (a :: b :: rest2)
      | _ => c.toNat :: percentToBytesLoop fuel rest
    else c.toNat :: percentToBytesLoop fuel rest

/-- `unquote_to_bytes`: characters become their code-point byte, `%XX` with two
hex digits becomes that byte, a stray `%` stays literal.  Only applied to
ASCII runs, exactly as in CPython. -/
def percentToBytes (s : Str) : List Nat := percentToBytesLoop s.length s

def isAsciiChar (c : Char) : Bool := c.toNat < 128

/-- `unquote`'s segment loop: maximal ASCII runs are percent-decoded to bytes
and UTF-8-decoded with replacement; non-ASCII characters pass through.  The
fuel argument (`≥ length`) makes the recursion structural. -/
def pyUnquoteLoop : Nat → Str → Str
  | 0, _ => []
  | _, [] => []
  | fuel + 1, c :: cs =>
    if isAsciiChar c then
      utf8DecodeReplace (percentToBytes ((c :: cs).takeWhile isAsciiChar)) ++
        pyUnquoteLoop fuel ((c :: cs).dropWhile isAsciiChar)
    else c :: pyUnquoteLoop fuel cs

/-- `unquote(s, encoding='utf-8', errors='replace')`. -/
def pyUnquote (s : Str) : Str :=
  if '%' ∈ s then pyUnquoteLoop (s.length + 1) s else s

/-- The `.replace('+', ' ')` + `unquote` combination of `parse_qsl`. -/
def unquotePlus (s : Str) : Str :=
  pyUnquote (s.map fun c => if c = '+' then ' ' else c)

/-- `parse_qsl(qs, keep_blank_values=True)`. -/
def parse_qsl (qs : Str) : List (Str × Str) :=
  (if qs = [] then [] else splitAll '&' qs).filterMap fun nameValue =>
    if nameValue = [] then none
    else
      let nv := splitOnce '=' nameValue
      some (unquotePlus nv.1, unquotePlus (nv.2.getD []))

/-- `urlencode(pairs)` with the default `quote_plus` quoting. -/
def urlencode (query : List (Str × Str)) : Str :=
  List.intercalate ['&'] (query.map fun kv => pyQuotePlus kv.1 ++ '=' :: pyQuotePlus kv.2)

/-! ### `normalize_url` (analysis_worker.py) -/

/-- `_TRACKING_QUERY_KEYS` of analysis_worker.py. -/
def TRACKING_QUERY_KEYS : List Str :=
  [str "utm_source", str "utm_medium", str "utm_campaign", str "utm_term",
   str "utm_content", str "gclid", str "fbclid"]

/-- The pair filter inside `normalize_url`: keep `(k, v)` iff `k.lower()` is
not a tracking key. -/
def keepPair (kv : Str × Str) : Bool := ¬ TRACKING_QUERY_KEYS.contains (asciiLower kv.1)

/-- `normalize_url` of analysis_worker.py (`none` when `urlsplit` raises). -/
def normalize_url (url : Str) : Option Str :=
  (urlsplit url).map fun p =>
    urlunsplit p.scheme p.netloc p.path (urlencode ((parse_qsl p.query).filter keepPair)) []

/-! ### `urllib.parse.urlparse` extras used by the classifier -/

/-- Unicode whitespace, as matched by both regex `\s` and `str.isspace` /
`str.strip()` in CPython (the two sets coincide). -/
def pyWhitespace (c : Char) : Bool :=
  [9, 10, 11, 12, 13, 28, 29, 30, 31, 32, 133, 160, 5760, 8192, 8193, 8194, 8195,
   8196, 8197, 8198, 8199, 8200, 8201, 8202, 8232, 8233, 8239, 8287, 12288].contains c.toNat

/-- `str.strip()` (no argument form). -/
def pyStrip (s : Str) : Str :=
  ((s.dropWhile pyWhitespace).reverse.dropWhile pyWhitespace).reverse

/-- Index of the last occurrence of `c` (`str.rfind`). -/
def rfindIdx (c : Char) (s : Str) : Option Nat :=
  (s.reverse.findIdx? (· = c)).map (fun i => s.length - 1 - i)

/-- `uses_params` of `urllib.parse`. -/
def usesParams : List Str :=
  [[], str "ftp", str "hdl", str "prospero", str "http", str "imap", str "https",
   str "shttp", str "rtsp", str "rtsps", str "rtspu", str "sip", str "sips",
   str "mms", str "sftp", str "tel"]

/-- `_splitparams`, path component only (the `params` part is unused here). -/
def splitparams (p : Str) : Str :=
  match rfindIdx '/' p with
  | some k =>
    match (p.drop k).findIdx? (· = ';') with
    | none => p
    | some d => p.take (k + d)
  | none => (splitOnce ';' p).1

/-- The `path` attribute of `urlparse`'s result: `urlsplit`'s path with the
`;params` suffix removed for schemes in `uses_params`. -/
def urlparsePath (r : SplitResult) : Str :=
  if usesParams.contains r.scheme ∧ r.path.contains ';' then splitparams r.path else r.path

/-- The `hostname` attribute of a parse result (`_hostinfo` + lowercasing that
leaves an IPv6 zone suffix intact); `None` is rendered as the empty string,
matching the `(parsed.hostname or "")` use sites. -/
def pyHostname (netloc : Str) : Str :=
  let hostinfo := (splitAll '@' netloc).getLastD []
  let host :=
    match (splitOnce '[' hostinfo).2 with
    | some bracketed => (splitOnce ']' bracketed).1
    | none => (splitOnce ':' hostinfo).1
  match splitOnce '%' host with
  | (a, some z) => asciiLower a ++ '%' :: z
  | (a, none) => asciiLower a

/-! ### note_kinds.py -/

/-- `KIND_ORDER` of note_kinds.py. -/
def KIND_ORDER : List Str :=
  [str "plain_text", str "youtube", str "instagram_post", str "instagram_reel",
   str "threads", str "other_link"]

/-- `_KIND_RANK.get(kind, len(KIND_ORDER))`. -/
def kindRank (k : Str) : Nat := (KIND_ORDER.findIdx? (· = k)).getD KIND_ORDER.length

/-- Stable insertion step of `sorted(·, key=kindRank)`. -/
def insertByRank (x : Str) : List Str → List Str
  | [] => [x]
  | y :: ys => if kindRank x < kindRank y then x :: y :: ys else y :: insertByRank x ys

def sortByRank (l : List Str) : List Str := l.foldr insertByRank []

/-- `_ordered_unique`: the Python argument is a `set`, modelled as the
deduplicated list of kinds; `sorted` by rank is insertion sort (all actual
kinds have pairwise distinct ranks, so any stable sort agrees). -/
def ordered_unique (kinds : List Str) : List Str := sortByRank kinds.dedup

/-- `_YOUTUBE_HOSTS`. -/
def YOUTUBE_HOSTS : List Str :=
  [str "youtube.com", str "www.youtube.com", str "m.youtube.com", str "youtu.be"]

/-- `_is_instagram_host`. -/
def is_instagram_host (host : Str) : Bool :=
  (str "instagram.com").isSuffixOf host ∨ host = str "instagr.am"

/-- `classify_url` of note_kinds.py (`none` when `urlparse` raises). -/
def classify_url (url : Str) : Option Str :=
  (urlsplit url).map fun parsed =>
    let scheme := asciiLower parsed.scheme
    if ¬ (scheme = str "http" ∨ scheme = str "https") then str "plain_text"
    else
      let host := asciiLower (pyHostname parsed.netloc)
      let path := asciiLower (urlparsePath parsed)
      if YOUTUBE_HOSTS.contains host then str "youtube"
      else if is_instagram_host host ∧
          (isSubstr (str "/reel/") path ∨ isSubstr (str "/reels/") path) then
        str "instagram_reel"
      else if is_instagram_host host ∧
          (isSubstr (str "/p/") path ∨ isSubstr (str "/tv/") path) then
        str "instagram_post"
      else if (str "threads.net").isSuffixOf host ∧ isSubstr (str "/post/") path then
        str "threads"
      else str "other_link"

/-- `_TRAILING_PUNCTUATION` = `").,!?]}"`. -/
def TRAILING_PUNCTUATION : List Char := [')', '.', ',', '!', '?', ']', '}']

/-- `str.rstrip(chars)`. -/
def rstripChars (set : List Char) (s : Str) : Str :=
  (s.reverse.dropWhile (set.contains ·)).reverse

/-- A character admissible inside a matched URL: the `[^\s\"'<>]` class of
`_URL_PATTERN`. -/
def isUrlBodyChar (c : Char) : Bool :=
  ¬ (pyWhitespace c ∨ c = '"' ∨ c = Char.ofNat 39 ∨ c = '<' ∨ c = '>')

/-- Case-insensitive match of the literal `https?://` prefix; returns its
length. -/
def matchHttpPrefix (s : Str) : Option Nat :=
  if asciiLower (s.take 8) = str "https://" then some 8
  else if asciiLower (s.take 7) = str "http://" then some 7
  else none

/-- `_URL_PATTERN.finditer`: leftmost non-overlapping matches of
`https?://[^\s\"'<>]+`, scanning resumes after each match (fuel `≥ length`
makes the recursion structural; every step consumes at least one character). -/
def urlScanLoop : Nat → Str → List Str
  | 0, _ => []
  | _, [] => []
  | fuel + 1, c :: cs =>
    match matchHttpPrefix (c :: cs) with
    | some k =>
      let body := ((c :: cs).drop k).takeWhile isUrlBodyChar
      if body = [] then urlScanLoop fuel cs
      else ((c :: cs).take k ++ body) :: urlScanLoop fuel ((c :: cs).drop (k + body.length))
    | none => urlScanLoop fuel cs

/-- `extract_urls` of note_kinds.py: scan a bounded prefix, strip trailing
punctuation, skip empties, cap at `_MAX_URLS = 50`. -/
def extract_urls (text : Str) : List Str :=
  let scanned := text.take 50000
  ((urlScanLoop (scanned.length + 1) scanned).filterMap fun m =>
    let candidate := rstripChars TRAILING_PUNCTUATION m
    if candidate = [] then none else some candidate).take 50

structure NoteKindsResult where
  primary_kind : Str
  kinds : List Str
deriving Repr, DecidableEq

/-- `compute_note_kinds` of note_kinds.py, on the four string fields that
`_read_note_field` extracts (`none` when `urlparse` raises). -/
def compute_note_kinds (sourceUrl contentFull summaryShort summaryLong : Str) :
    Option NoteKindsResult := do
  let sp ← urlsplit sourceUrl
  let sourceScheme := asciiLower sp.scheme
  let primary ←
    if sourceScheme = str "http" ∨ sourceScheme = str "https" then classify_url sourceUrl
    else pure (str "plain_text")
  let textToScan := List.intercalate ['\n'] [sourceUrl, contentFull, summaryShort, summaryLong]
  let classified ← (extract_urls textToScan).mapM classify_url
  pure ⟨primary, ordered_unique (primary :: classified)⟩

/-! ### JSON string-list encoding (`json.dumps(list, ensure_ascii=False)`) -/

def hexDigitLower (n : Nat) : Char :=
  if n < 10 then Char.ofNat (48 + n) else Char.ofNat (87 + n)

def jsonEscapeChar (c : Char) : Str :=
  if c = '"' then ['\\', '"']
  else if c = '\\' then ['\\', '\\']
  else if c.toNat = 8 then ['\\', 'b']
  else if c.toNat = 9 then ['\\', 't']
  else if c.toNat = 10 then ['\\', 'n']
  else if c.toNat = 12 then ['\\', 'f']
  else if c.toNat = 13 then ['\\', 'r']
  else if c.toNat < 32 then
    ['\\', 'u', '0', '0', hexDigitLower (c.toNat / 16), hexDigitLower (c.toNat % 16)]
  else [c]

def jsonStr (s : Str) : Str := '"' :: (s.flatMap jsonEscapeChar ++ ['"'])

/-- `json.dumps` of a list of strings (default `', '` item separator). -/
def jsonStrList (l : List Str) : Str :=
  '[' :: (List.intercalate [',', ' '] (l.map jsonStr) ++ [']'])

/-! ### The store (storage.py), modelled in memory

Rows mirror the SQLite columns; `tags_json`/`hashtags_json` always hold JSON
lists written by the store itself and are carried decoded, while `kinds_json`
is kept as raw column text because `backfill_note_kinds` inspects it textually
(legacy rows may hold `NULL`, `''` or `'[]'`).  Timestamps are opaque `Nat`
values passed in for `datetime.now()`.  Lists are kept in ascending-id
insertion order, matching `AUTOINCREMENT` plus the `ORDER BY id` reads. -/

/-- Truthiness of an optional string (`if note.get("category"):`). -/
def pyTruthyOptStr (o : Option Str) : Bool :=
  match o with
  | some c => c ≠ []
  | none => false

structure PyOpts where
  summaryLength : Option Str := none
  autoCategory : Option Bool := none
  storeFullContent : Option Bool := none
deriving Repr, DecidableEq

structure NoteRow where
  id : Nat
  source_url : Str
  ai_title : Option Str
  summary_short : Option Str
  summary_long : Option Str
  content_full : Str
  category : Option Str
  tags : List Str
  hashtags : List Str
  status : Str
  error_message : Option Str
  created_at : Nat
  updated_at : Nat
  primary_kind : Option Str
  kinds_json : Option Str
deriving Repr, DecidableEq

structure CatRow where
  id : Nat
  name : Str
  color : Option Str
  created_at : Nat
  updated_at : Nat
deriving Repr, DecidableEq

structure JobRow where
  id : Nat
  requested_count : Nat
  queued_count : Nat
  processing_count : Nat
  done_count : Nat
  failed_count : Nat
  options : PyOpts
  created_at : Nat
  updated_at : Nat
deriving Repr, DecidableEq

structure ItemRow where
  id : Nat
  job_id : Nat
  source_url : Str
  note_id : Option Nat
  status : Str
  error_code : Option Str
  error_message : Option Str
  created_at : Nat
  updated_at : Nat
deriving Repr, DecidableEq

structure Store where
  notes : List NoteRow
  nextNoteId : Nat
  categories : List CatRow
  nextCatId : Nat
  jobs : List JobRow
  nextJobId : Nat
  items : List ItemRow
  nextItemId : Nat
deriving Repr, DecidableEq

/-- `INSERT INTO categories … ON CONFLICT(name) DO UPDATE SET updated_at=…`
(the colorless upsert used by note writes). -/
def upsertCategory (s : Store) (name : Str) (now : Nat) : Store :=
  if s.categories.any (·.name = name) then
    { s with categories :=
        s.categories.map fun c2 => if c2.name = name then { c2 with updated_at := now } else c2 }
  else
    { s with
      categories := s.categories ++ [⟨s.nextCatId, name, none, now, now⟩],
      nextCatId := s.nextCatId + 1 }

/-- The dict argument of `create_note`.  `primaryKind`/`kinds` may be present
in the caller's dict but are never read by `create_note` (the classifier's
output is the only source of kind data).  `createdAt`/`updatedAt` are
`some t` when the caller supplied a string timestamp (the `isinstance` check),
otherwise `now` is used. -/
structure NoteInput where
  sourceUrl : Str
  aiTitle : Option Str := none
  summaryShort : Option Str := none
  summaryLong : Option Str := none
  contentFull : Option Str := none
  category : Option Str := none
  tags : Option (List Str) := none
  hashtags : Option (List Str) := none
  status : Option Str := none
  errorMessage : Option Str := none
  createdAt : Option Nat := none
  updatedAt : Option Nat := none
  primaryKind : Option Str := none
  kinds : Option (List Str) := none
deriving Repr, DecidableEq

/-- `create_note` of storage.py; returns the new row id (`none` when the
classifier raises). -/
def create_note (s : Store) (note : NoteInput) (now : Nat) : Option (Store × Nat) :=
  (compute_note_kinds note.sourceUrl (note.contentFull.getD [])
      (note.summaryShort.getD []) (note.summaryLong.getD [])).map fun ki =>
    let row : NoteRow :=
      ⟨s.nextNoteId, note.sourceUrl, note.aiTitle, note.summaryShort, note.summaryLong,
       note.contentFull.getD [], note.category, note.tags.getD [], note.hashtags.getD [],
       note.status.getD (str "done"), note.errorMessage,
       note.createdAt.getD now, note.updatedAt.getD now,
       some ki.primary_kind, some (jsonStrList ki.kinds)⟩
    let s1 := { s with notes := s.notes ++ [row], nextNoteId := s.nextNoteId + 1 }
    let s2 := if pyTruthyOptStr note.category then upsertCategory s1 (note.category.getD []) now
              else s1
    (s2, row.id)

/-- The note dict produced by `_row_to_note`, restricted to the fields read by
the embedded operations (`update_note` and the API layer); the derived
`primaryKind`/`kinds` output fields are not consumed by any embedded operation
and are omitted, but the classifier call `_row_to_note` performs is kept for
its exception behavior. -/
structure NoteView where
  id : Nat
  sourceUrl : Str
  aiTitle : Str
  summaryShort : Str
  summaryLong : Str
  contentFull : Str
  categoryName : Option Str
  tags : List Str
  hashtags : List Str
  status : Str
  errorMessage : Option Str
  createdAt : Nat
  updatedAt : Nat
deriving Repr, DecidableEq

def row_to_note (row : NoteRow) : Option NoteView :=
  (compute_note_kinds row.source_url row.content_full
      (row.summary_short.getD []) (row.summary_long.getD [])).map fun _ki =>
    ⟨row.id, row.source_url, row.ai_title.getD [], row.summary_short.getD [],
     row.summary_long.getD [], row.content_full,
     (if pyTruthyOptStr row.category then some (row.category.getD []) else none),
     row.tags, row.hashtags, row.status, row.error_message, row.created_at, row.updated_at⟩

/-- `get_note`: outer `none` models a raised exception, inner `none` a missing
row. -/
def get_note (s : Store) (nid : Nat) : Option (Option NoteView) :=
  match s.notes.find? (·.id = nid) with
  | none => some none
  | some row => (row_to_note row).map some

/-- The PATCH payload of `update_note`.  A `none` field covers both "absent"
and "explicit null": the route strips nulls (`exclude_none=True`), and
`update_note` itself reads `category` with `patch.get("category")`, which
returns `None` in both cases.  `tags` entries are `(name, type)` pairs. -/
structure NotePatch where
  aiTitle : Option Str := none
  summaryShort : Option Str := none
  summaryLong : Option Str := none
  contentFull : Option Str := none
  category : Option Str := none
  tags : Option (List (Str × Str)) := none
deriving Repr, DecidableEq

/-- `update_note` of storage.py: partial update, classifier re-run on the
patched text, category upsert; returns `get_note` of the result. -/
def update_note (s : Store) (nid : Nat) (patch : NotePatch) (now : Nat) :
    Option (Store × Option NoteView) :=
  (get_note s nid).bind fun
  | none => some (s, none)
  | some current =>
    let ai_title := patch.aiTitle.getD current.aiTitle
    let summary_short := patch.summaryShort.getD current.summaryShort
    let summary_long := patch.summaryLong.getD current.summaryLong
    let content_full := patch.contentFull.getD current.contentFull
    let category : Option Str :=
      match patch.category with
      | none => current.categoryName
      | some c => some c
    let tagLists : List Str × List Str :=
      match patch.tags with
      | none => (current.tags, current.hashtags)
      | some payload =>
        (payload.filterMap fun t => if t.2 = str "tag" then some t.1 else none,
         payload.filterMap fun t => if t.2 = str "hashtag" then some t.1 else none)
    (compute_note_kinds current.sourceUrl content_full summary_short summary_long).bind
      fun ki =>
        let s1 := { s with notes := s.notes.map fun r =>
          if r.id = nid then
            { r with
              ai_title := some ai_title, summary_short := some summary_short,
              summary_long := some summary_long, content_full := content_full,
              category := category, tags := tagLists.1, hashtags := tagLists.2,
              primary_kind := some ki.primary_kind,
              kinds_json := some (jsonStrList ki.kinds), updated_at := now }
          else r }
        let s2 := if pyTruthyOptStr category then upsertCategory s1 (category.getD []) now
                  else s1
        (get_note s2 nid).map fun v => (s2, v)

/-! ### `backfill_note_kinds` -/

/-- SQLite `TRIM` (strips space characters from both ends). -/
def sqlTrim (s : Str) : Str :=
  ((s.dropWhile (· = ' ')).reverse.dropWhile (· = ' ')).reverse

/-- The backfill selection predicate:
`kinds_json IS NULL OR TRIM(kinds_json) = '' OR TRIM(kinds_json) = '[]'`. -/
def needsKinds (r : NoteRow) : Bool :=
  match r.kinds_json with
  | none => true
  | some kj => sqlTrim kj = [] ∨ sqlTrim kj = str "[]"

def computeRowKinds (r : NoteRow) : Option NoteKindsResult :=
  compute_note_kinds r.source_url r.content_full
    (r.summary_short.getD []) (r.summary_long.getD [])

def refreshRow (r : NoteRow) (ki : NoteKindsResult) (now : Nat) : NoteRow :=
  { r with
    primary_kind := some ki.primary_kind,
    kinds_json := some (jsonStrList ki.kinds),
    updated_at := now }

/-- The `while remaining > 0` loop of `backfill_note_kinds`.  The fuel (first
argument, initialised to `max_rows`) only makes the recursion structural:
every iteration processes at least one row, so `remaining` drops by at least
one and fuel `= max_rows ≥ remaining` is never exhausted. -/
def backfillLoop :
    Nat → Store → Nat → Nat → Nat → Nat → Nat → Option (Store × Nat × Nat)
  | 0, s, _, _, scanned, updated, _ => some (s, scanned, updated)
  | fuel + 1, s, step, remaining, scanned, updated, now =>
    if remaining = 0 then some (s, scanned, updated)
    else
      let limit := min step remaining
      let rows := (s.notes.filter needsKinds).take limit
      if rows.isEmpty then some (s, scanned, updated)
      else
        (rows.mapM fun r => (computeRowKinds r).map fun ki => (r.id, ki)).bind fun payload =>
          let s1 := { s with notes := s.notes.map fun r =>
            match payload.find? (·.1 = r.id) with
            | some p => refreshRow r p.2 now
            | none => r }
          let bc := payload.length
          if bc < limit then some (s1, scanned + bc, updated + bc)
          else backfillLoop fuel s1 step (remaining - bc) (scanned + bc) (updated + bc) now

/-- `backfill_note_kinds(batch_size, max_rows)`; returns `(scanned, updated)`
(`none` when the classifier raises on a selected row).  Negative Python
arguments are out of scope of the `Nat` model; `max_rows = 0` is the
`max_rows <= 0` early return. -/
def backfill_note_kinds (s : Store) (batch_size max_rows : Nat) (now : Nat) :
    Option (Store × Nat × Nat) :=
  if max_rows = 0 then some (s, 0, 0)
  else backfillLoop max_rows s (max 1 batch_size) max_rows 0 0 now

/-! ### Job operations (storage.py) -/

/-- `create_job`: one job row plus one `queued` item per URL. -/
def create_job (s : Store) (urls : List Str) (options : PyOpts) (now : Nat) : Store × Nat :=
  let jid := s.nextJobId
  let job : JobRow := ⟨jid, urls.length, urls.length, 0, 0, 0, options, now, now⟩
  let newItems := ((List.range urls.length).zip urls).map fun p =>
    (⟨s.nextItemId + p.1, jid, p.2, none, str "queued", none, none, now, now⟩ : ItemRow)
  ({ s with
     jobs := s.jobs ++ [job], nextJobId := jid + 1,
     items := s.items ++ newItems, nextItemId := s.nextItemId + urls.length }, jid)

def itemsOfJob (s : Store) (jid : Nat) : List ItemRow := s.items.filter (·.job_id = jid)

/-- `update_job_item`: `UPDATE … WHERE job_id=? AND source_url=?`. -/
def update_job_item (s : Store) (jid : Nat) (source_url : Str) (status : Str)
    (note_id : Option Nat) (error_code error_message : Option Str) (now : Nat) : Store :=
  { s with items := s.items.map fun i =>
      if i.job_id = jid ∧ i.source_url = source_url then
        { i with status := status, note_id := note_id, error_code := error_code,
                 error_message := error_message, updated_at := now }
      else i }

def statusCount (s : Store) (jid : Nat) (st : Str) : Nat :=
  ((itemsOfJob s jid).filter (·.status = st)).length

/-- `recalc_job_counts`: rewrite the job's count cache from the item ledger. -/
def recalc_job_counts (s : Store) (jid : Nat) (now : Nat) : Store :=
  { s with jobs := s.jobs.map fun j =>
      if j.id = jid then
        { j with
          queued_count := statusCount s jid (str "queued"),
          processing_count := statusCount s jid (str "processing"),
          done_count := statusCount s jid (str "done"),
          failed_count := statusCount s jid (str "failed"),
          updated_at := now }
      else j }

/-- `mark_retry_failed_items`: reset `failed` items to `queued` (clearing the
error columns), recompute counts, return the `rowcount` of the `UPDATE`. -/
def mark_retry_failed_items (s : Store) (jid : Nat) (now : Nat) : Store × Nat :=
  let n := ((itemsOfJob s jid).filter (·.status = str "failed")).length
  let s1 := { s with items := s.items.map fun i =>
    if i.job_id = jid ∧ i.status = str "failed" then
      { i with status := str "queued", error_code := none, error_message := none,
               updated_at := now }
    else i }
  (recalc_job_counts s1 jid now, n)

def lookupJob (s : Store) (jid : Nat) : Option JobRow := s.jobs.find? (·.id = jid)

/-! ### JobRunner (job_runner.py)

`_running_job_ids` is the active set (guarded by `self._lock`; the lock makes
`enqueue`'s test-and-add and the `finally` discard atomic, which is what the
transition-function model captures).  A completion event models the end of a
submitted `_task`, whose `finally` block discards the job id whether
`process_job` returned or raised. -/

structure RunnerState where
  active : List Nat
deriving Repr, DecidableEq

def runnerEnqueue (st : RunnerState) (jid : Nat) : Bool × RunnerState :=
  if st.active.contains jid then (false, st) else (true, ⟨jid :: st.active⟩)

/-- `self._running_job_ids.discard(job_id)` in the task's `finally`. -/
def runnerComplete (st : RunnerState) (jid : Nat) : RunnerState :=
  ⟨st.active.filter (fun j => ¬ j = jid)⟩

inductive RunnerEvent
  | enq (jid : Nat)
  | complete (jid : Nat)
deriving Repr, DecidableEq

def runnerStep (st : RunnerState) : RunnerEvent → RunnerState
  | .enq j => (runnerEnqueue st j).2
  | .complete j => runnerComplete st j

/-- State after a sequence of enqueue/completion events from startup. -/
def runnerRun (events : List RunnerEvent) : RunnerState :=
  events.foldl runnerStep ⟨[]⟩

/-! ### The analysis worker (analysis_worker.py)

`process_url` is embedded with its I/O stages as oracle parameters: the HTTP
response (or `none` for a raised network error), the body decoder, the HTML
content extractor `extract_main_content`, the `og:` meta extractor, the
Playwright Instagram fetcher, and `analyze_with_llm` (which raises exactly
when the configured external provider fails; the heuristic provider is total).
The control flow, outcome strings and result dictionaries follow the source
line by line. -/

structure AnalyzeResult where
  ai_title : Str
  summary_short : Str
  summary_long : Str
  tags : List Str
  hashtags : List Str
  category : Str
  confidence : Rat
  is_low_content : Bool
deriving Repr, DecidableEq

structure HttpResp where
  contentType : Str
  raw : List Nat
deriving Repr, DecidableEq

structure WorkerEnv where
  httpResp : Option HttpResp
  decodeBody : List Nat → Str
  extractMain : Str → Str
  ogMeta : Str → Str × Str
  browserFetch : Except Unit Str
  analyze : Str → Except Unit AnalyzeResult

structure WorkerCfg where
  httpMaxBytes : Nat
  defaultCategory : Str
  instagramBrowser : Str
deriving Repr, DecidableEq

/-- `fetch_html`: non-HTML content type and over-cap byte counts raise
(`RuntimeError("fetch_failed")`), network errors raise inside `urlopen`. -/
def fetch_html (env : WorkerEnv) (cfg : WorkerCfg) : Except Unit Str :=
  match env.httpResp with
  | none => .error ()
  | some resp =>
    if ¬ isSubstr (str "text/html") (asciiLower resp.contentType) then .error ()
    else
      let raw := resp.raw.take (cfg.httpMaxBytes + 1)
      if cfg.httpMaxBytes < raw.length then .error ()
      else .ok (env.decodeBody raw)

def pyStripChars (set : List Char) (s : Str) : Str :=
  ((s.dropWhile (set.contains ·)).reverse.dropWhile (set.contains ·)).reverse

/-- `_is_instagram_url` (`none` when `urlsplit` raises). -/
def is_instagram_url (url : Str) : Option Bool :=
  (urlsplit url).map fun parsed =>
    isSubstr (str "instagram.com") (asciiLower parsed.netloc) ∧
      parsed.path ≠ [] ∧ pyStripChars ['/'] parsed.path ≠ []

inductive Stage1Out
  | fetchFailed
  | extractFailed
  | gotContent (c : Str)
deriving Repr, DecidableEq

/-- Lines 413–453 of analysis_worker.py: optional Playwright fetch, HTTP fetch
with `fetch_failed` on exception, `extract_main_content`, Instagram `og:` meta
fallback, `extract_failed` when no text survives. -/
def stage1 (env : WorkerEnv) (cfg : WorkerCfg) (isInsta : Bool) : Stage1Out :=
  let content0 : Option Str :=
    if isInsta ∧ cfg.instagramBrowser = str "playwright" then
      match env.browserFetch with
      | .ok c => some c
      | .error _ => none
    else none
  let fetched : Except Unit (Option Str) :=
    if pyTruthyOptStr content0 then .ok content0
    else
      match fetch_html env cfg with
      | .error e => .error e
      | .ok html =>
        let c1 := env.extractMain html
        let c2 :=
          if c1 = [] ∧ isInsta then
            let meta := env.ogMeta html
            let title := pyStrip meta.1
            let desc := pyStrip meta.2
            if desc ≠ [] ∨ title ≠ [] then pyStrip (title ++ '\n' :: '\n' :: desc) else c1
          else c1
        .ok (some c2)
  match fetched with
  | .error _ => .fetchFailed
  | .ok co => if pyTruthyOptStr co then .gotContent (co.getD []) else .extractFailed

/-- The result dict of `process_url`; absent dict keys are `none`. -/
structure ProcResult where
  status : Str
  sourceUrl : Str
  errorMessage : Option Str := none
  contentFull : Option Str := none
  aiTitle : Option Str := none
  summaryShort : Option Str := none
  summaryLong : Option Str := none
  tags : Option (List Str) := none
  hashtags : Option (List Str) := none
  category : Option Str := none
  confidence : Option Rat := none
  noteId : Option Nat := none
deriving Repr, DecidableEq

/-- The Korean unavailability message used for Instagram fetch/extract
failures. -/
def instaMsg : Str :=
  str "인스타그램은 비로그인/비브라우저 요청을 차단합니다. Meta 앱의 oEmbed API(액세스 토큰) 연동 또는 캡션 수동 입력을 이용해 주세요."

/-- `process_url` of analysis_worker.py (`none` when `urlsplit` raises). -/
def process_url (env : WorkerEnv) (cfg : WorkerCfg) (url : Str) (opts : PyOpts) :
    Option ProcResult :=
  (normalize_url url).bind fun canonical =>
  (is_instagram_url canonical).map fun isInsta =>
  match stage1 env cfg isInsta with
  | .fetchFailed =>
    { status := str "fetch_failed", sourceUrl := canonical,
      errorMessage := some (if isInsta then instaMsg else str "fetch failed") }
  | .extractFailed =>
    { status := str "extract_failed", sourceUrl := canonical,
      errorMessage := some (if isInsta then instaMsg else str "extract failed") }
  | .gotContent content =>
    match env.analyze content with
    | .error _ =>
      { status := str "partial_done", sourceUrl := canonical,
        contentFull := some content, aiTitle := some [], summaryShort := some [],
        summaryLong := some [], tags := some [], hashtags := some [],
        category := some cfg.defaultCategory, confidence := some 0,
        errorMessage := some (str "analyze failed") }
    | .ok result =>
      { status := if result.is_low_content then str "partial_done" else str "done",
        sourceUrl := canonical,
        contentFull := some (if opts.storeFullContent.getD true then content else []),
        aiTitle := some result.ai_title, summaryShort := some result.summary_short,
        summaryLong := some result.summary_long, tags := some result.tags,
        hashtags := some result.hashtags, category := some result.category,
        confidence := some result.confidence }

/-- The `create_note(result)` argument built from a `process_url` result dict
(`analyze_and_store`). -/
def noteInputOfResult (r : ProcResult) : NoteInput :=
  { sourceUrl := r.sourceUrl, aiTitle := r.aiTitle, summaryShort := r.summaryShort,
    summaryLong := r.summaryLong, contentFull := r.contentFull, category := r.category,
    tags := r.tags, hashtags := r.hashtags, status := some r.status,
    errorMessage := r.errorMessage }

/-- `analyze_and_store` of service.py: persist a note exactly for the
`done`/`partial_done` outcomes and attach the new note id to the result. -/
def analyze_and_store (env : WorkerEnv) (cfg : WorkerCfg) (url : Str) (s : Store)
    (opts : PyOpts) (now : Nat) : Option (ProcResult × Store) :=
  (process_url env cfg url opts).bind fun result =>
    if result.status = str "done" ∨ result.status = str "partial_done" then
      (create_note s (noteInputOfResult result) now).map fun p =>
        ({ result with noteId := some p.2 }, p.1)
    else some (result, s)


theorem runnerStep_nodup {st : RunnerState} (h : st.active.Nodup) (e : RunnerEvent) :
    (runnerStep st e).active.Nodup := by
  cases e with
  | enq j =>
    simp only [runnerStep, runnerEnqueue]
    by_cases hc : j ∈ st.active
    · simpa [hc] using h
    · simpa [hc] using List.Nodup.cons hc h
  | complete j =>
    exact List.Nodup.filter _ h

theorem runnerRun_nodup (events : List RunnerEvent) : (runnerRun events).active.Nodup := by
  have key : ∀ (evs : List RunnerEvent) (st : RunnerState), st.active.Nodup →
      (evs.foldl runnerStep st).active.Nodup := by
    intro evs
    induction evs with
    | nil => intro st h; simpa using h
    | cons e rest ih => intro st h; exact ih _ (runnerStep_nodup h e)
  exact key events ⟨[]⟩ (by simp)

/-- C7: `enqueue` returns `false` and changes nothing when the job id is
already active, otherwise records it and returns `true`; completion (the
task's `finally`, reached on return or raise alike) removes the id from the
active set; and along any event sequence from startup the active set never
holds the same job id twice. -/
theorem C7_dispatcher_single_active_run :
    (∀ (st : RunnerState) (j : Nat), j ∈ st.active → runnerEnqueue st j = (false, st)) ∧
    (∀ (st : RunnerState) (j : Nat), j ∉ st.active →
        runnerEnqueue st j = (true, ⟨j :: st.active⟩) ∧ j ∈ (⟨j :: st.active⟩ : RunnerState).active) ∧
    (∀ (st : RunnerState) (j : Nat), j ∉ (runnerComplete st j).active) ∧
    (∀ events : List RunnerEvent, (runnerRun events).active.Nodup) := by
  refine ⟨?_, ?_, ?_, runnerRun_nodup⟩
  · intro st j h; simp [runnerEnqueue, h]
  · intro st j h
    exact ⟨by simp [runnerEnqueue, h], by simp⟩
  · intro st j
    simp [runnerComplete]

theorem C7_witness :
    runnerEnqueue ⟨[3]⟩ 3 = (false, ⟨[3]⟩) ∧
    (runnerEnqueue ⟨[7]⟩ 3 = (true, ⟨[3, 7]⟩) ∧ 3 ∈ ([3, 7] : List Nat)) ∧
    3 ∉ (runnerComplete ⟨[3, 7]⟩ 3).active ∧
    (runnerRun [.enq 3, .enq 3, .complete 3]).active.Nodup :=
  ⟨C7_dispatcher_single_active_run.1 ⟨[3]⟩ 3 (by decide),
   C7_dispatcher_single_active_run.2.1 ⟨[7]⟩ 3 (by decide),
   C7_dispatcher_single_active_run.2.2.1 ⟨[3, 7]⟩ 3,
   C7_dispatcher_single_active_run.2.2.2 _⟩


theorem upsertCategory_notes (s : Store) (name : Str) (now : Nat) :
    (upsertCategory s name now).notes = s.notes := by
  unfold upsertCategory; split <;> rfl

theorem catView_idem (o : Option Str) :
    (if pyTruthyOptStr (if pyTruthyOptStr o then some (o.getD []) else none) then
      some ((if pyTruthyOptStr o then some (o.getD []) else none).getD [])
     else none) = (if pyTruthyOptStr o then some (o.getD []) else none) := by
  cases o with
  | none => simp [pyTruthyOptStr]
  | some c => by_cases hc : c = [] <;> simp [pyTruthyOptStr, hc]

/-- C10 -/
theorem C10_null_category_patch_preserves_category
    (s : Store) (nid : Nat) (patch : NotePatch) (now : Nat)
    (s' : Store) (v cur : NoteView)
    (hcat : patch.category = none)
    (hupd : update_note s nid patch now = some (s', some v))
    (hget : get_note s nid = some (some cur)) :
    v.categoryName = cur.categoryName ∧
    (v.categoryName = none → cur.categoryName = none) ∧
    (s'.notes.find? (fun r0 => r0.id = nid)).map (fun r0 => r0.category) =
      some cur.categoryName := by
  have hget2 := hget
  unfold get_note at hget2
  rcases hfind : s.notes.find? (fun r0 => r0.id = nid) with _ | r
  · rw [hfind] at hget2; exact absurd hget2 (by simp)
  rw [hfind] at hget2
  rcases Option.map_eq_some'.1 hget2 with ⟨cur', hrtn, hcur'⟩
  injection hcur' with hcur2
  subst hcur2
  unfold update_note at hupd
  rw [hget] at hupd
  rcases Option.bind_eq_some.1 hupd with ⟨ki0, hki0, hrest⟩
  injection hki0 with hki0e
  subst hki0e
  simp only [hcat] at hrest
  rcases Option.bind_eq_some.1 hrest with ⟨ki, hki, hrest2⟩
  rcases Option.map_eq_some'.1 hrest2 with ⟨w, hw, hpair⟩
  injection hpair with hp1 hp2
  subst hp1
  subst hp2
  -- the view's category of the original row
  rcases Option.map_eq_some'.1 hrtn with ⟨kic, hkic, hcurdef⟩
  have hcurcat : cur'.categoryName =
      (if pyTruthyOptStr r.category then some (r.category.getD []) else none) := by
    rw [← hcurdef]
  -- category upsert leaves the notes table alone
  have hgnotes : ∀ st : Store,
      (if pyTruthyOptStr cur'.categoryName then
        upsertCategory st (cur'.categoryName.getD []) now else st).notes = st.notes := by
    intro st; split
    · exact upsertCategory_notes _ _ _
    · rfl
  rw [get_note, hgnotes] at hw
  dsimp only at hw
  -- dissect the lookup of the patched row
  split at hw
  case _ => exact absurd hw (by simp)
  case _ r2 hf2 =>
  rcases Option.map_eq_some'.1 hw with ⟨v', hv', hvv⟩
  injection hvv with hvv2
  rw [← hvv2]
  -- every row the patch touched carries the preserved category
  have hr2cat : r2.category = cur'.categoryName := by
    have hmem : r2 ∈ s.notes.map _ := List.mem_of_find?_eq_some hf2
    have hpred : (r2.id = nid) := by simpa using List.find?_some hf2
    rcases List.mem_map.1 hmem with ⟨x, hx, hgx⟩
    by_cases hxid : x.id = nid
    · rw [if_pos hxid] at hgx
      rw [← hgx]
    · rw [if_neg hxid] at hgx
      rw [← hgx] at hpred
      exact absurd hpred hxid
  -- read off the view of the patched row
  rcases Option.map_eq_some'.1 hv' with ⟨kiv, hkiv, hvdef⟩
  have hvcat : v'.categoryName =
      (if pyTruthyOptStr r2.category then some (r2.category.getD []) else none) := by
    rw [← hvdef]
  refine ⟨?_, ?_, ?_⟩
  · rw [hvcat, hr2cat, hcurcat, catView_idem]
  · intro hnone
    rw [hvcat, hr2cat, hcurcat, catView_idem, ← hcurcat] at hnone
    exact hnone
  · rw [hgnotes]
    dsimp only
    rw [hf2]
    simp [hr2cat]

def w10row : NoteRow :=
  ⟨1, [], none, none, none, [], some (str "work"), [], [], str "done", none, 0, 0,
   some (str "plain_text"), some (jsonStrList [str "plain_text"])⟩

def w10store : Store := ⟨[w10row], 2, [⟨1, str "work", none, 0, 0⟩], 2, [], 1, [], 1⟩

def w10storeAfter : Store :=
  ⟨[⟨1, [], some (str "t"), some [], some [], [], some (str "work"), [], [], str "done",
     none, 0, 7, some (str "plain_text"), some (jsonStrList [str "plain_text"])⟩], 2,
   [⟨1, str "work", none, 0, 7⟩], 2, [], 1, [], 1⟩

def w10v : NoteView :=
  ⟨1, [], str "t", [], [], [], some (str "work"), [], [], str "done", none, 0, 7⟩

def w10cur : NoteView :=
  ⟨1, [], [], [], [], [], some (str "work"), [], [], str "done", none, 0, 0⟩

theorem C10_null_category_patch_preserves_category_witness :
    w10v.categoryName = w10cur.categoryName ∧
    (w10v.categoryName = none → w10cur.categoryName = none) ∧
    (w10storeAfter.notes.find? (fun r0 => r0.id = 1)).map (fun r0 => r0.category) =
      some w10cur.categoryName :=
  C10_null_category_patch_preserves_category w10store 1 { aiTitle := some (str "t") } 7
    w10storeAfter w10v w10cur rfl (by decide) (by decide)


/-- The per-item effect of `mark_retry_failed_items` on the job's own items. -/
def retryReset (now : Nat) (i : ItemRow) : ItemRow :=
  if i.status = str "failed" then
    { i with status := str "queued", error_code := none, error_message := none,
             updated_at := now }
  else i

theorem retry_items_commute (jid now : Nat) (items : List ItemRow) :
    ((items.map (fun i => if i.job_id = jid ∧ i.status = str "failed" then
        { i with status := str "queued", error_code := none, error_message := none,
                 updated_at := now } else i)).filter (fun i => i.job_id = jid)) =
    (items.filter (fun i => i.job_id = jid)).map (retryReset now) := by
  induction items with
  | nil => rfl
  | cons i rest ih =>
    by_cases h1 : i.job_id = jid <;> by_cases h2 : i.status = str "failed" <;>
      simp [retryReset, h1, h2, ih]

theorem counts_after_retryReset (now : Nat) (l : List ItemRow) :
    ((l.map (retryReset now)).filter (fun i => i.status = str "queued")).length =
      (l.filter (fun i => i.status = str "queued")).length +
      (l.filter (fun i => i.status = str "failed")).length ∧
    ((l.map (retryReset now)).filter (fun i => i.status = str "failed")).length = 0 ∧
    (∀ st : Str, st ≠ str "queued" → st ≠ str "failed" →
      ((l.map (retryReset now)).filter (fun i => i.status = st)).length =
      (l.filter (fun i => i.status = st)).length) := by
  have hqf : (str "queued" : Str) ≠ str "failed" := by decide
  induction l with
  | nil => exact ⟨rfl, rfl, fun st h1 h2 => rfl⟩
  | cons i rest ih =>
    obtain ⟨ih1, ih2, ih3⟩ := ih
    by_cases h2 : i.status = str "failed"
    · have hrq : retryReset now i =
          { i with status := str "queued", error_code := none, error_message := none,
                   updated_at := now } := by simp [retryReset, h2]
      refine ⟨?_, ?_, ?_⟩
      · simp [hrq, h2, ih1, hqf, hqf.symm]
        omega
      · simp [hrq, h2, ih2, hqf, hqf.symm]
      · intro st hs1 hs2
        have hns : ¬ (str "queued" = st) := fun h => hs1 h.symm
        have hns2 : ¬ (i.status = st) := by rw [h2]; exact fun h => hs2 h.symm
        simp [hrq, hns, hns2, ih3 st hs1 hs2]
    · have hr : retryReset now i = i := by simp [retryReset, h2]
      refine ⟨?_, ?_, ?_⟩
      · by_cases hq : i.status = str "queued" <;> (simp [hr, hq, h2, ih1, hqf]; try omega)
      · simp [hr, h2, ih2]
      · intro st hs1 hs2
        by_cases hst : i.status = st <;> simp [hr, hst, ih3 st hs1 hs2]


/-- C6: retry resets exactly the items whose status is `failed` back to
`queued` (clearing their error columns), recomputes the job counts from the
item ledger, and returns the number of items reset; when the job has no
failed items it is a no-op that returns 0, changes no item, and — the cached
counts being consistent with the items — leaves every count unchanged. -/
theorem C6_retry_resets_exactly_failed
    (s : Store) (jid : Nat) (now : Nat) (j : JobRow)
    (hnd : (s.jobs.map (fun j0 => j0.id)).Nodup)
    (hj : lookupJob s jid = some j) :
    (mark_retry_failed_items s jid now).2 =
      ((itemsOfJob s jid).filter (fun i => i.status = str "failed")).length ∧
    itemsOfJob (mark_retry_failed_items s jid now).1 jid =
      (itemsOfJob s jid).map (retryReset now) ∧
    (∀ j', lookupJob (mark_retry_failed_items s jid now).1 jid = some j' →
      j'.requested_count = j.requested_count ∧
      j'.failed_count = 0 ∧
      j'.queued_count = statusCount s jid (str "queued") +
        (mark_retry_failed_items s jid now).2 ∧
      j'.processing_count = statusCount s jid (str "processing") ∧
      j'.done_count = statusCount s jid (str "done")) ∧
    ((mark_retry_failed_items s jid now).2 = 0 →
      (mark_retry_failed_items s jid now).1.items = s.items ∧
      (j.queued_count = statusCount s jid (str "queued") →
       j.processing_count = statusCount s jid (str "processing") →
       j.done_count = statusCount s jid (str "done") →
       j.failed_count = statusCount s jid (str "failed") →
       ∀ j', lookupJob (mark_retry_failed_items s jid now).1 jid = some j' →
         j'.queued_count = j.queued_count ∧ j'.processing_count = j.processing_count ∧
         j'.done_count = j.done_count ∧ j'.failed_count = j.failed_count)) := by
  have hitems : itemsOfJob (mark_retry_failed_items s jid now).1 jid =
      (itemsOfJob s jid).map (retryReset now) := by
    show ((s.items.map _).filter _) = _
    exact retry_items_commute jid now s.items
  have hcounts := counts_after_retryReset now (itemsOfJob s jid)
  have hn : (mark_retry_failed_items s jid now).2 =
      ((itemsOfJob s jid).filter (fun i => i.status = str "failed")).length := rfl
  have hjmem : j ∈ s.jobs := List.mem_of_find?_eq_some hj
  have hjid : j.id = jid := by simpa using List.find?_some hj
  -- the recomputed counts of any looked-up job row
  have hlook : ∀ j', lookupJob (mark_retry_failed_items s jid now).1 jid = some j' →
      j'.requested_count = j.requested_count ∧
      j'.failed_count = 0 ∧
      j'.queued_count = statusCount s jid (str "queued") +
        (mark_retry_failed_items s jid now).2 ∧
      j'.processing_count = statusCount s jid (str "processing") ∧
      j'.done_count = statusCount s jid (str "done") := by
    intro j' hj'
    have hid' : j'.id = jid := by simpa using List.find?_some hj'
    have hmem := List.mem_of_find?_eq_some hj'
    rcases List.mem_map.1 hmem with ⟨x, hx, hGx⟩
    by_cases hxid : x.id = jid
    · rw [if_pos hxid] at hGx
      have hxj : x = j := by
        have hxmem : x ∈ s.jobs := hx
        exact List.inj_on_of_nodup_map hnd hxmem hjmem (by rw [hxid, hjid])
      have hsc : ∀ st : Str,
          statusCount { s with items := s.items.map (fun i : ItemRow =>
            if i.job_id = jid ∧ i.status = str "failed" then
              { i with status := str "queued", error_code := none, error_message := none,
                       updated_at := now } else i) } jid st =
          (((itemsOfJob s jid).map (retryReset now)).filter
            (fun i : ItemRow => i.status = st)).length := by
        intro st
        show (((s.items.map _).filter _).filter _).length = _
        rw [retry_items_commute jid now s.items]
        rfl
      refine ⟨?_, ?_, ?_, ?_, ?_⟩
      · rw [← hGx, hxj]
      · rw [← hGx]
        show statusCount _ jid (str "failed") = 0
        rw [hsc]
        exact hcounts.2.1
      · rw [← hGx]
        show statusCount _ jid (str "queued") = _
        rw [hsc, hn]
        exact hcounts.1
      · rw [← hGx]
        show statusCount _ jid (str "processing") = _
        rw [hsc]
        exact hcounts.2.2 (str "processing") (by decide) (by decide)
      · rw [← hGx]
        show statusCount _ jid (str "done") = _
        rw [hsc]
        exact hcounts.2.2 (str "done") (by decide) (by decide)
    · rw [if_neg hxid] at hGx
      rw [← hGx] at hid'
      exact absurd hid' hxid
  refine ⟨hn, hitems, hlook, ?_⟩
  intro hn0
  constructor
  · show s.items.map _ = s.items
    have : ∀ i : ItemRow, i ∈ s.items → (if i.job_id = jid ∧ i.status = str "failed" then
        { i with status := str "queued", error_code := none, error_message := none,
                 updated_at := now } else i) = i := by
      intro i hi
      by_cases hc : i.job_id = jid ∧ i.status = str "failed"
      · exfalso
        have himem : i ∈ (itemsOfJob s jid).filter (fun i => i.status = str "failed") := by
          refine List.mem_filter.2 ⟨List.mem_filter.2 ⟨hi, by simp [hc.1]⟩, by simp [hc.2]⟩
        have hlen := List.length_pos_of_mem himem
        rw [hn] at hn0
        omega
      · exact if_neg hc
    calc s.items.map _ = s.items.map id := List.map_congr_left this
    _ = s.items := List.map_id s.items
  · intro hcq hcp hcd hcf j' hj'
    obtain ⟨_, hf0, hqq, hpp, hdd⟩ := hlook j' hj'
    rw [hn] at hn0
    refine ⟨?_, ?_, ?_, ?_⟩
    · rw [hqq, hcq, hn, hn0]
      omega
    · rw [hpp, hcp]
    · rw [hdd, hcd]
    · rw [hf0, hcf]
      exact hn0.symm



def w6job : JobRow := ⟨1, 2, 1, 0, 0, 1, ⟨none, none, none⟩, 0, 0⟩

def w6store : Store :=
  ⟨[], 1, [], 1, [w6job], 2,
   [⟨1, 1, str "u1", none, str "queued", none, none, 0, 0⟩,
    ⟨2, 1, str "u2", none, str "failed", some (str "fetch_failed"), some (str "boom"), 0, 0⟩], 3⟩

def w6jobAfter : JobRow := ⟨1, 2, 2, 0, 0, 0, ⟨none, none, none⟩, 0, 9⟩

theorem C6_retry_resets_exactly_failed_witness :
    (mark_retry_failed_items w6store 1 9).2 =
      ((itemsOfJob w6store 1).filter (fun i => i.status = str "failed")).length ∧
    itemsOfJob (mark_retry_failed_items w6store 1 9).1 1 =
      (itemsOfJob w6store 1).map (retryReset 9) ∧
    (w6jobAfter.requested_count = w6job.requested_count ∧
     w6jobAfter.failed_count = 0 ∧
     w6jobAfter.queued_count = statusCount w6store 1 (str "queued") +
       (mark_retry_failed_items w6store 1 9).2 ∧
     w6jobAfter.processing_count = statusCount w6store 1 (str "processing") ∧
     w6jobAfter.done_count = statusCount w6store 1 (str "done")) := by
  have h := C6_retry_resets_exactly_failed w6store 1 9 w6job (by decide) (by decide)
  exact ⟨h.1, h.2.1, h.2.2.1 w6jobAfter (by decide)⟩


/-- The item statuses of the job state machine. -/
def validStatuses : List Str :=
  [str "queued", str "processing", str "done", str "failed"]

/-- The item-level operations the dispatcher performs on a job
(service.py's `process_job` calls of `update_job_item` followed by
`recalc_job_counts`, and the store's retry), with their timestamps. -/
inductive JobOp
  | toProcessing (url : Str) (t tr : Nat)
  | toDone (url : Str) (noteId : Option Nat) (t tr : Nat)
  | toFailed (url : Str) (errorCode errorMessage : Option Str) (t tr : Nat)
  | retry (t : Nat)

def applyJobOp (jid : Nat) (s : Store) : JobOp → Store
  | .toProcessing url t tr =>
    recalc_job_counts (update_job_item s jid url (str "processing") none none none t) jid tr
  | .toDone url noteId t tr =>
    recalc_job_counts (update_job_item s jid url (str "done") noteId none none t) jid tr
  | .toFailed url ec em t tr =>
    recalc_job_counts (update_job_item s jid url (str "failed") none ec em t) jid tr
  | .retry t => (mark_retry_failed_items s jid t).1

def applyJobOps (jid : Nat) (s : Store) (ops : List JobOp) : Store :=
  ops.foldl (applyJobOp jid) s

/-- Items in one of the four statuses are counted exactly once by the four
per-status filters. -/
theorem counts_partition (l : List ItemRow)
    (h : ∀ i ∈ l, i.status ∈ validStatuses) :
    (l.filter (fun i => i.status = str "queued")).length +
    (l.filter (fun i => i.status = str "processing")).length +
    (l.filter (fun i => i.status = str "done")).length +
    (l.filter (fun i => i.status = str "failed")).length = l.length := by
  have hqp : (str "queued" : Str) ≠ str "processing" := by decide
  have hqd : (str "queued" : Str) ≠ str "done" := by decide
  have hqf : (str "queued" : Str) ≠ str "failed" := by decide
  have hpd : (str "processing" : Str) ≠ str "done" := by decide
  have hpf : (str "processing" : Str) ≠ str "failed" := by decide
  have hdf : (str "done" : Str) ≠ str "failed" := by decide
  induction l with
  | nil => rfl
  | cons i rest ih =>
    have hi : i.status ∈ validStatuses := h i (List.mem_cons_self i rest)
    have hrest : ∀ x ∈ rest, x.status ∈ validStatuses :=
      fun x hx => h x (List.mem_cons_of_mem i hx)
    have ih2 := ih hrest
    simp only [validStatuses, List.mem_cons, List.not_mem_nil, or_false] at hi
    rcases hi with hs | hs | hs | hs <;>
      simp [hs, hqp, hqd, hqf, hpd, hpf, hdf,
        Ne.symm hqp, Ne.symm hqd, Ne.symm hqf, Ne.symm hpd, Ne.symm hpf, Ne.symm hdf] <;>
      omega


/-- The invariant carried through a job's life: items hold machine statuses,
their number is the submission size, and every matching job row records that
size as `requested_count` with cached counts summing to it. -/
def JobInv (jid n : Nat) (s : Store) : Prop :=
  (∀ i ∈ itemsOfJob s jid, i.status ∈ validStatuses) ∧
  (itemsOfJob s jid).length = n ∧
  (∀ j ∈ s.jobs, j.id = jid →
    j.requested_count = n ∧
    j.queued_count + j.processing_count + j.done_count + j.failed_count = n)

theorem upd_items_commute (jid : Nat) (url st : Str) (nid : Option Nat)
    (ec em : Option Str) (t : Nat) (items : List ItemRow) :
    ((items.map (fun i => if i.job_id = jid ∧ i.source_url = url then
        { i with status := st, note_id := nid, error_code := ec, error_message := em,
                 updated_at := t } else i)).filter (fun i => i.job_id = jid)) =
    (items.filter (fun i => i.job_id = jid)).map (fun i =>
      if i.source_url = url then
        { i with status := st, note_id := nid, error_code := ec, error_message := em,
                 updated_at := t } else i) := by
  induction items with
  | nil => rfl
  | cons i rest ih =>
    by_cases h1 : i.job_id = jid <;> by_cases h2 : i.source_url = url <;>
      simp [h1, h2, ih]

theorem recalc_inv {jid n : Nat} {s : Store} (t : Nat) (h : JobInv jid n s) :
    JobInv jid n (recalc_job_counts s jid t) := by
  obtain ⟨h1, h2, h3⟩ := h
  refine ⟨h1, h2, ?_⟩
  intro j hj hid
  rcases List.mem_map.1 hj with ⟨x, hx, hGx⟩
  by_cases hxid : x.id = jid
  · rw [if_pos hxid] at hGx
    obtain ⟨hr, _⟩ := h3 x hx hxid
    constructor
    · rw [← hGx]; exact hr
    · rw [← hGx]
      show statusCount s jid (str "queued") + statusCount s jid (str "processing") +
        statusCount s jid (str "done") + statusCount s jid (str "failed") = n
      rw [← h2]
      exact counts_partition (itemsOfJob s jid) h1
  · rw [if_neg hxid] at hGx
    rw [← hGx] at hid
    exact absurd hid hxid

theorem update_item_inv {jid n : Nat} {s : Store} (url st nid ec em t)
    (hst : st ∈ validStatuses) (h : JobInv jid n s) :
    JobInv jid n (update_job_item s jid url st nid ec em t) := by
  obtain ⟨h1, h2, h3⟩ := h
  have hcomm := upd_items_commute jid url st nid ec em t s.items
  have hitems : itemsOfJob (update_job_item s jid url st nid ec em t) jid =
      (itemsOfJob s jid).map (fun i =>
        if i.source_url = url then
          { i with status := st, note_id := nid, error_code := ec, error_message := em,
                   updated_at := t } else i) := hcomm
  refine ⟨?_, ?_, h3⟩
  · intro i hi
    rw [hitems] at hi
    rcases List.mem_map.1 hi with ⟨x, hx, hFx⟩
    by_cases hxu : x.source_url = url
    · rw [if_pos hxu] at hFx
      rw [← hFx]
      exact hst
    · rw [if_neg hxu] at hFx
      rw [← hFx]
      exact h1 x hx
  · rw [hitems, List.length_map]
    exact h2

theorem retry_inv {jid n : Nat} {s : Store} (t : Nat) (h : JobInv jid n s) :
    JobInv jid n (mark_retry_failed_items s jid t).1 := by
  obtain ⟨h1, h2, h3⟩ := h
  have hitems : itemsOfJob { s with items := s.items.map (fun i =>
      if i.job_id = jid ∧ i.status = str "failed" then
        { i with status := str "queued", error_code := none, error_message := none,
                 updated_at := t } else i) } jid =
      (itemsOfJob s jid).map (retryReset t) := retry_items_commute jid t s.items
  apply recalc_inv
  refine ⟨?_, ?_, h3⟩
  · intro i hi
    rw [hitems] at hi
    rcases List.mem_map.1 hi with ⟨x, hx, hFx⟩
    unfold retryReset at hFx
    by_cases hxf : x.status = str "failed"
    · rw [if_pos hxf] at hFx
      rw [← hFx]
      show str "queued" ∈ validStatuses
      decide
    · rw [if_neg hxf] at hFx
      rw [← hFx]
      exact h1 x hx
  · rw [hitems, List.length_map]
    exact h2

theorem create_job_inv (s0 : Store) (urls : List Str) (options : PyOpts) (t0 : Nat)
    (hwfI : ∀ i ∈ s0.items, i.job_id ≠ s0.nextJobId)
    (hwfJ : ∀ j ∈ s0.jobs, j.id ≠ s0.nextJobId) :
    JobInv (create_job s0 urls options t0).2 urls.length (create_job s0 urls options t0).1 := by
  have hnewmem : ∀ i ∈ (((List.range urls.length).zip urls).map fun p =>
      (⟨s0.nextItemId + p.1, s0.nextJobId, p.2, none, str "queued", none, none, t0, t0⟩ :
        ItemRow)), i.job_id = s0.nextJobId ∧ i.status = str "queued" := by
    intro i hi
    rcases List.mem_map.1 hi with ⟨p, _, hp⟩
    rw [← hp]
    exact ⟨rfl, rfl⟩
  have hitems : itemsOfJob (create_job s0 urls options t0).1 (create_job s0 urls options t0).2 =
      ((List.range urls.length).zip urls).map fun p =>
        (⟨s0.nextItemId + p.1, s0.nextJobId, p.2, none, str "queued", none, none, t0, t0⟩ :
          ItemRow) := by
    show (s0.items ++ _).filter (fun i => i.job_id = s0.nextJobId) = _
    rw [List.filter_append]
    have e1 : s0.items.filter (fun i => i.job_id = s0.nextJobId) = [] := by
      rw [List.filter_eq_nil_iff]
      intro i hi
      simpa using hwfI i hi
    have e2 := List.filter_eq_self.2 (fun i hi => decide_eq_true (hnewmem i hi).1)
    rw [e1, e2, List.nil_append]
  refine ⟨?_, ?_, ?_⟩
  · intro i hi
    rw [hitems] at hi
    have := (hnewmem i hi).2
    rw [this]
    decide
  · rw [hitems, List.length_map, List.length_zip, List.length_range]
    omega
  · intro j hj hid
    rcases List.mem_append.1 hj with hold | hnew
    · exact absurd hid (hwfJ j hold)
    · have : j = ⟨s0.nextJobId, urls.length, urls.length, 0, 0, 0, options, t0, t0⟩ := by
        simpa using hnew
      rw [this]
      refine ⟨rfl, ?_⟩
      show urls.length + 0 + 0 + 0 = urls.length
      omega

/-- C1: for every job, at every observable point of its lifetime — at
creation, after each dispatcher item-status transition followed by a count
recomputation, and after retry — the cached per-status counts satisfy
`queued + processing + done + failed = requested_count`, and
`requested_count` is the number of URLs submitted with the job. -/
theorem C1_job_count_invariant
    (s0 : Store) (urls : List Str) (options : PyOpts) (t0 : Nat) (ops : List JobOp)
    (s1 : Store) (jid : Nat)
    (hwfI : ∀ i ∈ s0.items, i.job_id ≠ s0.nextJobId)
    (hwfJ : ∀ j ∈ s0.jobs, j.id ≠ s0.nextJobId)
    (hcreate : create_job s0 urls options t0 = (s1, jid)) :
    ∀ j ∈ (applyJobOps jid s1 ops).jobs, j.id = jid →
      j.queued_count + j.processing_count + j.done_count + j.failed_count =
        j.requested_count ∧
      j.requested_count = urls.length := by
  have base : JobInv jid urls.length s1 := by
    have h := create_job_inv s0 urls options t0 hwfI hwfJ
    rw [hcreate] at h
    exact h
  have step : ∀ (ops' : List JobOp) (s : Store), JobInv jid urls.length s →
      JobInv jid urls.length (applyJobOps jid s ops') := by
    intro ops'
    induction ops' with
    | nil => intro s h; exact h
    | cons op rest ih =>
      intro s h
      refine ih _ ?_
      cases op with
      | toProcessing url t tr =>
        exact recalc_inv tr (update_item_inv url (str "processing") none none none t
          (by decide) h)
      | toDone url noteId t tr =>
        exact recalc_inv tr (update_item_inv url (str "done") noteId none none t
          (by decide) h)
      | toFailed url ec em t tr =>
        exact recalc_inv tr (update_item_inv url (str "failed") none ec em t
          (by decide) h)
      | retry t => exact retry_inv t h
  intro j hj hid
  obtain ⟨hr, hsum⟩ := (step ops s1 base).2.2 j hj hid
  exact ⟨by rw [hr]; exact hsum, hr⟩

theorem C1_job_count_invariant_witness :
    (⟨1, 2, 2, 0, 0, 0, ⟨none, none, none⟩, 0, 5⟩ : JobRow).queued_count +
        (⟨1, 2, 2, 0, 0, 0, ⟨none, none, none⟩, 0, 5⟩ : JobRow).processing_count +
        (⟨1, 2, 2, 0, 0, 0, ⟨none, none, none⟩, 0, 5⟩ : JobRow).done_count +
        (⟨1, 2, 2, 0, 0, 0, ⟨none, none, none⟩, 0, 5⟩ : JobRow).failed_count =
      (⟨1, 2, 2, 0, 0, 0, ⟨none, none, none⟩, 0, 5⟩ : JobRow).requested_count ∧
    (⟨1, 2, 2, 0, 0, 0, ⟨none, none, none⟩, 0, 5⟩ : JobRow).requested_count =
      ([str "u1", str "u2"] : List Str).length :=
  C1_job_count_invariant ⟨[], 1, [], 1, [], 1, [], 1⟩ [str "u1", str "u2"]
    ⟨none, none, none⟩ 0
    [.toProcessing (str "u1") 1 2, .toFailed (str "u1") (some (str "fetch_failed"))
      (some (str "boom")) 3 4, .retry 5]
    (create_job ⟨[], 1, [], 1, [], 1, [], 1⟩ [str "u1", str "u2"] ⟨none, none, none⟩ 0).1 1
    (by simp) (by simp) (by decide)
    ⟨1, 2, 2, 0, 0, 0, ⟨none, none, none⟩, 0, 5⟩ (by decide) (by decide)

/-- The strict rank order underlying `_ordered_unique`'s sort key. -/
def kindLt (a b : Str) : Prop := kindRank a < kindRank b

theorem mem_insertByRank {x y : Str} {l : List Str} :
    y ∈ insertByRank x l ↔ y = x ∨ y ∈ l := by
  induction l with
  | nil => simp [insertByRank]
  | cons z zs ih =>
    by_cases h : kindRank x < kindRank z
    · simp [insertByRank, h]
    · simp [insertByRank, h, ih]
      tauto

theorem mem_sortByRank {y : Str} {l : List Str} : y ∈ sortByRank l ↔ y ∈ l := by
  induction l with
  | nil => simp [sortByRank]
  | cons z zs ih =>
    show y ∈ insertByRank z (sortByRank zs) ↔ _
    rw [mem_insertByRank, ih]
    simp

theorem insertByRank_perm (x : Str) (l : List Str) :
    List.Perm (insertByRank x l) (x :: l) := by
  induction l with
  | nil => simp [insertByRank]
  | cons y ys ih =>
    by_cases h : kindRank x < kindRank y
    · simp [insertByRank, h]
    · simp only [insertByRank, h, if_false, ite_false]
      exact List.Perm.trans (ih.cons y) (List.Perm.swap x y ys)

theorem sortByRank_perm (l : List Str) : List.Perm (sortByRank l) l := by
  induction l with
  | nil => simp [sortByRank]
  | cons x xs ih =>
    exact List.Perm.trans (insertByRank_perm x (sortByRank xs)) (ih.cons x)

theorem kindRank_inj {a b : Str} (ha : a ∈ KIND_ORDER) (hb : b ∈ KIND_ORDER)
    (h : kindRank a = kindRank b) : a = b := by
  simp only [KIND_ORDER, List.mem_cons, List.not_mem_nil, or_false] at ha hb
  rcases ha with rfl | rfl | rfl | rfl | rfl | rfl <;>
    rcases hb with rfl | rfl | rfl | rfl | rfl | rfl <;>
      first
      | rfl
      | (exfalso; revert h; decide)

theorem sorted_insertByRank {x : Str} {l : List Str}
    (hs : List.Sorted kindLt l)
    (hne : ∀ y ∈ l, kindRank y ≠ kindRank x) :
    List.Sorted kindLt (insertByRank x l) := by
  induction l with
  | nil => simp [insertByRank]
  | cons y ys ih =>
    rcases List.sorted_cons.1 hs with ⟨hy, hys⟩
    by_cases h : kindRank x < kindRank y
    · simp only [insertByRank, h, if_true, ite_true]
      refine List.sorted_cons.2 ⟨?_, hs⟩
      intro b hb
      rcases List.mem_cons.1 hb with rfl | hb2
      · exact h
      · exact lt_trans h (hy b hb2)
    · have hyx : kindLt y x := by
        have := hne y (List.mem_cons_self y ys)
        unfold kindLt
        omega
      simp only [insertByRank, h, if_false, ite_false]
      refine List.sorted_cons.2 ⟨?_, ih hys (fun z hz => hne z (List.mem_cons_of_mem y hz))⟩
      intro b hb
      rcases mem_insertByRank.1 hb with rfl | hb2
      · exact hyx
      · exact hy b hb2

theorem sortByRank_sorted {l : List Str} (hnd : l.Nodup)
    (hmem : ∀ x ∈ l, x ∈ KIND_ORDER) :
    List.Sorted kindLt (sortByRank l) := by
  induction l with
  | nil => simp [sortByRank]
  | cons x xs ih =>
    rcases List.nodup_cons.1 hnd with ⟨hx, hxs⟩
    have hs := ih hxs (fun z hz => hmem z (List.mem_cons_of_mem x hz))
    show List.Sorted _ (insertByRank x (sortByRank xs))
    apply sorted_insertByRank hs
    intro y hy heq
    have hymem : y ∈ xs := mem_sortByRank.1 hy
    have : y = x :=
      kindRank_inj (hmem y (List.mem_cons_of_mem x hymem)) (hmem x (List.mem_cons_self x xs)) heq
    exact hx (this ▸ hymem)

theorem KIND_ORDER_nodup : KIND_ORDER.Nodup := by decide

instance : DecidableRel kindLt := fun a b => Nat.decLt (kindRank a) (kindRank b)

theorem KIND_ORDER_pairwise : List.Pairwise kindLt KIND_ORDER := by decide

/-- On any set of kinds drawn from the taxonomy, `_ordered_unique` is the
taxon-order filter of `KIND_ORDER` — so its output order is the fixed
taxonomy order, independent of the order kinds were discovered in. -/
theorem ordered_unique_eq_filter {l : List Str} (hmem : ∀ x ∈ l, x ∈ KIND_ORDER) :
    ordered_unique l = KIND_ORDER.filter (fun k => k ∈ l) := by
  have hnd : l.dedup.Nodup := List.nodup_dedup l
  have hmem' : ∀ x ∈ l.dedup, x ∈ KIND_ORDER := fun x hx => hmem x (List.mem_dedup.1 hx)
  have h1 : List.Sorted kindLt (sortByRank l.dedup) := sortByRank_sorted hnd hmem'
  have h2 : List.Sorted kindLt (KIND_ORDER.filter (fun k => k ∈ l)) :=
    List.Pairwise.sublist (List.filter_sublist KIND_ORDER) KIND_ORDER_pairwise
  have hnd1 : (sortByRank l.dedup).Nodup := ((sortByRank_perm l.dedup).nodup_iff).2 hnd
  have hnd2 : (KIND_ORDER.filter (fun k => k ∈ l)).Nodup :=
    List.Nodup.filter _ KIND_ORDER_nodup
  have hperm : List.Perm (sortByRank l.dedup) (KIND_ORDER.filter (fun k => k ∈ l)) := by
    refine (List.perm_ext_iff_of_nodup hnd1 hnd2).2 ?_
    intro a
    rw [mem_sortByRank, List.mem_dedup, List.mem_filter]
    constructor
    · intro ha
      exact ⟨hmem a ha, by simpa using ha⟩
    · intro ha
      simpa using ha.2
  haveI : IsAntisymm Str kindLt :=
    ⟨fun a b h1 h2 => absurd (lt_trans h1 h2) (lt_irrefl _)⟩
  exact List.eq_of_perm_of_sorted hperm h1 h2

theorem classify_url_mem {u k : Str} (h : classify_url u = some k) : k ∈ KIND_ORDER := by
  rcases Option.map_eq_some'.1 h with ⟨p, _, hk⟩
  rw [← hk]
  dsimp only
  split_ifs <;> decide

theorem mapM_option_mem {α β : Type} {f : α → Option β} :
    ∀ {l : List α} {ys : List β}, l.mapM f = some ys → ∀ y ∈ ys, ∃ x ∈ l, f x = some y := by
  intro l
  induction l with
  | nil =>
    intro ys h y hy
    rw [List.mapM_nil] at h
    injection h with he
    rw [← he] at hy
    cases hy
  | cons x xs ih =>
    intro ys h y hy
    rw [List.mapM_cons] at h
    rcases Option.bind_eq_some.1 h with ⟨b, hb, h2⟩
    rcases Option.bind_eq_some.1 h2 with ⟨bs, hbs, h3⟩
    injection h3 with h3e
    rw [← h3e] at hy
    rcases List.mem_cons.1 hy with rfl | hy2
    · exact ⟨x, List.mem_cons_self x xs, hb⟩
    · rcases ih hbs y hy2 with ⟨x', hx', hfx'⟩
      exact ⟨x', List.mem_cons_of_mem x hx', hfx'⟩

/-- Dissection of `compute_note_kinds`: on success the result is the primary
kind together with the ordered-unique closure of primary plus the classified
embedded URLs, all drawn from `KIND_ORDER`. -/
theorem compute_note_kinds_spec {a b c d : Str} {ki : NoteKindsResult}
    (h : compute_note_kinds a b c d = some ki) :
    ∃ primary classified, ki = ⟨primary, ordered_unique (primary :: classified)⟩ ∧
      primary ∈ KIND_ORDER ∧ ∀ k ∈ classified, k ∈ KIND_ORDER := by
  unfold compute_note_kinds at h
  rcases Option.bind_eq_some.1 h with ⟨sp, hsp, h2⟩
  dsimp only at h2
  split at h2
  · rcases Option.bind_eq_some.1 h2 with ⟨primary, hprim, h3⟩
    rcases Option.bind_eq_some.1 h3 with ⟨classified, hcls, h4⟩
    injection h4 with h4e
    refine ⟨primary, classified, h4e.symm, classify_url_mem hprim, ?_⟩
    intro k hk
    rcases mapM_option_mem hcls k hk with ⟨u, _, hu⟩
    exact classify_url_mem hu
  · rcases Option.bind_eq_some.1 h2 with ⟨primary, hprim, h3⟩
    rcases Option.bind_eq_some.1 h3 with ⟨classified, hcls, h4⟩
    injection h4 with h4e
    injection hprim with hpe
    refine ⟨primary, classified, h4e.symm, ?_, ?_⟩
    · rw [← hpe]
      decide
    · intro k hk
      rcases mapM_option_mem hcls k hk with ⟨u, _, hu⟩
      exact classify_url_mem hu

/-- C5 (corrected ordering): the classifier's kind set is deduplicated and
sorted in the code's fixed taxonomy order `KIND_ORDER = [plain_text, youtube,
instagram_post, instagram_reel, threads, other_link]` — it is a sublist of
that order, duplicate-free, and always contains the primary kind; being a
set-determined sublist of a fixed list, it is independent of the order in
which URLs are discovered in the scanned text. -/
theorem C5_kind_set_ordered_taxonomy (a b c d : Str) (ki : NoteKindsResult)
    (h : compute_note_kinds a b c d = some ki) :
    ki.kinds.Sublist KIND_ORDER ∧ ki.kinds.Nodup ∧ ki.primary_kind ∈ ki.kinds := by
  obtain ⟨primary, classified, hki, hpm, hcm⟩ := compute_note_kinds_spec h
  subst hki
  have hmem : ∀ x ∈ primary :: classified, x ∈ KIND_ORDER := by
    intro x hx
    rcases List.mem_cons.1 hx with rfl | hx2
    · exact hpm
    · exact hcm x hx2
  have heq : ordered_unique (primary :: classified) =
      KIND_ORDER.filter (fun k => k ∈ primary :: classified) :=
    ordered_unique_eq_filter hmem
  refine ⟨?_, ?_, ?_⟩
  · show ordered_unique (primary :: classified) |>.Sublist KIND_ORDER
    rw [heq]
    exact List.filter_sublist KIND_ORDER
  · show (ordered_unique (primary :: classified)).Nodup
    rw [heq]
    exact List.Nodup.filter _ KIND_ORDER_nodup
  · show primary ∈ ordered_unique (primary :: classified)
    exact mem_sortByRank.2 (List.mem_dedup.2 (List.mem_cons_self primary classified))

theorem C5_kind_set_ordered_taxonomy_witness :
    (NoteKindsResult.mk (str "plain_text") [str "plain_text", str "youtube"]).kinds.Sublist
      KIND_ORDER ∧
    (NoteKindsResult.mk (str "plain_text") [str "plain_text", str "youtube"]).kinds.Nodup ∧
    (NoteKindsResult.mk (str "plain_text")
      [str "plain_text", str "youtube"]).primary_kind ∈
      (NoteKindsResult.mk (str "plain_text") [str "plain_text", str "youtube"]).kinds :=
  C5_kind_set_ordered_taxonomy (str "kakaotalk://in-chat/123")
    (str "shared video https://www.youtube.com/watch?v=abc") [] []
    (NoteKindsResult.mk (str "plain_text") [str "plain_text", str "youtube"]) (by decide)

/-- C5, the claim's stated order refuted: the spec sentence puts
`instagram_reel` before `instagram_post`, but on a note whose source URL is a
reel and whose content mentions a post the code returns the kind set with
`instagram_post` first (the code's `KIND_ORDER` ranks `instagram_post` before
`instagram_reel`, as its own unit tests expect); the set is therefore not
sorted by the spec's claimed `youtube, instagram_reel, instagram_post,
threads, other_link` order. -/
theorem C5_spec_order_counterexample :
    compute_note_kinds (str "https://instagram.com/reel/a/")
        (str "https://instagram.com/p/b/") [] [] =
      some ⟨str "instagram_reel", [str "instagram_post", str "instagram_reel"]⟩ ∧
    ¬ ([str "instagram_post", str "instagram_reel"] : List Str).Sublist
        [str "youtube", str "instagram_reel", str "instagram_post", str "threads",
         str "other_link"] := by
  constructor
  · decide
  · decide

theorem compute_primary_mem {a b c d : Str} {ki : NoteKindsResult}
    (h : compute_note_kinds a b c d = some ki) : ki.primary_kind ∈ ki.kinds := by
  obtain ⟨primary, classified, hki, _, _⟩ := compute_note_kinds_spec h
  subst hki
  show primary ∈ ordered_unique (primary :: classified)
  exact mem_sortByRank.2 (List.mem_dedup.2 (List.mem_cons_self primary classified))

/-- C4: kind data is recomputed by the classifier on every write.  (1)
`create_note` is insensitive to caller-supplied `primaryKind`/`kinds` fields;
(2) on successful create, the persisted row's kind columns equal the
classifier's output on the note's source URL, content and summaries, and the
kind set contains the primary kind; (3) on successful update of an existing
note, every stored row with the patched id carries the classifier's output on
the current source URL and the patched content/summaries, and the kind set
contains the primary kind. -/
theorem C4_kinds_recomputed_on_write (s : Store) (note : NoteInput) (pk : Option Str)
    (ks : Option (List Str)) (nid : Nat) (patch : NotePatch) (now : Nat) :
    create_note s { note with primaryKind := pk, kinds := ks } now = create_note s note now ∧
    (∀ s2 rid, create_note s note now = some (s2, rid) →
      ∃ ki, compute_note_kinds note.sourceUrl (note.contentFull.getD [])
            (note.summaryShort.getD []) (note.summaryLong.getD []) = some ki ∧
          ki.primary_kind ∈ ki.kinds ∧
          (s2.notes.getLast?.map fun r => (r.primary_kind, r.kinds_json)) =
            some (some ki.primary_kind, some (jsonStrList ki.kinds))) ∧
    (∀ s2 v cur, update_note s nid patch now = some (s2, v) →
      get_note s nid = some (some cur) →
      ∃ ki, compute_note_kinds cur.sourceUrl (patch.contentFull.getD cur.contentFull)
            (patch.summaryShort.getD cur.summaryShort)
            (patch.summaryLong.getD cur.summaryLong) = some ki ∧
          ki.primary_kind ∈ ki.kinds ∧
          ∀ r : NoteRow, r ∈ s2.notes → r.id = nid →
            r.primary_kind = some ki.primary_kind ∧
            r.kinds_json = some (jsonStrList ki.kinds)) := by
  refine ⟨rfl, ?_, ?_⟩
  · intro s2 rid h
    unfold create_note at h
    rcases Option.map_eq_some'.1 h with ⟨ki, hki, he⟩
    refine ⟨ki, hki, compute_primary_mem hki, ?_⟩
    have hs2 := congrArg Prod.fst he
    dsimp only at hs2
    rw [← hs2]
    by_cases hc : pyTruthyOptStr note.category = true
    · simp only [hc, if_true, upsertCategory_notes]
      simp [List.getLast?_concat]
    · simp only [hc, if_false]
      simp [List.getLast?_concat]
  · intro s2 v cur h hcur
    unfold update_note at h
    rcases Option.bind_eq_some.1 h with ⟨ov, hov, h2⟩
    rw [hcur] at hov
    injection hov with hove
    rw [← hove] at h2
    dsimp only at h2
    rcases Option.bind_eq_some.1 h2 with ⟨ki, hki, h3⟩
    refine ⟨ki, hki, compute_primary_mem hki, ?_⟩
    rcases Option.map_eq_some'.1 h3 with ⟨v2, hv2, hpair⟩
    have hs2 := congrArg Prod.fst hpair
    dsimp only at hs2
    intro r hr hrid
    rw [← hs2] at hr
    have hrn : r ∈ (s.notes.map fun r0 =>
        if r0.id = nid then
          { r0 with
            ai_title := some (patch.aiTitle.getD cur.aiTitle),
            summary_short := some (patch.summaryShort.getD cur.summaryShort),
            summary_long := some (patch.summaryLong.getD cur.summaryLong),
            content_full := patch.contentFull.getD cur.contentFull,
            category := (match patch.category with
              | none => cur.categoryName
              | some c => some c),
            tags := (match patch.tags with
              | none => (cur.tags, cur.hashtags)
              | some payload =>
                (payload.filterMap fun t : Str × Str => if t.2 = str "tag" then some t.1 else none,
                 payload.filterMap fun t : Str × Str =>
                   if t.2 = str "hashtag" then some t.1 else none)).1,
            hashtags := (match patch.tags with
              | none => (cur.tags, cur.hashtags)
              | some payload =>
                (payload.filterMap fun t : Str × Str => if t.2 = str "tag" then some t.1 else none,
                 payload.filterMap fun t : Str × Str =>
                   if t.2 = str "hashtag" then some t.1 else none)).2,
            primary_kind := some ki.primary_kind,
            kinds_json := some (jsonStrList ki.kinds), updated_at := now }
        else r0) := by
      by_cases hc : pyTruthyOptStr (match patch.category with
          | none => cur.categoryName
          | some c => some c) = true
      · rw [if_pos hc, upsertCategory_notes] at hr
        exact hr
      · rw [if_neg hc] at hr
        exact hr
    rcases List.mem_map.1 hrn with ⟨r0, _, hfr⟩
    by_cases h0 : r0.id = nid
    · rw [if_pos h0] at hfr
      rw [← hfr]
      exact ⟨rfl, rfl⟩
    · rw [if_neg h0] at hfr
      rw [← hfr] at hrid
      exact absurd hrid h0

def w4note : NoteInput := { sourceUrl := str "https://example.com/blog/post" }

def w4patch : NotePatch := { contentFull := some (str "see https://youtu.be/abc") }

def w4row : NoteRow :=
  ⟨0, str "https://example.com/blog/post", none, none, none, [], none, [], [],
   str "done", none, 7, 7, some (str "other_link"), some (str "[\"other_link\"]")⟩

def w4s2 : Store := ⟨[w4row], 1, [], 0, [], 0, [], 0⟩

def w4row2 : NoteRow :=
  ⟨1, str "https://example.com/blog/post", none, none, none, [], none, [], [],
   str "done", none, 9, 9, some (str "other_link"), some (str "[\"other_link\"]")⟩

def w4s3 : Store := ⟨[w4row, w4row2], 2, [], 0, [], 0, [], 0⟩

def w4rowU : NoteRow :=
  ⟨0, str "https://example.com/blog/post", some [], some [], some [],
   str "see https://youtu.be/abc", none, [], [], str "done", none, 7, 9,
   some (str "other_link"), some (str "[\"youtube\", \"other_link\"]")⟩

def w4s4 : Store := ⟨[w4rowU], 1, [], 0, [], 0, [], 0⟩

def w4v : NoteView :=
  ⟨0, str "https://example.com/blog/post", [], [], [], str "see https://youtu.be/abc",
   none, [], [], str "done", none, 7, 9⟩

def w4cur : NoteView :=
  ⟨0, str "https://example.com/blog/post", [], [], [], [], none, [], [],
   str "done", none, 7, 7⟩

theorem C4_kinds_recomputed_on_write_witness :
    create_note w4s2 { w4note with primaryKind := some (str "plain_text"), kinds := some [] } 9 =
      create_note w4s2 w4note 9 ∧
    (∃ ki, compute_note_kinds w4note.sourceUrl (w4note.contentFull.getD [])
          (w4note.summaryShort.getD []) (w4note.summaryLong.getD []) = some ki ∧
        ki.primary_kind ∈ ki.kinds ∧
        (w4s3.notes.getLast?.map fun r => (r.primary_kind, r.kinds_json)) =
          some (some ki.primary_kind, some (jsonStrList ki.kinds))) ∧
    (∃ ki, compute_note_kinds w4cur.sourceUrl (w4patch.contentFull.getD w4cur.contentFull)
          (w4patch.summaryShort.getD w4cur.summaryShort)
          (w4patch.summaryLong.getD w4cur.summaryLong) = some ki ∧
        ki.primary_kind ∈ ki.kinds ∧
        ∀ r : NoteRow, r ∈ w4s4.notes → r.id = 0 →
          r.primary_kind = some ki.primary_kind ∧
          r.kinds_json = some (jsonStrList ki.kinds)) := by
  obtain ⟨h1, h2, h3⟩ :=
    C4_kinds_recomputed_on_write w4s2 w4note (some (str "plain_text")) (some []) 0 w4patch 9
  exact ⟨h1, h2 w4s3 1 (by decide), h3 w4s4 (some w4v) w4cur (by decide) (by decide)⟩

theorem create_note_shape {s : Store} {note : NoteInput} {now : Nat} {s2 : Store} {rid : Nat}
    (h : create_note s note now = some (s2, rid)) :
    ∃ row : NoteRow, s2.notes = s.notes ++ [row] ∧ rid = s.nextNoteId := by
  unfold create_note at h
  rcases Option.map_eq_some'.1 h with ⟨ki, hki, he⟩
  have h1 := congrArg Prod.fst he
  have h2 := congrArg Prod.snd he
  dsimp only at h1 h2
  refine ⟨⟨s.nextNoteId, note.sourceUrl, note.aiTitle, note.summaryShort, note.summaryLong,
    note.contentFull.getD [], note.category, note.tags.getD [], note.hashtags.getD [],
    note.status.getD (str "done"), note.errorMessage, note.createdAt.getD now,
    note.updatedAt.getD now, some ki.primary_kind, some (jsonStrList ki.kinds)⟩, ?_, h2.symm⟩
  rw [← h1]
  by_cases hcat : pyTruthyOptStr note.category = true
  · rw [if_pos hcat, upsertCategory_notes]
  · rw [if_neg hcat]

/-- C2: when fetch and extract succeed (`stage1` yields content) but the
analyze stage raises, `process_url` returns `partial_done` carrying the
extracted content, empty analysis fields (title, summaries, tags, hashtags),
the default category and the error message "analyze failed"; and
`analyze_and_store` then persists a note (the store grows by one row, the new
row id is attached to the result) — the fetched content is never discarded. -/
theorem C2_analyze_failure_degrades_not_drops
    (env : WorkerEnv) (cfg : WorkerCfg) (url canonical content : Str) (isInsta : Bool)
    (opts : PyOpts) (s : Store) (now : Nat)
    (hc : normalize_url url = some canonical)
    (hi : is_instagram_url canonical = some isInsta)
    (hs : stage1 env cfg isInsta = .gotContent content)
    (ha : env.analyze content = .error ()) :
    process_url env cfg url opts = some
      { status := str "partial_done", sourceUrl := canonical,
        errorMessage := some (str "analyze failed"), contentFull := some content,
        aiTitle := some [], summaryShort := some [], summaryLong := some [],
        tags := some [], hashtags := some [], category := some cfg.defaultCategory,
        confidence := some 0 } ∧
    ∀ r2 s2, analyze_and_store env cfg url s opts now = some (r2, s2) →
      r2.status = str "partial_done" ∧ r2.contentFull = some content ∧
      r2.aiTitle = some [] ∧ r2.summaryShort = some [] ∧ r2.summaryLong = some [] ∧
      r2.tags = some [] ∧ r2.hashtags = some [] ∧
      r2.errorMessage = some (str "analyze failed") ∧
      r2.noteId = some s.nextNoteId ∧ s2.notes.length = s.notes.length + 1 := by
  have h1 : process_url env cfg url opts = some
      { status := str "partial_done", sourceUrl := canonical,
        errorMessage := some (str "analyze failed"), contentFull := some content,
        aiTitle := some [], summaryShort := some [], summaryLong := some [],
        tags := some [], hashtags := some [], category := some cfg.defaultCategory,
        confidence := some 0 } := by
    unfold process_url
    rw [hc]
    simp only [Option.some_bind]
    rw [hi]
    simp only [Option.map_some']
    rw [hs]
    dsimp only
    rw [ha]
  refine ⟨h1, ?_⟩
  intro r2 s2 h
  unfold analyze_and_store at h
  rw [h1] at h
  simp only [Option.some_bind] at h
  rw [if_pos (Or.inr trivial)] at h
  rcases Option.map_eq_some'.1 h with ⟨p, hp, he⟩
  injection he with he1 he2
  obtain ⟨row, hrow, hrid⟩ := create_note_shape hp
  rw [← he1, ← he2]
  refine ⟨rfl, rfl, rfl, rfl, rfl, rfl, rfl, rfl, ?_, ?_⟩
  · show some p.2 = some s.nextNoteId
    rw [hrid]
  · rw [hrow]
    simp

/-- C3: `fetch_html` raises exactly when the HTTP request raised, the content
type is not HTML, or the body exceeds the byte cap; and whenever `stage1`
ends in `fetch_failed` (resp. `extract_failed`), `analyze_and_store` returns
that terminal result with no note id assigned and the note store unchanged. -/
theorem C3_fetch_extract_failures_create_no_note
    (env : WorkerEnv) (cfg : WorkerCfg) (url canonical : Str) (isInsta : Bool)
    (opts : PyOpts) (s : Store) (now : Nat)
    (hc : normalize_url url = some canonical)
    (hi : is_instagram_url canonical = some isInsta) :
    (fetch_html env cfg = .error () ↔
      env.httpResp = none ∨ ∃ resp, env.httpResp = some resp ∧
        (¬ isSubstr (str "text/html") (asciiLower resp.contentType) ∨
          cfg.httpMaxBytes < resp.raw.length)) ∧
    (stage1 env cfg isInsta = .fetchFailed →
      analyze_and_store env cfg url s opts now = some
        ({ status := str "fetch_failed", sourceUrl := canonical,
           errorMessage := some (if isInsta then instaMsg else str "fetch failed") }, s)) ∧
    (stage1 env cfg isInsta = .extractFailed →
      analyze_and_store env cfg url s opts now = some
        ({ status := str "extract_failed", sourceUrl := canonical,
           errorMessage := some (if isInsta then instaMsg else str "extract failed") }, s)) := by
  refine ⟨?_, ?_, ?_⟩
  · unfold fetch_html
    cases hr : env.httpResp with
    | none => simp
    | some resp =>
      dsimp only
      constructor
      · intro he
        by_cases hct : isSubstr (str "text/html") (asciiLower resp.contentType) = true
        · rw [if_neg (by simp [hct])] at he
          split at he
          · rename_i hlen
            rw [List.length_take] at hlen
            exact Or.inr ⟨resp, rfl, Or.inr (by omega)⟩
          · exact absurd he (by simp)
        · exact Or.inr ⟨resp, rfl, Or.inl (by simp [hct])⟩
      · rintro (hnone | ⟨resp2, hr2, hbig⟩)
        · exact absurd hnone (by simp)
        · injection hr2 with hr2e
          rw [← hr2e] at hbig
          rcases hbig with hbad | hbig
          · rw [if_pos (by simpa using hbad)]
          · by_cases hct : isSubstr (str "text/html") (asciiLower resp.contentType) = true
            · rw [if_neg (by simp [hct]), if_pos (by rw [List.length_take]; omega)]
            · rw [if_pos (by simp [hct])]
  · intro hs1
    have h1 : process_url env cfg url opts = some
        { status := str "fetch_failed", sourceUrl := canonical,
          errorMessage := some (if isInsta then instaMsg else str "fetch failed") } := by
      unfold process_url
      rw [hc]
      simp only [Option.some_bind]
      rw [hi]
      simp only [Option.map_some']
      rw [hs1]
    unfold analyze_and_store
    rw [h1]
    simp only [Option.some_bind]
    rw [if_neg (by decide)]
  · intro hs1
    have h1 : process_url env cfg url opts = some
        { status := str "extract_failed", sourceUrl := canonical,
          errorMessage := some (if isInsta then instaMsg else str "extract failed") } := by
      unfold process_url
      rw [hc]
      simp only [Option.some_bind]
      rw [hi]
      simp only [Option.map_some']
      rw [hs1]
    unfold analyze_and_store
    rw [h1]
    simp only [Option.some_bind]
    rw [if_neg (by decide)]

def w2env : WorkerEnv :=
  { httpResp := some ⟨str "text/html; charset=utf-8", [104, 105]⟩,
    decodeBody := fun _ => str "hello content",
    extractMain := fun h => h,
    ogMeta := fun _ => ([], []),
    browserFetch := .error (),
    analyze := fun _ => .error () }

def w2cfg : WorkerCfg := ⟨1000, str "misc", str "none"⟩

def w2s : Store := ⟨[], 0, [], 0, [], 0, [], 0⟩

theorem C2_analyze_failure_degrades_not_drops_witness :
    process_url w2env w2cfg (str "https://example.com/a") {} = some
      { status := str "partial_done", sourceUrl := str "https://example.com/a",
        errorMessage := some (str "analyze failed"),
        contentFull := some (str "hello content"), aiTitle := some [],
        summaryShort := some [], summaryLong := some [], tags := some [],
        hashtags := some [], category := some w2cfg.defaultCategory,
        confidence := some 0 } ∧
    ∀ r2 s2, analyze_and_store w2env w2cfg (str "https://example.com/a") w2s {} 3 =
        some (r2, s2) →
      r2.status = str "partial_done" ∧ r2.contentFull = some (str "hello content") ∧
      r2.aiTitle = some [] ∧ r2.summaryShort = some [] ∧ r2.summaryLong = some [] ∧
      r2.tags = some [] ∧ r2.hashtags = some [] ∧
      r2.errorMessage = some (str "analyze failed") ∧
      r2.noteId = some w2s.nextNoteId ∧ s2.notes.length = w2s.notes.length + 1 :=
  C2_analyze_failure_degrades_not_drops w2env w2cfg (str "https://example.com/a")
    (str "https://example.com/a") (str "hello content") false {} w2s 3
    (by decide) (by decide) (by decide) rfl

def w3env : WorkerEnv :=
  { httpResp := none,
    decodeBody := fun _ => [],
    extractMain := fun _ => [],
    ogMeta := fun _ => ([], []),
    browserFetch := .error (),
    analyze := fun _ => .error () }

def w3cfg : WorkerCfg := ⟨1000, str "misc", str "none"⟩

def w3s : Store := ⟨[], 0, [], 0, [], 0, [], 0⟩

theorem C3_fetch_extract_failures_create_no_note_witness :
    (fetch_html w3env w3cfg = .error () ↔
      w3env.httpResp = none ∨ ∃ resp, w3env.httpResp = some resp ∧
        (¬ isSubstr (str "text/html") (asciiLower resp.contentType) ∨
          w3cfg.httpMaxBytes < resp.raw.length)) ∧
    (stage1 w3env w3cfg false = .fetchFailed →
      analyze_and_store w3env w3cfg (str "https://example.com/a") w3s {} 3 = some
        ({ status := str "fetch_failed", sourceUrl := str "https://example.com/a",
           errorMessage := some (if false then instaMsg else str "fetch failed") }, w3s)) ∧
    (stage1 w3env w3cfg false = .extractFailed →
      analyze_and_store w3env w3cfg (str "https://example.com/a") w3s {} 3 = some
        ({ status := str "extract_failed", sourceUrl := str "https://example.com/a",
           errorMessage := some (if false then instaMsg else str "extract failed") }, w3s)) :=
  C3_fetch_extract_failures_create_no_note w3env w3cfg (str "https://example.com/a")
    (str "https://example.com/a") false {} w3s 3 (by decide) (by decide)

theorem mapM_option_mem_left {α β : Type} {f : α → Option β} :
    ∀ {l : List α} {ys : List β}, l.mapM f = some ys → ∀ x ∈ l, ∃ y ∈ ys, f x = some y := by
  intro l
  induction l with
  | nil =>
    intro ys _ x hx
    cases hx
  | cons a t ih =>
    intro ys h x hx
    rw [List.mapM_cons] at h
    rcases Option.bind_eq_some.1 h with ⟨b, hb, h2⟩
    rcases Option.bind_eq_some.1 h2 with ⟨bs, hbs, h3⟩
    injection h3 with h3e
    rcases List.mem_cons.1 hx with rfl | hx2
    · exact ⟨b, by rw [← h3e]; exact List.mem_cons_self b bs, hb⟩
    · rcases ih hbs x hx2 with ⟨y, hy, hfy⟩
      exact ⟨y, by rw [← h3e]; exact List.mem_cons_of_mem b hy, hfy⟩

theorem mapM_option_length {α β : Type} {f : α → Option β} :
    ∀ {l : List α} {ys : List β}, l.mapM f = some ys → ys.length = l.length := by
  intro l
  induction l with
  | nil =>
    intro ys h
    rw [List.mapM_nil] at h
    injection h with he
    rw [← he]
    rfl
  | cons a t ih =>
    intro ys h
    rw [List.mapM_cons] at h
    rcases Option.bind_eq_some.1 h with ⟨b, _, h2⟩
    rcases Option.bind_eq_some.1 h2 with ⟨bs, hbs, h3⟩
    injection h3 with h3e
    rw [← h3e]
    simp [ih hbs]

theorem length_filter_le_of_imp {α : Type} (l : List α) (p q : α → Bool)
    (h : ∀ a ∈ l, p a = true → q a = true) :
    (l.filter p).length ≤ (l.filter q).length := by
  induction l with
  | nil => simp
  | cons a t ih =>
    have ht : ∀ b ∈ t, p b = true → q b = true := fun b hb => h b (List.mem_cons_of_mem a hb)
    have iht := ih ht
    by_cases hp : p a = true
    · rw [List.filter_cons_of_pos hp, List.filter_cons_of_pos (h a (List.mem_cons_self a t) hp)]
      simpa using iht
    · rw [List.filter_cons_of_neg (by simpa using hp)]
      by_cases hq : q a = true
      · rw [List.filter_cons_of_pos hq]
        calc (t.filter p).length ≤ (t.filter q).length := iht
          _ ≤ (a :: t.filter q).length := by simp
      · rw [List.filter_cons_of_neg (by simpa using hq)]
        exact iht

theorem mem_sqlTrim {c : Char} {s : Str} (hc : ¬ c = ' ') (h : c ∈ s) : c ∈ sqlTrim s := by
  have key : ∀ (l : Str), c ∈ l → c ∈ l.dropWhile (· = ' ') := by
    intro l
    induction l with
    | nil => intro h2; cases h2
    | cons a t ih =>
      intro h2
      by_cases ha : a = ' '
      · rw [List.dropWhile_cons_of_pos (by simp [ha])]
        rcases List.mem_cons.1 h2 with rfl | h3
        · exact absurd ha hc
        · exact ih h3
      · rw [List.dropWhile_cons_of_neg (by simp [ha])]
        exact h2
  unfold sqlTrim
  exact List.mem_reverse.2 (key _ (List.mem_reverse.2 (key _ h)))

theorem quote_mem_jsonStrList (k : Str) (rest : List Str) : '"' ∈ jsonStrList (k :: rest) := by
  unfold jsonStrList
  apply List.mem_cons_of_mem
  apply List.mem_append_left
  show '"' ∈ List.intercalate [',', ' '] (jsonStr k :: rest.map jsonStr)
  cases hm : rest.map jsonStr with
  | nil =>
    simp only [List.intercalate, List.intersperse, List.flatten]
    show '"' ∈ jsonStr k ++ []
    apply List.mem_append_left
    exact List.mem_cons_self _ _
  | cons b bs =>
    simp only [List.intercalate, List.intersperse, List.flatten]
    apply List.mem_append_left
    exact List.mem_cons_self _ _

theorem refreshRow_not_needy (r : NoteRow) {ki : NoteKindsResult} (now : Nat)
    (h : ki.kinds ≠ []) : needsKinds (refreshRow r ki now) = false := by
  cases hk : ki.kinds with
  | nil => exact absurd hk h
  | cons k rest =>
    have hq : '"' ∈ sqlTrim (jsonStrList (k :: rest)) :=
      mem_sqlTrim (by decide) (quote_mem_jsonStrList k rest)
    have hne : ¬ (sqlTrim (jsonStrList ki.kinds) = [] ∨
        sqlTrim (jsonStrList ki.kinds) = str "[]") := by
      rw [hk]
      rintro (h1 | h1)
      · rw [h1] at hq
        cases hq
      · rw [h1] at hq
        exact absurd hq (by decide)
    exact decide_eq_false hne

theorem get_map_helper {α β : Type} (f : α → β) (l : List α) (i : Nat)
    (hi : i < l.length) (hi2 : i < (l.map f).length) :
    (l.map f).get ⟨i, hi2⟩ = f (l.get ⟨i, hi⟩) := by
  simp

theorem backfillLoop_clears :
    ∀ (fuel : Nat) (s : Store) (step remaining scanned updated now : Nat)
      (s2 : Store) (sc2 up2 : Nat),
      1 ≤ step → (s.notes.filter needsKinds).length ≤ remaining → remaining ≤ fuel →
      backfillLoop fuel s step remaining scanned updated now = some (s2, sc2, up2) →
      s2.notes.filter needsKinds = [] := by
  intro fuel
  induction fuel with
  | zero =>
    intro s step remaining sc up now s2 sc2 up2 hstep hcov hrem h
    unfold backfillLoop at h
    injection h with he
    have hs := congrArg Prod.fst he
    dsimp only at hs
    rw [← hs]
    rw [← List.length_eq_zero]
    omega
  | succ k ih =>
    intro s step remaining sc up now s2 sc2 up2 hstep hcov hrem h
    unfold backfillLoop at h
    by_cases h0 : remaining = 0
    · rw [if_pos h0] at h
      injection h with he
      have hs := congrArg Prod.fst he
      dsimp only at hs
      rw [← hs, ← List.length_eq_zero]
      omega
    · rw [if_neg h0] at h
      by_cases hemp : ((s.notes.filter needsKinds).take (min step remaining)).isEmpty = true
      · rw [if_pos hemp] at h
        injection h with he
        have hs := congrArg Prod.fst he
        dsimp only at hs
        rw [← hs]
        have hnil : (s.notes.filter needsKinds).take (min step remaining) = [] :=
          List.isEmpty_iff.1 hemp
        rcases List.take_eq_nil_iff.1 hnil with h1 | h1
        · exact absurd h1 (by omega)
        · exact h1
      · rw [if_neg hemp] at h
        rcases Option.bind_eq_some.1 h with ⟨payload, hpl, h2⟩
        dsimp only at h2
        have hlenp : payload.length =
            ((s.notes.filter needsKinds).take (min step remaining)).length :=
          mapM_option_length hpl
        have hrlen : ((s.notes.filter needsKinds).take (min step remaining)).length =
            min (min step remaining) (s.notes.filter needsKinds).length :=
          List.length_take _ _
        have hfind : ∀ r ∈ (s.notes.filter needsKinds).take (min step remaining),
            ∃ p ∈ payload, p.1 = r.id := by
          intro r hr
          rcases mapM_option_mem_left hpl r hr with ⟨p, hp, hfp⟩
          rcases Option.map_eq_some'.1 hfp with ⟨ki, _, hpe⟩
          exact ⟨p, hp, by rw [← hpe]⟩
        have hpki : ∀ p ∈ payload, p.2.kinds ≠ [] := by
          intro p hp
          rcases mapM_option_mem hpl p hp with ⟨r, _, hfp⟩
          rcases Option.map_eq_some'.1 hfp with ⟨ki, hki, hpe⟩
          rw [← hpe]
          intro hnil
          have hmem := compute_primary_mem hki
          dsimp only at hnil
          rw [hnil] at hmem
          cases hmem
        have hbound : (((s.notes.map fun r =>
            match payload.find? (fun p : Nat × NoteKindsResult => p.1 = r.id) with
            | some p => refreshRow r p.2 now
            | none => r).filter needsKinds)).length ≤
            (s.notes.filter needsKinds).length - payload.length := by
          rw [List.filter_map, List.length_map]
          have himp : ∀ r ∈ s.notes,
              (needsKinds ∘ fun r =>
                match payload.find? (fun p => p.1 = r.id) with
                | some p => refreshRow r p.2 now
                | none => r) r = true →
              (needsKinds r && (payload.find? (fun p => p.1 = r.id)).isNone) = true := by
            intro r _ hfr
            simp only [Function.comp] at hfr
            cases hf2 : payload.find? (fun p => p.1 = r.id) with
            | some p =>
              rw [hf2] at hfr
              dsimp only at hfr
              rw [refreshRow_not_needy r now
                (hpki p (List.mem_of_find?_eq_some hf2))] at hfr
              cases hfr
            | none =>
              rw [hf2] at hfr
              dsimp only at hfr
              simp [hfr, hf2]
          have hmono := length_filter_le_of_imp s.notes _ _ himp
          have hsplit : s.notes.filter
              (fun r => needsKinds r && (payload.find? (fun p => p.1 = r.id)).isNone) =
              ((s.notes.filter needsKinds).take (min step remaining)).filter
                (fun r => (payload.find? (fun p => p.1 = r.id)).isNone) ++
              ((s.notes.filter needsKinds).drop (min step remaining)).filter
                (fun r => (payload.find? (fun p => p.1 = r.id)).isNone) := by
            rw [← List.filter_append, List.take_append_drop, ← List.filter_filter,
              List.filter_comm]
          have hrows0 : ((s.notes.filter needsKinds).take (min step remaining)).filter
              (fun r => (payload.find? (fun p => p.1 = r.id)).isNone) = [] := by
            rw [List.filter_eq_nil]
            intro r hr hcon
            rcases hfind r hr with ⟨p, hp, hpe⟩
            rw [Option.isNone_iff_eq_none, List.find?_eq_none] at hcon
            exact hcon p hp (by simp [hpe])
          rw [hsplit, hrows0] at hmono
          simp only [List.nil_append] at hmono
          have hd := List.length_filter_le
            (fun r => (payload.find? (fun p => p.1 = r.id)).isNone)
            ((s.notes.filter needsKinds).drop (min step remaining))
          have hdl := List.length_drop (min step remaining) (s.notes.filter needsKinds)
          omega
        split at h2
        · injection h2 with he
          have hs := congrArg Prod.fst he
          dsimp only at hs
          rename_i hbc
          rw [← hs]
          show (List.filter needsKinds (s.notes.map fun r =>
              match payload.find? (fun p : Nat × NoteKindsResult => p.1 = r.id) with
              | some p => refreshRow r p.2 now
              | none => r)) = []
          rw [← List.length_eq_zero]
          omega
        · rename_i hbc
          refine ih _ step (remaining - payload.length) _ _ now s2 sc2 up2 hstep ?_ ?_ h2
          · show (List.filter needsKinds (s.notes.map fun r =>
                match payload.find? (fun p : Nat × NoteKindsResult => p.1 = r.id) with
                | some p => refreshRow r p.2 now
                | none => r)).length ≤ remaining - payload.length
            omega
          · have hpos : 0 < payload.length := by
              by_contra hle
              have : payload.length = 0 := by omega
              have : ((s.notes.filter needsKinds).take (min step remaining)).length = 0 := by
                omega
              rw [List.length_eq_zero] at this
              rw [this] at hemp
              exact hemp rfl
            omega

theorem backfillLoop_frame :
    ∀ (fuel : Nat) (s : Store) (step remaining scanned updated now : Nat)
      (s2 : Store) (sc2 up2 : Nat),
      (s.notes.map NoteRow.id).Nodup →
      backfillLoop fuel s step remaining scanned updated now = some (s2, sc2, up2) →
      s2.notes.length = s.notes.length ∧
      ∀ (i : Nat) (hi : i < s.notes.length) (hi2 : i < s2.notes.length),
        needsKinds (s.notes.get ⟨i, hi⟩) = false →
        s2.notes.get ⟨i, hi2⟩ = s.notes.get ⟨i, hi⟩ := by
  intro fuel
  induction fuel with
  | zero =>
    intro s step remaining sc up now s2 sc2 up2 hN h
    unfold backfillLoop at h
    injection h with he
    have hs := congrArg Prod.fst he
    dsimp only at hs
    subst hs
    exact ⟨rfl, fun i hi hi2 _ => rfl⟩
  | succ k ih =>
    intro s step remaining sc up now s2 sc2 up2 hN h
    unfold backfillLoop at h
    by_cases h0 : remaining = 0
    · rw [if_pos h0] at h
      injection h with he
      have hs := congrArg Prod.fst he
      dsimp only at hs
      subst hs
      exact ⟨rfl, fun i hi hi2 _ => rfl⟩
    · rw [if_neg h0] at h
      by_cases hemp : ((s.notes.filter needsKinds).take (min step remaining)).isEmpty = true
      · rw [if_pos hemp] at h
        injection h with he
        have hs := congrArg Prod.fst he
        dsimp only at hs
        subst hs
        exact ⟨rfl, fun i hi hi2 _ => rfl⟩
      · rw [if_neg hemp] at h
        rcases Option.bind_eq_some.1 h with ⟨payload, hpl, h2⟩
        dsimp only at h2
        have hid : ∀ r : NoteRow,
            (match payload.find? (fun p : Nat × NoteKindsResult => p.1 = r.id) with
              | some p => refreshRow r p.2 now
              | none => r).id = r.id := by
          intro r
          cases hf : payload.find? (fun p : Nat × NoteKindsResult => p.1 = r.id) with
          | some p => rfl
          | none => rfl
        have hfix : ∀ r ∈ s.notes, needsKinds r = false →
            (match payload.find? (fun p => p.1 = r.id) with
              | some p => refreshRow r p.2 now
              | none => r) = r := by
          intro r hrmem hrneed
          cases hf : payload.find? (fun p => p.1 = r.id) with
          | some p =>
            exfalso
            have hp := List.mem_of_find?_eq_some hf
            have hpe : p.1 = r.id := by
              have := List.find?_some hf
              simpa using this
            rcases mapM_option_mem hpl p hp with ⟨r2, hr2, hfp⟩
            rcases Option.map_eq_some'.1 hfp with ⟨ki, _, hpe2⟩
            have hr2id : r2.id = r.id := by
              rw [← hpe2] at hpe
              exact hpe
            have hr2mem : r2 ∈ s.notes :=
              List.mem_of_mem_filter (List.take_subset _ _ hr2)
            have hr2need : needsKinds r2 = true :=
              List.of_mem_filter (List.take_subset _ _ hr2)
            have heq : r2 = r :=
              List.inj_on_of_nodup_map hN hr2mem hrmem hr2id
            rw [heq, hrneed] at hr2need
            cases hr2need
          | none => rfl
        split at h2
        · injection h2 with he
          have hs := congrArg Prod.fst he
          dsimp only at hs
          subst hs
          constructor
          · exact List.length_map _ _
          · intro i hi hi2 hneed
            have hg := get_map_helper (fun r =>
                match payload.find? (fun p : Nat × NoteKindsResult => p.1 = r.id) with
                | some p => refreshRow r p.2 now
                | none => r) s.notes i hi hi2
            have hfx := hfix (s.notes.get ⟨i, hi⟩) (List.get_mem s.notes i hi) hneed
            exact hg.trans hfx
        · have hN1 : (((s.notes.map fun r =>
              match payload.find? (fun p : Nat × NoteKindsResult => p.1 = r.id) with
              | some p => refreshRow r p.2 now
              | none => r)).map NoteRow.id).Nodup := by
            rw [List.map_map]
            have hcongr : s.notes.map (NoteRow.id ∘ fun r =>
                match payload.find? (fun p : Nat × NoteKindsResult => p.1 = r.id) with
                | some p => refreshRow r p.2 now
                | none => r) = s.notes.map NoteRow.id :=
              List.map_congr_left fun r _ => hid r
            rw [hcongr]
            exact hN
          obtain ⟨hlen2, hget2⟩ := ih _ step (remaining - payload.length) _ _ now
            s2 sc2 up2 hN1 h2
          constructor
          · rw [hlen2]
            exact List.length_map _ _
          · intro i hi hi2 hneed
            have hiM : i < (s.notes.map fun r =>
                match payload.find? (fun p : Nat × NoteKindsResult => p.1 = r.id) with
                | some p => refreshRow r p.2 now
                | none => r).length := by
              rw [List.length_map]
              exact hi
            have hg := get_map_helper (fun r =>
                match payload.find? (fun p : Nat × NoteKindsResult => p.1 = r.id) with
                | some p => refreshRow r p.2 now
                | none => r) s.notes i hi hiM
            have hfx := hfix (s.notes.get ⟨i, hi⟩) (List.get_mem s.notes i hi) hneed
            have hg2 : ((s.notes.map fun r =>
                match payload.find? (fun p : Nat × NoteKindsResult => p.1 = r.id) with
                | some p => refreshRow r p.2 now
                | none => r)).get ⟨i, hiM⟩ = s.notes.get ⟨i, hi⟩ := by
              rw [hg]
              exact hfx
            have hneed1 : needsKinds (((s.notes.map fun r =>
                match payload.find? (fun p : Nat × NoteKindsResult => p.1 = r.id) with
                | some p => refreshRow r p.2 now
                | none => r)).get ⟨i, hiM⟩) = false := by
              rw [hg2]
              exact hneed
            have hstep2 := hget2 i hiM hi2 hneed1
            rw [hstep2]
            exact hg2

/-- C8 (corrected): backfill is idempotent only when one invocation covers
every needy row.  Under that coverage hypothesis (`needy rows ≤ max_rows`) and
distinct note ids, a successful run is followed by a second run that scans and
updates nothing and leaves the store untouched (`some (s1, 0, 0)`), and the
first run never modifies a row that already has non-empty kind data — such
rows (including their `updated_at`) are returned unchanged in place. -/
theorem C8_backfill_idempotent_amended (s : Store) (bs mr now now2 : Nat)
    (s1 : Store) (sc up : Nat)
    (hN : (s.notes.map NoteRow.id).Nodup)
    (hcov : (s.notes.filter needsKinds).length ≤ mr)
    (h1 : backfill_note_kinds s bs mr now = some (s1, sc, up)) :
    backfill_note_kinds s1 bs mr now2 = some (s1, 0, 0) ∧
    s1.notes.length = s.notes.length ∧
    ∀ (i : Nat) (hi : i < s.notes.length) (hi2 : i < s1.notes.length),
      needsKinds (s.notes.get ⟨i, hi⟩) = false →
      s1.notes.get ⟨i, hi2⟩ = s.notes.get ⟨i, hi⟩ := by
  unfold backfill_note_kinds at h1 ⊢
  by_cases hmr : mr = 0
  · rw [if_pos hmr] at h1 ⊢
    injection h1 with he
    have hs := congrArg Prod.fst he
    dsimp only at hs
    subst hs
    exact ⟨rfl, rfl, fun i hi hi2 _ => rfl⟩
  · rw [if_neg hmr] at h1 ⊢
    have hclear := backfillLoop_clears mr s (max 1 bs) mr 0 0 now s1 sc up
      (Nat.le_max_left 1 bs) hcov (Nat.le_refl mr) h1
    have hframe := backfillLoop_frame mr s (max 1 bs) mr 0 0 now s1 sc up hN h1
    refine ⟨?_, hframe.1, hframe.2⟩
    obtain ⟨k, rfl⟩ : ∃ k, mr = k + 1 := ⟨mr - 1, by omega⟩
    show backfillLoop (k + 1) s1 (max 1 bs) (k + 1) 0 0 now2 = some (s1, 0, 0)
    unfold backfillLoop
    rw [if_neg (by omega : ¬ (k + 1 = 0))]
    rw [hclear]
    simp

def c8row1 : NoteRow :=
  ⟨0, str "https://example.com/a", none, none, none, [], none, [], [],
   str "done", none, 1, 1, none, some (str "[]")⟩

def c8row2 : NoteRow :=
  ⟨1, str "https://example.com/b", none, none, none, [], none, [], [],
   str "done", none, 1, 1, none, some (str "[]")⟩

def c8s : Store := ⟨[c8row1, c8row2], 2, [], 0, [], 0, [], 0⟩

/-- C8, the unconditional idempotence claim refuted: with two rows needing
kind data and `max_rows = 1`, the first backfill run refreshes only one row,
so an immediately following run still finds work and reports `updated = 1`,
not the claimed `0`. -/
theorem C8_second_run_updates_counterexample :
    (backfill_note_kinds c8s 1 1 5).bind
      (fun p => (backfill_note_kinds p.1 1 1 6).map fun q => q.2.2) = some 1 := by
  decide

def w8row1 : NoteRow :=
  ⟨0, str "https://example.com/a", none, none, none, [], none, [], [],
   str "done", none, 1, 1, none, some (str "[]")⟩

def w8row2 : NoteRow :=
  ⟨1, str "https://youtu.be/abc", none, none, none, [], none, [], [],
   str "done", none, 1, 1, some (str "youtube"), some (str "[\"youtube\"]")⟩

def w8s : Store := ⟨[w8row1, w8row2], 2, [], 0, [], 0, [], 0⟩

def w8row1r : NoteRow :=
  ⟨0, str "https://example.com/a", none, none, none, [], none, [], [],
   str "done", none, 1, 5, some (str "other_link"), some (str "[\"other_link\"]")⟩

def w8s1 : Store := ⟨[w8row1r, w8row2], 2, [], 0, [], 0, [], 0⟩

theorem C8_backfill_idempotent_amended_witness :
    backfill_note_kinds w8s1 10 2 6 = some (w8s1, 0, 0) ∧
    w8s1.notes.length = w8s.notes.length ∧
    ∀ (i : Nat) (hi : i < w8s.notes.length) (hi2 : i < w8s1.notes.length),
      needsKinds (w8s.notes.get ⟨i, hi⟩) = false →
      w8s1.notes.get ⟨i, hi2⟩ = w8s.notes.get ⟨i, hi⟩ :=
  C8_backfill_idempotent_amended w8s 10 2 5 6 w8s1 1 1 (by decide) (by decide) (by decide)

theorem char_valid_range (c : Char) :
    c.toNat < 55296 ∨ (57343 < c.toNat ∧ c.toNat < 1114112) := by
  have h := c.valid
  unfold UInt32.isValidChar Nat.isValidChar at h
  have he : c.toNat = c.val.toNat := rfl
  rcases h with h | h
  · left
    omega
  · right
    omega

theorem utf8DecodeLoop_step (c : Char) (rest : List Nat) (fuel : Nat) :
    utf8DecodeLoop (fuel + 1) (utf8Char c ++ rest) = c :: utf8DecodeLoop fuel rest := by
  have hv := char_valid_range c
  by_cases h1 : c.toNat < 128
  · rw [show utf8Char c = [c.toNat] from by unfold utf8Char; rw [if_pos h1]]
    show utf8DecodeLoop (fuel + 1) (c.toNat :: rest) = _
    conv_lhs => unfold utf8DecodeLoop
    rw [if_pos h1, Char.ofNat_toNat]
  · by_cases h2 : c.toNat < 2048
    · rw [show utf8Char c = [192 + c.toNat / 64, 128 + c.toNat % 64] from by
        unfold utf8Char; rw [if_neg h1, if_pos h2]]
      show utf8DecodeLoop (fuel + 1)
        ((192 + c.toNat / 64) :: (128 + c.toNat % 64) :: rest) = _
      conv_lhs => unfold utf8DecodeLoop
      rw [if_neg (by omega), if_neg (by omega), if_pos (by omega)]
      dsimp only
      rw [if_pos (by simp only [isCont, decide_eq_true_eq]; omega)]
      have harith : ((192 + c.toNat / 64) - 192) * 64 + ((128 + c.toNat % 64) - 128) =
          c.toNat := by omega
      rw [harith, Char.ofNat_toNat]
    · by_cases h3 : c.toNat < 65536
      · rw [show utf8Char c = [224 + c.toNat / 4096, 128 + (c.toNat / 64) % 64,
            128 + c.toNat % 64] from by
          unfold utf8Char; rw [if_neg h1, if_neg h2, if_pos h3]]
        show utf8DecodeLoop (fuel + 1) ((224 + c.toNat / 4096) ::
          (128 + (c.toNat / 64) % 64) :: (128 + c.toNat % 64) :: rest) = _
        conv_lhs => unfold utf8DecodeLoop
        rw [if_neg (by omega), if_neg (by omega), if_neg (by omega), if_pos (by omega)]
        dsimp only
        rw [if_pos ?hc]
        case hc =>
          refine ⟨⟨by simp only [isCont, decide_eq_true_eq]; omega,
            by simp only [isCont, decide_eq_true_eq]; omega⟩, by omega, ?_⟩
          rcases hv with hv | hv
          · omega
          · omega
        have harith : ((224 + c.toNat / 4096) - 224) * 4096 +
            ((128 + (c.toNat / 64) % 64) - 128) * 64 + ((128 + c.toNat % 64) - 128) =
            c.toNat := by omega
        rw [harith, Char.ofNat_toNat]
      · rw [show utf8Char c = [240 + c.toNat / 262144, 128 + (c.toNat / 4096) % 64,
            128 + (c.toNat / 64) % 64, 128 + c.toNat % 64] from by
          unfold utf8Char; rw [if_neg h1, if_neg h2, if_neg h3]]
        have hub : c.toNat < 1114112 := by
          rcases hv with hv | hv
          · omega
          · omega
        show utf8DecodeLoop (fuel + 1) ((240 + c.toNat / 262144) ::
          (128 + (c.toNat / 4096) % 64) :: (128 + (c.toNat / 64) % 64) ::
          (128 + c.toNat % 64) :: rest) = _
        conv_lhs => unfold utf8DecodeLoop
        rw [if_neg (by omega), if_neg (by omega), if_neg (by omega), if_neg (by omega),
          if_pos (by omega)]
        dsimp only
        rw [if_pos ?hc4]
        case hc4 =>
          refine ⟨⟨by simp only [isCont, decide_eq_true_eq]; omega,
            by simp only [isCont, decide_eq_true_eq]; omega,
            by simp only [isCont, decide_eq_true_eq]; omega⟩, by omega, by omega⟩
        have harith : ((240 + c.toNat / 262144) - 240) * 262144 +
            ((128 + (c.toNat / 4096) % 64) - 128) * 4096 +
            ((128 + (c.toNat / 64) % 64) - 128) * 64 + ((128 + c.toNat % 64) - 128) =
            c.toNat := by omega
        rw [harith, Char.ofNat_toNat]

theorem length_le_utf8Encode (s : Str) : s.length ≤ (utf8Encode s).length := by
  induction s with
  | nil => simp [utf8Encode]
  | cons c cs ih =>
    show (c :: cs).length ≤ (utf8Char c ++ utf8Encode cs).length
    rw [List.length_append, List.length_cons]
    have hc : 1 ≤ (utf8Char c).length := by
      unfold utf8Char
      dsimp only
      split_ifs <;> simp
    omega

theorem utf8DecodeLoop_encode : ∀ (s : Str) (fuel : Nat), s.length ≤ fuel →
    utf8DecodeLoop fuel (utf8Encode s) = s := by
  intro s
  induction s with
  | nil =>
    intro fuel _
    show utf8DecodeLoop fuel [] = []
    cases fuel <;> rfl
  | cons c cs ih =>
    intro fuel h
    rw [List.length_cons] at h
    obtain ⟨f, rfl⟩ : ∃ f, fuel = f + 1 := ⟨fuel - 1, by omega⟩
    show utf8DecodeLoop (f + 1) (utf8Char c ++ utf8Encode cs) = c :: cs
    rw [utf8DecodeLoop_step, ih f (by omega)]

theorem utf8_roundtrip (s : Str) : utf8DecodeReplace (utf8Encode s) = s :=
  utf8DecodeLoop_encode s _ (length_le_utf8Encode s)

theorem hexDigitUpper_spec (n : Nat) (h : n < 16) :
    isHexChar (hexDigitUpper n) = true ∧ hexVal (hexDigitUpper n) = n := by
  interval_cases n <;> exact ⟨by decide, by decide⟩

theorem utf8Char_byte_lt (c : Char) : ∀ b ∈ utf8Char c, b < 256 := by
  have hv := char_valid_range c
  intro b hb
  unfold utf8Char at hb
  dsimp only at hb
  split_ifs at hb with h1 h2 h3
  all_goals simp only [List.mem_cons, List.not_mem_nil, or_false] at hb
  · omega
  · rcases hb with rfl | rfl <;> omega
  · rcases hb with rfl | rfl | rfl <;> omega
  · have hub : c.toNat < 1114112 := by omega
    rcases hb with rfl | rfl | rfl | rfl <;> omega

theorem utf8Char_ne_nil (c : Char) : utf8Char c ≠ [] := by
  unfold utf8Char
  dsimp only
  split_ifs <;> simp

theorem percentToBytesLoop_pct (b : Nat) (hb : b < 256) (rest : Str) (fuel : Nat) :
    percentToBytesLoop (fuel + 1) (pctHexByte b ++ rest) = b :: percentToBytesLoop fuel rest := by
  have h1 := hexDigitUpper_spec (b / 16) (by omega)
  have h2 := hexDigitUpper_spec (b % 16) (by omega)
  show percentToBytesLoop (fuel + 1)
    ('%' :: hexDigitUpper (b / 16) :: hexDigitUpper (b % 16) :: rest) = _
  conv_lhs => unfold percentToBytesLoop
  rw [if_pos rfl]
  dsimp only
  rw [if_pos ⟨h1.1, h2.1⟩]
  have h3 : hexVal (hexDigitUpper (b / 16)) * 16 + hexVal (hexDigitUpper (b % 16)) = b := by
    rw [h1.2, h2.2]
    omega
  rw [h3]

theorem pctHexByte_length (b : Nat) : (pctHexByte b).length = 3 := rfl

theorem flatMap_pctHexByte_length (bs : List Nat) :
    (bs.flatMap pctHexByte).length = 3 * bs.length := by
  induction bs with
  | nil => rfl
  | cons b t ih =>
    rw [List.flatMap_cons, List.length_append, ih, pctHexByte_length, List.length_cons]
    omega

theorem percentToBytesLoop_pcts : ∀ (bs : List Nat) (fuel : Nat) (rest : Str),
    (∀ b ∈ bs, b < 256) →
    percentToBytesLoop (fuel + bs.length) (bs.flatMap pctHexByte ++ rest) =
      bs ++ percentToBytesLoop fuel rest := by
  intro bs
  induction bs with
  | nil =>
    intro fuel rest _
    rfl
  | cons b t ih =>
    intro fuel rest hlt
    rw [List.flatMap_cons, List.append_assoc]
    have hstep : fuel + (b :: t).length = (fuel + t.length) + 1 := by
      rw [List.length_cons]
      omega
    rw [hstep, percentToBytesLoop_pct b (hlt b (List.mem_cons_self b t)) _ _]
    rw [ih fuel rest (fun x hx => hlt x (List.mem_cons_of_mem b hx))]
    rfl

theorem isAlwaysSafe_ascii {c : Char} (h : isAlwaysSafe c = true) : c.toNat < 128 := by
  simp only [isAlwaysSafe, isAsciiAlpha, isAsciiDigit, decide_eq_true_eq] at h
  rcases h with (h | h) | h | h | h | h | h
  · omega
  · omega
  · omega
  all_goals subst h; decide

theorem isHexChar_ascii {c : Char} (h : isHexChar c = true) : c.toNat < 128 := by
  simp only [isHexChar, isAsciiDigit, decide_eq_true_eq] at h
  rcases h with h | h | h <;> omega

theorem utf8Char_ascii {c : Char} (h : c.toNat < 128) : utf8Char c = [c.toNat] := by
  unfold utf8Char
  dsimp only
  rw [if_pos h]

theorem quote_mem {safe : List Char} {s : Str} :
    ∀ c2 ∈ pyQuote safe s,
      isAlwaysSafe c2 = true ∨ c2 ∈ safe ∨ c2 = '%' ∨ isHexChar c2 = true := by
  intro c2 hc2
  rcases List.mem_flatMap.1 hc2 with ⟨c, _, hin⟩
  unfold quoteChar at hin
  split_ifs at hin with hcase
  · simp only [List.mem_singleton] at hin
    subst hin
    rcases hcase with hcase | hcase
    · exact Or.inl hcase
    · exact Or.inr (Or.inl hcase)
  · rcases List.mem_flatMap.1 hin with ⟨b, hbmem, hpct⟩
    have hblt := utf8Char_byte_lt c b hbmem
    simp only [pctHexByte, List.mem_cons, List.not_mem_nil, or_false] at hpct
    rcases hpct with rfl | rfl | rfl
    · exact Or.inr (Or.inr (Or.inl rfl))
    · exact Or.inr (Or.inr (Or.inr (hexDigitUpper_spec (b / 16) (by omega)).1))
    · exact Or.inr (Or.inr (Or.inr (hexDigitUpper_spec (b % 16) (by omega)).1))

theorem quote_ascii {safe : List Char} (hsafe : ∀ c ∈ safe, c.toNat < 128 ∧ c ≠ '%')
    {s : Str} : ∀ c2 ∈ pyQuote safe s, isAsciiChar c2 = true := by
  intro c2 hc2
  simp only [isAsciiChar, decide_eq_true_eq]
  rcases quote_mem c2 hc2 with h | h | h | h
  · exact isAlwaysSafe_ascii h
  · exact (hsafe c2 h).1
  · subst h
    decide
  · exact isHexChar_ascii h

theorem percentToBytesLoop_quote (safe : List Char)
    (hsafe : ∀ c ∈ safe, c.toNat < 128 ∧ c ≠ '%') :
    ∀ (s : Str) (fuel : Nat),
    percentToBytesLoop (fuel + (pyQuote safe s).length) (pyQuote safe s) = utf8Encode s := by
  intro s
  induction s with
  | nil =>
    intro fuel
    show percentToBytesLoop (fuel + 0) [] = []
    cases h : fuel + 0 <;> rfl
  | cons c cs ih =>
    intro fuel
    rw [show pyQuote safe (c :: cs) = quoteChar safe c ++ pyQuote safe cs from rfl,
      show utf8Encode (c :: cs) = utf8Char c ++ utf8Encode cs from rfl]
    by_cases hs : (isAlwaysSafe c = true ∨ c ∈ safe)
    · rw [show quoteChar safe c = [c] from by unfold quoteChar; rw [if_pos hs]]
      have hascii : c.toNat < 128 := by
        rcases hs with hs | hs
        · exact isAlwaysSafe_ascii hs
        · exact (hsafe c hs).1
      have hnp : ¬ c = '%' := by
        rcases hs with hs | hs
        · intro he
          subst he
          exact absurd hs (by decide)
        · exact (hsafe c hs).2
      have hstep : fuel + ([c] ++ pyQuote safe cs).length =
          (fuel + (pyQuote safe cs).length) + 1 := by
        rw [List.length_append]
        simp
        omega
      rw [hstep]
      show percentToBytesLoop ((fuel + (pyQuote safe cs).length) + 1)
        (c :: pyQuote safe cs) = _
      conv_lhs => unfold percentToBytesLoop
      rw [if_neg hnp, utf8Char_ascii hascii]
      show c.toNat :: percentToBytesLoop (fuel + (pyQuote safe cs).length)
        (pyQuote safe cs) = c.toNat :: utf8Encode cs
      rw [ih fuel]
    · rw [show quoteChar safe c = (utf8Char c).flatMap pctHexByte from by
        unfold quoteChar; rw [if_neg hs]]
      have hstep : fuel + ((utf8Char c).flatMap pctHexByte ++ pyQuote safe cs).length =
          (fuel + 2 * (utf8Char c).length + (pyQuote safe cs).length) +
            (utf8Char c).length := by
        rw [List.length_append, flatMap_pctHexByte_length]
        omega
      rw [hstep, percentToBytesLoop_pcts (utf8Char c) _ _ (utf8Char_byte_lt c)]
      have hassoc : fuel + 2 * (utf8Char c).length + (pyQuote safe cs).length =
          (fuel + 2 * (utf8Char c).length) + (pyQuote safe cs).length := rfl
      rw [hassoc, ih (fuel + 2 * (utf8Char c).length)]

theorem takeWhile_all {α : Type} {p : α → Bool} :
    ∀ {l : List α}, (∀ x ∈ l, p x = true) → l.takeWhile p = l := by
  intro l
  induction l with
  | nil => intro _; rfl
  | cons a t ih =>
    intro h
    rw [List.takeWhile_cons_of_pos (h a (List.mem_cons_self a t))]
    rw [ih (fun x hx => h x (List.mem_cons_of_mem a hx))]

theorem dropWhile_all {α : Type} {p : α → Bool} :
    ∀ {l : List α}, (∀ x ∈ l, p x = true) → l.dropWhile p = [] := by
  intro l
  induction l with
  | nil => intro _; rfl
  | cons a t ih =>
    intro h
    rw [List.dropWhile_cons_of_pos (h a (List.mem_cons_self a t))]
    exact ih (fun x hx => h x (List.mem_cons_of_mem a hx))

theorem quote_no_pct_eq {safe : List Char} {s : Str}
    (h : '%' ∉ pyQuote safe s) : pyQuote safe s = s := by
  induction s with
  | nil => rfl
  | cons c cs ih =>
    rw [show pyQuote safe (c :: cs) = quoteChar safe c ++ pyQuote safe cs from rfl] at h ⊢
    by_cases hs : (isAlwaysSafe c = true ∨ c ∈ safe)
    · rw [show quoteChar safe c = [c] from by unfold quoteChar; rw [if_pos hs]] at h ⊢
      have h2 : '%' ∉ pyQuote safe cs := fun hm =>
        h (List.mem_append_right _ hm)
      rw [ih h2]
      rfl
    · exfalso
      apply h
      apply List.mem_append_left
      rw [show quoteChar safe c = (utf8Char c).flatMap pctHexByte from by
        unfold quoteChar; rw [if_neg hs]]
      cases hb : utf8Char c with
      | nil => exact absurd hb (utf8Char_ne_nil c)
      | cons b bs =>
        rw [List.flatMap_cons]
        exact List.mem_append_left _ (List.mem_cons_self _ _)

theorem pyUnquoteLoop_nil (fuel : Nat) : pyUnquoteLoop fuel [] = [] := by
  cases fuel <;> rfl

theorem pyUnquote_quote (safe : List Char)
    (hsafe : ∀ c ∈ safe, c.toNat < 128 ∧ c ≠ '%') (s : Str) :
    pyUnquote (pyQuote safe s) = s := by
  by_cases hp : '%' ∈ pyQuote safe s
  · unfold pyUnquote
    rw [if_pos hp]
    have hasc := quote_ascii hsafe (s := s)
    cases hq : pyQuote safe s with
    | nil =>
      rw [hq] at hp
      cases hp
    | cons c0 q2 =>
      rw [hq] at hasc
      show pyUnquoteLoop ((c0 :: q2).length + 1) (c0 :: q2) = s
      conv_lhs => unfold pyUnquoteLoop
      rw [if_pos (hasc c0 (List.mem_cons_self c0 q2))]
      rw [takeWhile_all hasc, dropWhile_all hasc, pyUnquoteLoop_nil, List.append_nil]
      rw [← hq]
      show utf8DecodeReplace (percentToBytesLoop (pyQuote safe s).length
        (pyQuote safe s)) = s
      have hz : (pyQuote safe s).length = 0 + (pyQuote safe s).length := by omega
      rw [hz, percentToBytesLoop_quote safe hsafe s 0]
      exact utf8_roundtrip s
  · unfold pyUnquote
    rw [if_neg hp]
    exact quote_no_pct_eq hp

theorem unquotePlus_quotePlus (s : Str) : unquotePlus (pyQuotePlus s) = s := by
  unfold unquotePlus pyQuotePlus
  by_cases hsp : ' ' ∈ s
  · rw [if_pos hsp]
    have hplus : ∀ c ∈ pyQuote [' '] s, c ≠ '+' := by
      intro c hc he
      rcases quote_mem c hc with h | h | h | h
      all_goals subst he
      · exact absurd h (by decide)
      · rw [List.mem_singleton] at h
        exact absurd h (by decide)
      · exact absurd h (by decide)
      · exact absurd h (by decide)
    rw [List.map_map]
    have hmap : (pyQuote [' '] s).map
        ((fun c => if c = '+' then ' ' else c) ∘ fun c => if c = ' ' then '+' else c) =
        (pyQuote [' '] s).map id := by
      apply List.map_congr_left
      intro c hc
      simp only [Function.comp, id]
      by_cases hsp2 : c = ' '
      · rw [if_pos hsp2, if_pos rfl, hsp2]
      · rw [if_neg hsp2, if_neg (hplus c hc)]
    rw [hmap, List.map_id]
    have hsafe1 : ∀ c ∈ ([' '] : List Char), c.toNat < 128 ∧ c ≠ '%' := by
      intro c hc
      rw [List.mem_singleton] at hc
      subst hc
      exact ⟨by decide, by decide⟩
    exact pyUnquote_quote [' '] hsafe1 s
  · rw [if_neg hsp]
    have hplus : ∀ c ∈ pyQuote [] s, c ≠ '+' := by
      intro c hc he
      rcases quote_mem c hc with h | h | h | h
      all_goals subst he
      · exact absurd h (by decide)
      · cases h
      · exact absurd h (by decide)
      · exact absurd h (by decide)
    have hmap : (pyQuote [] s).map (fun c => if c = '+' then ' ' else c) =
        (pyQuote [] s).map id := by
      apply List.map_congr_left
      intro c hc
      simp only [id]
      rw [if_neg (hplus c hc)]
    rw [hmap, List.map_id]
    have hsafe0 : ∀ c ∈ ([] : List Char), c.toNat < 128 ∧ c ≠ '%' := by
      intro c hc
      cases hc
    exact pyUnquote_quote [] hsafe0 s

theorem splitOnce_not_mem {sep : Char} : ∀ {s : Str}, sep ∉ s → splitOnce sep s = (s, none) := by
  intro s
  induction s with
  | nil => intro _; rfl
  | cons c cs ih =>
    intro h
    have hc : ¬ c = sep := fun he => h (he ▸ List.mem_cons_self c cs)
    show splitOnce sep (c :: cs) = _
    unfold splitOnce
    rw [if_neg hc, ih (fun hm => h (List.mem_cons_of_mem c hm))]

theorem splitOnce_append {sep : Char} : ∀ {a : Str} (b : Str), sep ∉ a →
    splitOnce sep (a ++ sep :: b) = (a, some b) := by
  intro a
  induction a with
  | nil =>
    intro b _
    show splitOnce sep (sep :: b) = _
    unfold splitOnce
    rw [if_pos rfl]
  | cons c cs ih =>
    intro b h
    have hc : ¬ c = sep := fun he => h (he ▸ List.mem_cons_self c cs)
    show splitOnce sep (c :: (cs ++ sep :: b)) = _
    unfold splitOnce
    rw [if_neg hc, ih b (fun hm => h (List.mem_cons_of_mem c hm))]

theorem splitAll_no_sep {sep : Char} : ∀ {s : Str}, sep ∉ s → splitAll sep s = [s] := by
  intro s
  induction s with
  | nil => intro _; rfl
  | cons c cs ih =>
    intro h
    have hc : ¬ c = sep := fun he => h (he ▸ List.mem_cons_self c cs)
    show splitAll sep (c :: cs) = _
    conv_lhs => unfold splitAll
    rw [if_neg hc, ih (fun hm => h (List.mem_cons_of_mem c hm))]
    rfl

theorem splitAll_append {sep : Char} : ∀ {a : Str} (b : Str), sep ∉ a →
    splitAll sep (a ++ sep :: b) = a :: splitAll sep b := by
  intro a
  induction a with
  | nil =>
    intro b _
    show splitAll sep (sep :: b) = _
    conv_lhs => unfold splitAll
    rw [if_pos rfl]
  | cons c cs ih =>
    intro b h
    have hc : ¬ c = sep := fun he => h (he ▸ List.mem_cons_self c cs)
    show splitAll sep (c :: (cs ++ sep :: b)) = _
    conv_lhs => unfold splitAll
    rw [if_neg hc, ih b (fun hm => h (List.mem_cons_of_mem c hm))]
    rfl

theorem intercalate_cons_cons {sep : Str} (x y : Str) (zs : List Str) :
    List.intercalate sep (x :: y :: zs) = x ++ sep ++ List.intercalate sep (y :: zs) := by
  simp [List.intercalate, List.intersperse]

theorem intercalate_singleton {sep : Str} (x : Str) :
    List.intercalate sep [x] = x := by
  simp [List.intercalate, List.intersperse]

theorem splitAll_intercalate : ∀ {segs : List Str}, segs ≠ [] →
    (∀ seg ∈ segs, '&' ∉ seg) →
    splitAll '&' (List.intercalate ['&'] segs) = segs := by
  intro segs
  induction segs with
  | nil => intro h _; exact absurd rfl h
  | cons x zs ih =>
    intro _ hns
    cases zs with
    | nil =>
      rw [intercalate_singleton]
      exact splitAll_no_sep (hns x (List.mem_cons_self x []))
    | cons y zs2 =>
      rw [intercalate_cons_cons, List.append_assoc]
      show splitAll '&' (x ++ '&' :: List.intercalate ['&'] (y :: zs2)) = _
      rw [splitAll_append _ (hns x (List.mem_cons_self x _))]
      rw [ih (by simp) (fun seg hseg => hns seg (List.mem_cons_of_mem x hseg))]

/-- Characters of `pyQuotePlus` output: always-safe, `+`, or `%`. -/
theorem pyQuotePlus_mem {x : Str} :
    ∀ c ∈ pyQuotePlus x, isAlwaysSafe c = true ∨ c = '+' ∨ c = '%' := by
  have hex : ∀ {c : Char}, isHexChar c = true → isAlwaysSafe c = true := by
    intro c h
    simp only [isAlwaysSafe, isAsciiAlpha, isAsciiDigit, isHexChar,
      decide_eq_true_eq] at h ⊢
    rcases h with h | h | h
    · exact Or.inr (Or.inl h)
    · exact Or.inl (Or.inl (by omega))
    · exact Or.inl (Or.inr (by omega))
  intro c hc
  unfold pyQuotePlus at hc
  split_ifs at hc
  · rcases List.mem_map.1 hc with ⟨c0, hc0, hmap⟩
    by_cases hsp : c0 = ' '
    · rw [hsp, if_pos rfl] at hmap
      exact Or.inr (Or.inl hmap.symm)
    · rw [if_neg hsp] at hmap
      subst hmap
      rcases quote_mem c0 hc0 with h | h | h | h
      · exact Or.inl h
      · rw [List.mem_singleton] at h
        exact absurd h hsp
      · exact Or.inr (Or.inr h)
      · exact Or.inl (hex h)
  · rcases quote_mem c hc with h | h | h | h
    · exact Or.inl h
    · cases h
    · exact Or.inr (Or.inr h)
    · exact Or.inl (hex h)

theorem amp_not_mem_quotePlus (x : Str) : '&' ∉ pyQuotePlus x := by
  intro h
  rcases pyQuotePlus_mem '&' h with h2 | h2 | h2
  · exact absurd h2 (by decide)
  · cases h2
  · cases h2

theorem eq_not_mem_quotePlus (x : Str) : '=' ∉ pyQuotePlus x := by
  intro h
  rcases pyQuotePlus_mem '=' h with h2 | h2 | h2
  · exact absurd h2 (by decide)
  · cases h2
  · cases h2

theorem amp_not_mem_seg (kv : Str × Str) :
    '&' ∉ pyQuotePlus kv.1 ++ '=' :: pyQuotePlus kv.2 := by
  intro h
  rcases List.mem_append.1 h with h | h
  · exact amp_not_mem_quotePlus _ h
  · rcases List.mem_cons.1 h with h | h
    · cases h
    · exact amp_not_mem_quotePlus _ h

/-- `parse_qsl` is a left inverse of `urlencode`: the encoded pair list is
recovered exactly. -/
theorem parse_qsl_urlencode (pairs : List (Str × Str)) :
    parse_qsl (urlencode pairs) = pairs := by
  cases pairs with
  | nil => rfl
  | cons kv0 rest =>
    have hne : urlencode (kv0 :: rest) ≠ [] := by
      have hmem : '=' ∈ urlencode (kv0 :: rest) := by
        unfold urlencode
        rw [List.map_cons]
        cases hrm : rest.map (fun kv => pyQuotePlus kv.1 ++ '=' :: pyQuotePlus kv.2) with
        | nil =>
          rw [intercalate_singleton]
          exact List.mem_append_right _ (List.mem_cons_self _ _)
        | cons a b =>
          rw [intercalate_cons_cons]
          exact List.mem_append_left _
            (List.mem_append_left _ (List.mem_append_right _ (List.mem_cons_self _ _)))
      exact List.ne_nil_of_mem hmem
    unfold parse_qsl
    rw [if_neg hne]
    unfold urlencode
    rw [splitAll_intercalate (by simp) (by
      intro seg hseg
      rcases List.mem_map.1 hseg with ⟨kv, _, hkv⟩
      rw [← hkv]
      exact amp_not_mem_seg kv)]
    rw [List.filterMap_map]
    have hpt : ∀ kv ∈ kv0 :: rest,
        ((fun nameValue =>
            if nameValue = [] then none
            else
              let nv := splitOnce '=' nameValue
              some (unquotePlus nv.1, unquotePlus (nv.2.getD []))) ∘
          fun kv => pyQuotePlus kv.1 ++ '=' :: pyQuotePlus kv.2) kv = some kv := by
      intro kv _
      simp only [Function.comp]
      have hsegne : pyQuotePlus kv.1 ++ '=' :: pyQuotePlus kv.2 ≠ [] :=
        List.ne_nil_of_mem (List.mem_append_right _ (List.mem_cons_self _ _))
      rw [if_neg hsegne]
      rw [splitOnce_append _ (eq_not_mem_quotePlus kv.1)]
      show some (unquotePlus (pyQuotePlus kv.1), unquotePlus (pyQuotePlus kv.2)) = some kv
      rw [unquotePlus_quotePlus, unquotePlus_quotePlus]
    calc (kv0 :: rest).filterMap _ = (kv0 :: rest).filterMap some := by
          exact List.filterMap_congr hpt
      _ = kv0 :: rest := List.filterMap_some _

theorem takeWhile_append_all {α : Type} {p : α → Bool} :
    ∀ {a : List α} (b : List α), (∀ x ∈ a, p x = true) →
    (a ++ b).takeWhile p = a ++ b.takeWhile p := by
  intro a
  induction a with
  | nil => intro b _; rfl
  | cons x t ih =>
    intro b h
    show ((x :: (t ++ b)).takeWhile p) = _
    rw [List.takeWhile_cons_of_pos (h x (List.mem_cons_self x t))]
    rw [ih b (fun y hy => h y (List.mem_cons_of_mem x hy))]
    rfl

theorem dropWhile_append_all {α : Type} {p : α → Bool} :
    ∀ {a : List α} (b : List α), (∀ x ∈ a, p x = true) →
    (a ++ b).dropWhile p = b.dropWhile p := by
  intro a
  induction a with
  | nil => intro b _; rfl
  | cons x t ih =>
    intro b h
    show ((x :: (t ++ b)).dropWhile p) = _
    rw [List.dropWhile_cons_of_pos (h x (List.mem_cons_self x t))]
    exact ih b (fun y hy => h y (List.mem_cons_of_mem x hy))

theorem takeWhile_nil_of_head {α : Type} [Inhabited α] {p : α → Bool} {b : List α}
    (h : b = [] ∨ p b.headI = false) : b.takeWhile p = [] := by
  cases b with
  | nil => rfl
  | cons x t =>
    rcases h with h | h
    · cases h
    · have h2 : p x = false := h
      exact List.takeWhile_cons_of_neg (by simp [h2])

theorem dropWhile_self_of_head {α : Type} [Inhabited α] {p : α → Bool} {b : List α}
    (h : b = [] ∨ p b.headI = false) : b.dropWhile p = b := by
  cases b with
  | nil => rfl
  | cons x t =>
    rcases h with h | h
    · cases h
    · have h2 : p x = false := h
      exact List.dropWhile_cons_of_neg (by simp [h2])

theorem headI_append_left {α : Type} [Inhabited α] {a : List α} (b : List α)
    (h : a ≠ []) : (a ++ b).headI = a.headI := by
  cases a with
  | nil => exact absurd rfl h
  | cons x t => rfl

theorem splitNetloc_append {n t : Str} (hn : ∀ c ∈ n, isNetlocDelim c = false)
    (ht : t = [] ∨ isNetlocDelim t.headI = true) :
    splitNetloc (n ++ t) = (n, t) := by
  unfold splitNetloc
  have hp : ∀ c ∈ n, (fun c => ¬ isNetlocDelim c : Char → Bool) c = true := by
    intro c hc
    simp [hn c hc]
  rw [takeWhile_append_all t hp, dropWhile_append_all t hp]
  have hcond : t = [] ∨ (fun c => ¬ isNetlocDelim c : Char → Bool) t.headI = false := by
    rcases ht with ht | ht
    · exact Or.inl ht
    · right
      simp [ht]
  have hstop : t.takeWhile (fun c => ¬ isNetlocDelim c : Char → Bool) = [] :=
    takeWhile_nil_of_head hcond
  have hstay : t.dropWhile (fun c => ¬ isNetlocDelim c : Char → Bool) = t :=
    dropWhile_self_of_head hcond
  rw [hstop, hstay, List.append_nil]

theorem findIdx?_cons_eq (p : Char → Bool) (x : Char) (xs : List Char) :
    (x :: xs).findIdx? p = if p x then some 0 else (xs.findIdx? p).map (· + 1) := by
  simp [List.findIdx?_cons, List.findIdx?_succ]

theorem findIdx?_not_mem {p : Char → Bool} :
    ∀ {s : Str}, (∀ x ∈ s, p x = false) → s.findIdx? p = none := by
  intro s
  induction s with
  | nil => intro _; rfl
  | cons c cs ih =>
    intro h
    rw [findIdx?_cons_eq, h c (List.mem_cons_self c cs)]
    rw [ih (fun x hx => h x (List.mem_cons_of_mem c hx))]
    rfl

theorem findIdx?_append_some {p : Char → Bool} :
    ∀ {a : Str} {i : Nat} (b : Str), a.findIdx? p = some i →
    (a ++ b).findIdx? p = some i := by
  intro a
  induction a with
  | nil =>
    intro i b h
    cases h
  | cons c cs ih =>
    intro i b h
    rw [findIdx?_cons_eq] at h
    rw [show (c :: cs) ++ b = c :: (cs ++ b) from rfl, findIdx?_cons_eq]
    by_cases hc : p c = true
    · rw [hc] at h ⊢
      exact h
    · rw [Bool.not_eq_true] at hc
      rw [hc] at h ⊢
      simp only [Bool.false_eq_true, if_false] at h ⊢
      rcases Option.map_eq_some'.1 h with ⟨j, hj, hji⟩
      rw [ih b hj]
      rw [← hji]
      rfl

theorem findIdx?_append_none {p : Char → Bool} :
    ∀ {a : Str} (b : Str), a.findIdx? p = none →
    (a ++ b).findIdx? p = (b.findIdx? p).map (· + a.length) := by
  intro a
  induction a with
  | nil =>
    intro b _
    show b.findIdx? p = (b.findIdx? p).map (· + 0)
    cases h : b.findIdx? p <;> simp
  | cons c cs ih =>
    intro b h
    rw [findIdx?_cons_eq] at h
    rw [show (c :: cs) ++ b = c :: (cs ++ b) from rfl, findIdx?_cons_eq]
    by_cases hc : p c = true
    · rw [hc] at h
      cases h
    · rw [Bool.not_eq_true] at hc
      rw [hc] at h ⊢
      simp only [Bool.false_eq_true, if_false] at h ⊢
      have h2 : cs.findIdx? p = none := by
        cases h3 : cs.findIdx? p with
        | none => rfl
        | some j =>
          rw [h3] at h
          cases h
      rw [ih b h2]
      cases h4 : b.findIdx? p with
      | none => rfl
      | some j =>
        simp only [Option.map_some', Option.map_map, Option.some.injEq,
          Function.comp, List.length_cons]
        omega

theorem findIdx?_some_lt {p : Char → Bool} :
    ∀ {s : Str} {i : Nat}, s.findIdx? p = some i → i < s.length := by
  intro s
  induction s with
  | nil => intro i h; cases h
  | cons c cs ih =>
    intro i h
    rw [findIdx?_cons_eq] at h
    by_cases hc : p c = true
    · rw [hc] at h
      injection h with he
      rw [← he, List.length_cons]
      omega
    · rw [Bool.not_eq_true] at hc
      rw [hc] at h
      simp only [Bool.false_eq_true, if_false] at h
      rcases Option.map_eq_some'.1 h with ⟨j, hj, hji⟩
      have := ih hj
      rw [← hji, List.length_cons]
      omega

theorem toNat_ofNat_valid {n : Nat} (h : n.isValidChar) : (Char.ofNat n).toNat = n := by
  unfold Char.ofNat
  rw [dif_pos h]
  rfl

theorem isValidChar_of_lt {n : Nat} (h : n < 55296) : n.isValidChar := by
  unfold Nat.isValidChar
  omega

theorem asciiLowerChar_toNat (c : Char) :
    (asciiLowerChar c).toNat =
      if 65 ≤ c.toNat ∧ c.toNat ≤ 90 then c.toNat + 32 else c.toNat := by
  unfold asciiLowerChar
  split_ifs with h
  · exact toNat_ofNat_valid (isValidChar_of_lt (by omega))
  · rfl

theorem asciiLowerChar_idem (c : Char) :
    asciiLowerChar (asciiLowerChar c) = asciiLowerChar c := by
  by_cases h : 65 ≤ c.toNat ∧ c.toNat ≤ 90
  · have ht : (asciiLowerChar c).toNat = c.toNat + 32 := by
      rw [asciiLowerChar_toNat, if_pos h]
    show (if 65 ≤ (asciiLowerChar c).toNat ∧ (asciiLowerChar c).toNat ≤ 90 then _ else _) = _
    rw [if_neg (by omega)]
  · show (if 65 ≤ (asciiLowerChar c).toNat ∧ (asciiLowerChar c).toNat ≤ 90 then _ else _) = _
    have ht : (asciiLowerChar c).toNat = c.toNat := by
      rw [asciiLowerChar_toNat, if_neg h]
    rw [if_neg (by omega)]

theorem asciiLower_idem (s : Str) : asciiLower (asciiLower s) = asciiLower s := by
  unfold asciiLower
  rw [List.map_map]
  exact List.map_congr_left fun c _ => asciiLowerChar_idem c

theorem asciiLower_length (s : Str) : (asciiLower s).length = s.length :=
  List.length_map _ _

theorem asciiLower_headI (s : Str) (h : s ≠ []) :
    (asciiLower s).headI = asciiLowerChar s.headI := by
  cases s with
  | nil => exact absurd rfl h
  | cons c t => rfl

theorem isAsciiAlpha_lower {c : Char} (h : isAsciiAlpha c = true) :
    isAsciiAlpha (asciiLowerChar c) = true := by
  simp only [isAsciiAlpha, decide_eq_true_eq] at h ⊢
  have ht := asciiLowerChar_toNat c
  split_ifs at ht <;> omega

theorem isSchemeChar_lower {c : Char} (h : isSchemeChar c = true) :
    isSchemeChar (asciiLowerChar c) = true := by
  by_cases hU : 65 ≤ c.toNat ∧ c.toNat ≤ 90
  · have ht : (asciiLowerChar c).toNat = c.toNat + 32 := by
      rw [asciiLowerChar_toNat, if_pos hU]
    simp only [isSchemeChar, isAsciiAlpha, isAsciiDigit, decide_eq_true_eq]
    left
    omega
  · have he : asciiLowerChar c = c := by
      unfold asciiLowerChar
      rw [if_neg hU]
    rw [he]
    exact h

theorem colon_not_schemeChar : isSchemeChar ':' = false := by decide

theorem alpha_not_C0 {c : Char} (h : isAsciiAlpha c = true) : isC0OrSpace c = false := by
  simp only [isAsciiAlpha, decide_eq_true_eq] at h
  simp only [isC0OrSpace, decide_eq_false_iff_not, decide_eq_true_eq]
  omega

theorem splitScheme_of_scheme {scheme : Str} (rest : Str) (h1 : scheme ≠ [])
    (h2 : isAsciiAlpha scheme.headI = true) (h3 : ∀ c ∈ scheme, isSchemeChar c = true)
    (h4 : asciiLower scheme = scheme) :
    splitScheme (scheme ++ ':' :: rest) = (scheme, rest) := by
  have hnc : ∀ c ∈ scheme, ((fun c => c = ':' : Char → Bool)) c = false := by
    intro c hc
    simp only [decide_eq_false_iff_not]
    intro he
    subst he
    exact absurd (h3 ':' hc) (by decide)
  have hfa : scheme.findIdx? (fun c => c = ':') = none := findIdx?_not_mem hnc
  have hfx : (scheme ++ ':' :: rest).findIdx? (fun c => c = ':') = some scheme.length := by
    rw [findIdx?_append_none _ hfa]
    have h0 : (':' :: rest).findIdx? (fun c => c = ':') = some 0 := by
      rw [List.findIdx?_cons]
      simp
    rw [h0]
    simp
  have htake : (scheme ++ ':' :: rest).take scheme.length = scheme :=
    List.take_left _ _
  have hdrop : (scheme ++ ':' :: rest).drop (scheme.length + 1) = rest := by
    rw [show scheme ++ ':' :: rest = (scheme ++ [':']) ++ rest by simp]
    rw [show scheme.length + 1 = (scheme ++ [':']).length by simp]
    exact List.drop_left _ _
  unfold splitScheme
  rw [hfx]
  dsimp only
  rw [htake]
  rw [if_pos ⟨List.length_pos.2 h1,
    by rw [headI_append_left _ h1]; exact h2,
    by rw [List.all_eq_true]; exact h3⟩]
  rw [h4, hdrop]

theorem splitScheme_headI_not_alpha {s : Str} (h : isAsciiAlpha s.headI = false) :
    splitScheme s = ([], s) := by
  unfold splitScheme
  cases hf : s.findIdx? (fun c => c = ':') with
  | none => rfl
  | some i =>
    dsimp only
    rw [if_neg]
    intro hcon
    rw [h] at hcon
    exact absurd hcon.2.1 (by simp)

theorem splitScheme_no_colon {s : Str} (h : ':' ∉ s) : splitScheme s = ([], s) := by
  unfold splitScheme
  have hf : s.findIdx? (fun c => c = ':') = none := by
    apply findIdx?_not_mem
    intro c hc
    simp only [decide_eq_false_iff_not]
    intro he
    subst he
    exact h hc
  rw [hf]

/-- Transfer of "no scheme extracted" along a shared prefix: if `path ++ w`
yields no scheme, and `qp` holds no colon, then `path ++ qp` yields no scheme
either. -/
theorem splitScheme_nil_transfer {path w qp : Str} (hqp : ':' ∉ qp)
    (h : splitScheme (path ++ w) = ([], path ++ w)) :
    splitScheme (path ++ qp) = ([], path ++ qp) := by
  cases hpc : path.findIdx? (fun c => c = ':') with
  | none =>
    apply splitScheme_no_colon
    intro hm
    rcases List.mem_append.1 hm with hm | hm
    · have : ((fun c => c = ':' : Char → Bool)) ':' = false := by
        have hnone := List.findIdx?_eq_none_iff.1 hpc
        exact hnone ':' hm
      simp at this
    · exact hqp hm
  | some k =>
    have hk := findIdx?_some_lt hpc
    have hfu : (path ++ w).findIdx? (fun c => c = ':') = some k :=
      findIdx?_append_some _ hpc
    have hfv : (path ++ qp).findIdx? (fun c => c = ':') = some k :=
      findIdx?_append_some _ hpc
    have hpne : path ≠ [] := by
      intro he
      rw [he] at hpc
      cases hpc
    have htu : (path ++ w).take k = path.take k := by
      rw [List.take_append_eq_append_take, show k - path.length = 0 by omega,
        List.take_zero, List.append_nil]
    have htv : (path ++ qp).take k = path.take k := by
      rw [List.take_append_eq_append_take, show k - path.length = 0 by omega,
        List.take_zero, List.append_nil]
    have hcond : ¬ (0 < k ∧ isAsciiAlpha (path ++ w).headI = true ∧
        ((path ++ w).take k).all isSchemeChar = true) := by
      intro hcon
      unfold splitScheme at h
      rw [hfu] at h
      dsimp only at h
      rw [if_pos hcon] at h
      have h5 := congrArg Prod.fst h
      dsimp only at h5
      have h6 := congrArg List.length h5
      rw [asciiLower_length, htu, List.length_take] at h6
      simp only [List.length_nil] at h6
      omega
    unfold splitScheme
    rw [hfv]
    dsimp only
    rw [if_neg]
    intro hcon
    apply hcond
    refine ⟨hcon.1, ?_, ?_⟩
    · rw [headI_append_left _ hpne] at hcon ⊢
      exact hcon.2.1
    · rw [htu]
      rw [htv] at hcon
      exact hcon.2.2

theorem isAlwaysSafe_toNat {c : Char} (h : isAlwaysSafe c = true) :
    (48 ≤ c.toNat ∧ c.toNat ≤ 57) ∨ (65 ≤ c.toNat ∧ c.toNat ≤ 90) ∨
    (97 ≤ c.toNat ∧ c.toNat ≤ 122) ∨ c.toNat = 95 ∨ c.toNat = 46 ∨
    c.toNat = 45 ∨ c.toNat = 126 := by
  simp only [isAlwaysSafe, isAsciiAlpha, isAsciiDigit, decide_eq_true_eq] at h
  rcases h with (h | h) | h | h | h | h | h
  · exact Or.inr (Or.inl h)
  · exact Or.inr (Or.inr (Or.inl h))
  · exact Or.inl h
  · subst h
    exact Or.inr (Or.inr (Or.inr (Or.inl rfl)))
  · subst h
    exact Or.inr (Or.inr (Or.inr (Or.inr (Or.inl rfl))))
  · subst h
    exact Or.inr (Or.inr (Or.inr (Or.inr (Or.inr (Or.inl rfl)))))
  · subst h
    exact Or.inr (Or.inr (Or.inr (Or.inr (Or.inr (Or.inr rfl)))))

theorem ne_char_of_toNat {c d : Char} (h : c.toNat ≠ d.toNat) : ¬ c = d := by
  intro he
  exact h (congrArg Char.toNat he)

theorem mem_intercalate_amp {segs : List Str} {c : Char}
    (h : c ∈ List.intercalate ['&'] segs) : c = '&' ∨ ∃ seg ∈ segs, c ∈ seg := by
  induction segs with
  | nil =>
    rw [show List.intercalate ['&'] ([] : List Str) = [] from rfl] at h
    cases h
  | cons x zs ih =>
    cases zs with
    | nil =>
      rw [intercalate_singleton] at h
      exact Or.inr ⟨x, List.mem_cons_self x [], h⟩
    | cons y zs2 =>
      rw [intercalate_cons_cons] at h
      rcases List.mem_append.1 h with h2 | h2
      · rcases List.mem_append.1 h2 with h3 | h3
        · exact Or.inr ⟨x, List.mem_cons_self x _, h3⟩
        · rw [List.mem_singleton] at h3
          exact Or.inl h3
      · rcases ih h2 with h3 | ⟨seg, hseg, hcin⟩
        · exact Or.inl h3
        · exact Or.inr ⟨seg, List.mem_cons_of_mem x hseg, hcin⟩

theorem urlencode_mem {pairs : List (Str × Str)} :
    ∀ c ∈ urlencode pairs,
      isAlwaysSafe c = true ∨ c = '+' ∨ c = '%' ∨ c = '&' ∨ c = '=' := by
  intro c hc
  unfold urlencode at hc
  rcases mem_intercalate_amp hc with h | ⟨seg, hseg, hcin⟩
  · exact Or.inr (Or.inr (Or.inr (Or.inl h)))
  · rcases List.mem_map.1 hseg with ⟨kv, _, hkv⟩
    subst hkv
    rcases List.mem_append.1 hcin with h | h
    · rcases pyQuotePlus_mem c h with h2 | h2 | h2
      · exact Or.inl h2
      · exact Or.inr (Or.inl h2)
      · exact Or.inr (Or.inr (Or.inl h2))
    · rcases List.mem_cons.1 h with rfl | h
      · exact Or.inr (Or.inr (Or.inr (Or.inr rfl)))
      · rcases pyQuotePlus_mem c h with h2 | h2 | h2
        · exact Or.inl h2
        · exact Or.inr (Or.inl h2)
        · exact Or.inr (Or.inr (Or.inl h2))

theorem urlencode_char_facts (pairs : List (Str × Str)) :
    ∀ c ∈ urlencode pairs, isUnsafeUrlChar c = false ∧ ¬ c = '#' ∧ ¬ c = '?' ∧
      ¬ c = ':' ∧ ¬ c = '/' := by
  intro c hc
  have htN : (48 ≤ c.toNat ∧ c.toNat ≤ 57) ∨ (65 ≤ c.toNat ∧ c.toNat ≤ 90) ∨
      (97 ≤ c.toNat ∧ c.toNat ≤ 122) ∨ c.toNat = 95 ∨ c.toNat = 46 ∨
      c.toNat = 45 ∨ c.toNat = 126 ∨ c.toNat = 43 ∨ c.toNat = 37 ∨
      c.toNat = 38 ∨ c.toNat = 61 := by
    rcases urlencode_mem c hc with h | h | h | h | h
    · rcases isAlwaysSafe_toNat h with h2 | h2 | h2 | h2 | h2 | h2 | h2
      · exact Or.inl h2
      · exact Or.inr (Or.inl h2)
      · exact Or.inr (Or.inr (Or.inl h2))
      · exact Or.inr (Or.inr (Or.inr (Or.inl h2)))
      · exact Or.inr (Or.inr (Or.inr (Or.inr (Or.inl h2))))
      · exact Or.inr (Or.inr (Or.inr (Or.inr (Or.inr (Or.inl h2)))))
      · exact Or.inr (Or.inr (Or.inr (Or.inr (Or.inr (Or.inr (Or.inl h2))))))
    all_goals subst h
    · exact Or.inr (Or.inr (Or.inr (Or.inr (Or.inr (Or.inr (Or.inr (Or.inl rfl)))))))
    · exact Or.inr (Or.inr (Or.inr (Or.inr (Or.inr (Or.inr (Or.inr (Or.inr (Or.inl rfl))))))))
    · exact Or.inr (Or.inr (Or.inr (Or.inr (Or.inr (Or.inr (Or.inr (Or.inr (Or.inr (Or.inl rfl)))))))))
    · exact Or.inr (Or.inr (Or.inr (Or.inr (Or.inr (Or.inr (Or.inr (Or.inr (Or.inr (Or.inr rfl)))))))))
  refine ⟨?_, ?_, ?_, ?_, ?_⟩
  · simp only [isUnsafeUrlChar, decide_eq_false_iff_not]
    rintro (he | he | he)
    · have h2 := congrArg Char.toNat he
      rw [show (Char.ofNat 9).toNat = 9 from by decide] at h2
      omega
    · have h2 := congrArg Char.toNat he
      rw [show (Char.ofNat 13).toNat = 13 from by decide] at h2
      omega
    · have h2 := congrArg Char.toNat he
      rw [show (Char.ofNat 10).toNat = 10 from by decide] at h2
      omega
  · exact ne_char_of_toNat (by show c.toNat ≠ 35; omega)
  · exact ne_char_of_toNat (by show c.toNat ≠ 63; omega)
  · exact ne_char_of_toNat (by show c.toNat ≠ 58; omega)
  · exact ne_char_of_toNat (by show c.toNat ≠ 47; omega)

theorem splitOnce_decomp (sep : Char) : ∀ (s : Str),
    s = (splitOnce sep s).1 ++ (match (splitOnce sep s).2 with
      | none => []
      | some t => sep :: t) := by
  intro s
  induction s with
  | nil => rfl
  | cons c cs ih =>
    show c :: cs = _
    unfold splitOnce
    by_cases hc : c = sep
    · rw [if_pos hc]
      dsimp only
      rw [hc]
      rfl
    · rw [if_neg hc]
      dsimp only
      conv_lhs => rw [ih]
      rfl

theorem dropWhile_headI_false {p : Char → Bool} (l : Str) :
    l.dropWhile p = [] ∨ p (l.dropWhile p).headI = false := by
  induction l with
  | nil => exact Or.inl rfl
  | cons c cs ih =>
    by_cases hc : p c = true
    · rw [List.dropWhile_cons_of_pos hc]
      exact ih
    · rw [Bool.not_eq_true] at hc
      rw [List.dropWhile_cons_of_neg (by simp [hc])]
      exact Or.inr hc

theorem clean_id {v : Str} (hhead : v = [] ∨ isC0OrSpace v.headI = false)
    (hUns : ∀ c ∈ v, isUnsafeUrlChar c = false) :
    (v.dropWhile isC0OrSpace).filter (fun c => ¬ isUnsafeUrlChar c) = v := by
  rw [dropWhile_self_of_head hhead]
  apply List.filter_eq_self.2
  intro c hc
  simp [hUns c hc]

theorem findIdx?_get {p : Char → Bool} :
    ∀ {s : Str} {i : Nat}, s.findIdx? p = some i →
    ∀ hlt : i < s.length, p (s.get ⟨i, hlt⟩) = true := by
  intro s
  induction s with
  | nil => intro i h; cases h
  | cons c cs ih =>
    intro i h hlt
    rw [findIdx?_cons_eq] at h
    by_cases hc : p c = true
    · rw [hc] at h
      injection h with he
      subst he
      exact hc
    · rw [Bool.not_eq_true] at hc
      rw [hc] at h
      simp only [Bool.false_eq_true, if_false] at h
      rcases Option.map_eq_some'.1 h with ⟨j, hj, hji⟩
      subst hji
      exact ih hj (by rw [List.length_cons] at hlt; omega)

theorem splitScheme_cases (s : Str) :
    splitScheme s = ([], s) ∨
    ((splitScheme s).1 ≠ [] ∧ isAsciiAlpha (splitScheme s).1.headI = true ∧
      (∀ c ∈ (splitScheme s).1, isSchemeChar c = true) ∧
      asciiLower (splitScheme s).1 = (splitScheme s).1 ∧
      s = (s.take ((splitScheme s).1.length)) ++ ':' :: (splitScheme s).2 ∧
      (splitScheme s).1 = asciiLower (s.take ((splitScheme s).1.length))) := by
  unfold splitScheme
  cases hf : s.findIdx? (fun c => c = ':') with
  | none => exact Or.inl rfl
  | some i =>
    dsimp only
    by_cases hcnd : 0 < i ∧ isAsciiAlpha s.headI = true ∧ (s.take i).all isSchemeChar = true
    · rw [if_pos hcnd]
      dsimp only
      right
      obtain ⟨hi0, hAl, hall⟩ := hcnd
      have hilen : i < s.length := findIdx?_some_lt hf
      have hlen : (asciiLower (s.take i)).length = i := by
        rw [asciiLower_length, List.length_take]
        omega
      have htne : asciiLower (s.take i) ≠ [] := by
        intro he
        have h2 := congrArg List.length he
        rw [hlen] at h2
        simp only [List.length_nil] at h2
        omega
      refine ⟨htne, ?_, ?_, ?_, ?_, ?_⟩
      · have htk : s.take i ≠ [] := by
          intro he
          have h2 := congrArg List.length he
          rw [List.length_take] at h2
          simp only [List.length_nil] at h2
          omega
        rw [asciiLower_headI _ htk]
        apply isAsciiAlpha_lower
        have hh : (s.take i).headI = s.headI := by
          cases s with
          | nil => simp at hilen
          | cons a t =>
            cases hi : i with
            | zero => omega
            | succ j => rfl
        rw [hh]
        exact hAl
      · intro c hcm
        rcases List.mem_map.1 hcm with ⟨c0, hc0, hc0e⟩
        rw [← hc0e]
        exact isSchemeChar_lower (List.all_eq_true.1 hall c0 hc0)
      · exact asciiLower_idem _
      · rw [hlen]
        have hget : s.get ⟨i, hilen⟩ = ':' := by
          have := findIdx?_get hf hilen
          simpa using this
        conv_lhs => rw [← List.take_append_drop i s]
        congr 1
        rw [List.drop_eq_get_cons hilen, hget]
      · rw [hlen]
    · rw [if_neg hcnd]
      exact Or.inl rfl

theorem isSchemeChar_not_unsafe {c : Char} (h : isSchemeChar c = true) :
    isUnsafeUrlChar c = false := by
  have htN : 43 ≤ c.toNat := by
    simp only [isSchemeChar, isAsciiAlpha, isAsciiDigit, decide_eq_true_eq] at h
    rcases h with (h | h) | h | h | h | h
    · omega
    · omega
    · omega
    all_goals
      rw [h]
      decide
  simp only [isUnsafeUrlChar, decide_eq_false_iff_not]
  rintro (he | he | he)
  · have h2 := congrArg Char.toNat he
    rw [show (Char.ofNat 9).toNat = 9 from by decide] at h2
    omega
  · have h2 := congrArg Char.toNat he
    rw [show (Char.ofNat 13).toNat = 13 from by decide] at h2
    omega
  · have h2 := congrArg Char.toNat he
    rw [show (Char.ofNat 10).toNat = 10 from by decide] at h2
    omega

theorem prefixOf_single_head {path : Str} (h : ['/'].isPrefixOf path = true) :
    path ≠ [] ∧ path.headI = '/' := by
  cases path with
  | nil => cases h
  | cons c t =>
    refine ⟨by simp, ?_⟩
    show c = '/'
    simp [List.isPrefixOf] at h
    exact h.symm

/-- Re-splitting an `urlunsplit` of well-formed parse components is stable:
`normalize_url` maps the rebuilt URL to itself. -/
theorem normalize_unsplit_stable
    (scheme netloc path : Str) (pairs : List (Str × Str))
    (H1 : scheme = [] ∨ (scheme ≠ [] ∧ isAsciiAlpha scheme.headI = true ∧
          (∀ c ∈ scheme, isSchemeChar c = true) ∧ asciiLower scheme = scheme))
    (H2 : ∀ c ∈ netloc, isNetlocDelim c = false)
    (H3 : netlocOk netloc = true)
    (H4a : '#' ∉ path) (H4b : '?' ∉ path)
    (H5 : netloc ≠ [] → path = [] ∨ (path ≠ [] ∧ path.headI = '/'))
    (H6 : netloc = [] → ['/', '/'].isPrefixOf path = false)
    (H8p : ∀ c ∈ path, isUnsafeUrlChar c = false)
    (H8n : ∀ c ∈ netloc, isUnsafeUrlChar c = false)
    (H9 : scheme = [] → netloc = [] →
          (path ≠ [] → isC0OrSpace path.headI = false) ∧
          ∃ w, splitScheme (path ++ w) = ([], path ++ w))
    (Hfil : pairs.filter keepPair = pairs) :
    normalize_url (urlunsplit scheme netloc path (urlencode pairs) []) =
      some (urlunsplit scheme netloc path (urlencode pairs) []) := by
  have hqf := urlencode_char_facts pairs
  have hqu : ∀ c ∈ urlencode pairs, isUnsafeUrlChar c = false := fun c hc => (hqf c hc).1
  have hqh : '#' ∉ urlencode pairs := fun hm => (hqf _ hm).2.1 rfl
  have hqc : ':' ∉ urlencode pairs := fun hm => (hqf _ hm).2.2.2.1 rfl
  have hround : urlencode ((parse_qsl (urlencode pairs)).filter keepPair) =
      urlencode pairs := by
    rw [parse_qsl_urlencode, Hfil]
  obtain ⟨qp, hqpap, hqpshape, hqph, hqpc, hqpu, hqsplit⟩ :
      ∃ qp : Str,
        (∀ u2 : Str, (if urlencode pairs ≠ [] then u2 ++ '?' :: urlencode pairs else u2) =
          u2 ++ qp) ∧
        (qp = [] ∨ (qp ≠ [] ∧ qp.headI = '?')) ∧ '#' ∉ qp ∧ ':' ∉ qp ∧
        (∀ c ∈ qp, isUnsafeUrlChar c = false) ∧
        (∀ x : Str, '?' ∉ x → (splitOnce '?' (x ++ qp)).1 = x ∧
          ((splitOnce '?' (x ++ qp)).2.getD []) = urlencode pairs) := by
    by_cases hqe : urlencode pairs = []
    · refine ⟨[], ?_, Or.inl rfl, by simp, by simp, by simp, ?_⟩
      · intro u2
        rw [if_neg (by simp [hqe]), List.append_nil]
      · intro x hx
        rw [List.append_nil, splitOnce_not_mem hx]
        exact ⟨rfl, hqe.symm⟩
    · refine ⟨'?' :: urlencode pairs, ?_, Or.inr ⟨by simp, rfl⟩, ?_, ?_, ?_, ?_⟩
      · intro u2
        rw [if_pos hqe]
      · intro hm
        rcases List.mem_cons.1 hm with he | hm2
        · exact absurd he (by decide)
        · exact hqh hm2
      · intro hm
        rcases List.mem_cons.1 hm with he | hm2
        · exact absurd he (by decide)
        · exact hqc hm2
      · intro c hc
        rcases List.mem_cons.1 hc with rfl | hc2
        · decide
        · exact hqu c hc2
      · intro x hx
        rw [splitOnce_append _ hx]
        exact ⟨rfl, rfl⟩
  have hhsplit : ∀ x : Str, '#' ∉ x → splitOnce '#' (x ++ qp) = (x ++ qp, none) := by
    intro x hx
    apply splitOnce_not_mem
    intro hm
    rcases List.mem_append.1 hm with hm | hm
    · exact hx hm
    · exact hqph hm
  have hscheme_chars : ∀ c ∈ scheme, isSchemeChar c = true := by
    rcases H1 with h0 | hS
    · rw [h0]
      intro c hc
      cases hc
    · exact hS.2.2.1
  by_cases hcond : netloc ≠ [] ∨ (scheme ≠ [] ∧ usesNetloc.contains scheme = true ∧
      ¬ (['/', '/'].isPrefixOf path = true))
  · obtain ⟨p, hpdef, hpshape, hph, hpq, hpu, hpns⟩ :
        ∃ p : Str,
          (if path ≠ [] ∧ ¬ (['/'].isPrefixOf path = true) then '/' :: path else path) = p ∧
          (p = [] ∨ (p ≠ [] ∧ p.headI = '/')) ∧ '#' ∉ p ∧ '?' ∉ p ∧
          (∀ c ∈ p, isUnsafeUrlChar c = false) ∧
          (netloc = [] → ['/', '/'].isPrefixOf p = false) := by
      by_cases hpN : path = []
      · refine ⟨path, by rw [if_neg (by simp [hpN])], Or.inl hpN, H4a, H4b, H8p, ?_⟩
        intro _
        rw [hpN]
        rfl
      · by_cases hpS : ['/'].isPrefixOf path = true
        · obtain ⟨hne, hhd⟩ := prefixOf_single_head hpS
          exact ⟨path, by rw [if_neg (by simp [hpS])], Or.inr ⟨hne, hhd⟩, H4a, H4b, H8p, H6⟩
        · refine ⟨'/' :: path, by rw [if_pos ⟨hpN, hpS⟩], Or.inr ⟨by simp, rfl⟩,
            ?_, ?_, ?_, ?_⟩
          · intro hm
            rcases List.mem_cons.1 hm with he | hm2
            · exact absurd he (by decide)
            · exact H4a hm2
          · intro hm
            rcases List.mem_cons.1 hm with he | hm2
            · exact absurd he (by decide)
            · exact H4b hm2
          · intro c hc
            rcases List.mem_cons.1 hc with rfl | hc2
            · decide
            · exact H8p c hc2
          · intro _
            cases path with
            | nil => exact absurd rfl hpN
            | cons c t =>
              have hc : ¬ c = '/' := by
                intro he
                apply hpS
                simp [List.isPrefixOf, he]
              have h2 : ¬ ('/' : Char) = c := fun he => hc he.symm
              simp [List.isPrefixOf, h2]
    have hv : ∀ (pp : Str),
        (netloc ≠ [] ∨ (scheme ≠ [] ∧ usesNetloc.contains scheme = true ∧
          ¬ (['/', '/'].isPrefixOf pp = true))) →
        (if pp ≠ [] ∧ ¬ (['/'].isPrefixOf pp = true) then '/' :: pp else pp) = p →
        urlunsplit scheme netloc pp (urlencode pairs) [] =
          (if scheme ≠ [] then scheme ++ ':' :: ('/' :: '/' :: (netloc ++ p))
            else ('/' :: '/' :: (netloc ++ p))) ++ qp := by
      intro pp hcnd hpd
      unfold urlunsplit
      dsimp only
      rw [if_pos hcnd, hpd]
      rw [if_neg (by simp : ¬ (([] : Str) ≠ []))]
      rw [hqpap]
    have hpfix : (if p ≠ [] ∧ ¬ (['/'].isPrefixOf p = true) then '/' :: p else p) = p := by
      rcases hpshape with hp0 | ⟨hpne, hphd⟩
      · rw [if_neg (by simp [hp0])]
      · have hpre : ['/'].isPrefixOf p = true := by
          cases p with
          | nil => exact absurd rfl hpne
          | cons c t =>
            have hc : c = '/' := hphd
            simp [List.isPrefixOf, hc]
        rw [if_neg (by simp [hpre])]
    have hcondp : netloc ≠ [] ∨ (scheme ≠ [] ∧ usesNetloc.contains scheme = true ∧
        ¬ (['/', '/'].isPrefixOf p = true)) := by
      by_cases hn : netloc = []
      · rcases hcond with hc1 | hc2
        · exact absurd hn hc1
        · right
          refine ⟨hc2.1, hc2.2.1, ?_⟩
          rw [hpns hn]
          simp
      · exact Or.inl hn
    have hveq := hv path hcond hpdef
    have hveq2 := hv p hcondp hpfix
    have hcore : ∀ c ∈ ('/' :: '/' :: (netloc ++ p) : Str), isUnsafeUrlChar c = false := by
      intro c hc
      rcases List.mem_cons.1 hc with rfl | hc
      · decide
      · rcases List.mem_cons.1 hc with rfl | hc
        · decide
        · rcases List.mem_append.1 hc with hc | hc
          · exact H8n c hc
          · exact hpu c hc
    have hEu : ∀ c ∈ ((if scheme ≠ [] then scheme ++ ':' :: ('/' :: '/' :: (netloc ++ p))
        else ('/' :: '/' :: (netloc ++ p))) ++ qp), isUnsafeUrlChar c = false := by
      intro c hc
      rcases List.mem_append.1 hc with hc | hc
      · split_ifs at hc with hs
        · rcases List.mem_append.1 hc with hc | hc
          · exact isSchemeChar_not_unsafe (hscheme_chars c hc)
          · rcases List.mem_cons.1 hc with rfl | hc
            · decide
            · exact hcore c hc
        · exact hcore c hc
      · exact hqpu c hc
    have hEh : ((if scheme ≠ [] then scheme ++ ':' :: ('/' :: '/' :: (netloc ++ p))
        else ('/' :: '/' :: (netloc ++ p))) ++ qp) = [] ∨
        isC0OrSpace (((if scheme ≠ [] then scheme ++ ':' :: ('/' :: '/' :: (netloc ++ p))
          else ('/' :: '/' :: (netloc ++ p))) ++ qp)).headI = false := by
      right
      split_ifs with hs
      · rcases H1 with h0 | hS
        · exact absurd h0 hs
        · rw [List.append_assoc, headI_append_left _ hs]
          exact alpha_not_C0 hS.2.1
      · exact (by decide : isC0OrSpace '/' = false)
    have hss : splitScheme ((if scheme ≠ [] then
        scheme ++ ':' :: ('/' :: '/' :: (netloc ++ p))
        else ('/' :: '/' :: (netloc ++ p))) ++ qp) =
        (scheme, '/' :: '/' :: ((netloc ++ p) ++ qp)) := by
      split_ifs with hs
      · rcases H1 with h0 | hS
        · exact absurd h0 hs
        · have hassoc : (scheme ++ ':' :: ('/' :: '/' :: (netloc ++ p))) ++ qp =
              scheme ++ ':' :: ('/' :: '/' :: ((netloc ++ p) ++ qp)) := by
            rw [List.append_assoc]
            rfl
          rw [hassoc]
          exact splitScheme_of_scheme _ hS.1 hS.2.1 hS.2.2.1 hS.2.2.2
      · have h0 : scheme = [] := not_not.1 hs
        rw [h0]
        exact splitScheme_headI_not_alpha (by decide : isAsciiAlpha '/' = false)
    have hsplit : urlsplit ((if scheme ≠ [] then
        scheme ++ ':' :: ('/' :: '/' :: (netloc ++ p))
        else ('/' :: '/' :: (netloc ++ p))) ++ qp) =
        some ⟨scheme, netloc, p, urlencode pairs, []⟩ := by
      unfold urlsplit
      dsimp only
      rw [clean_id hEh hEu, hss]
      dsimp only
      rw [if_pos (by simp [List.isPrefixOf] :
        ['/', '/'].isPrefixOf ('/' :: '/' :: ((netloc ++ p) ++ qp)) = true)]
      have hsn : splitNetloc ((netloc ++ p) ++ qp) = (netloc, p ++ qp) := by
        rw [List.append_assoc]
        apply splitNetloc_append H2
        rcases hpshape with hp0 | ⟨hpne, hphd⟩
        · rw [hp0, List.nil_append]
          rcases hqpshape with hq0 | ⟨hqne, hqhd⟩
          · exact Or.inl hq0
          · right
            rw [hqhd]
            decide
        · right
          rw [headI_append_left _ hpne, hphd]
          decide
      rw [show (('/' :: '/' :: ((netloc ++ p) ++ qp) : Str).drop 2) = (netloc ++ p) ++ qp
        from rfl]
      rw [hsn]
      dsimp only
      rw [if_pos H3]
      rw [hhsplit p hph]
      dsimp only
      obtain ⟨hq1, hq2⟩ := hqsplit p hpq
      rw [hq1, hq2]
      rfl
    unfold normalize_url
    rw [hveq, hsplit]
    rw [Option.map_some']
    dsimp only
    rw [hround, hveq2]
  · have hno := not_or.1 hcond
    have hn0 : netloc = [] := not_not.1 hno.1
    subst hn0
    have hnp : ['/', '/'].isPrefixOf path = false := H6 rfl
    have hv : ∀ (pp : Str),
        ¬ (([] : Str) ≠ [] ∨ (scheme ≠ [] ∧ usesNetloc.contains scheme = true ∧
          ¬ (['/', '/'].isPrefixOf pp = true))) →
        urlunsplit scheme [] pp (urlencode pairs) [] =
          (if scheme ≠ [] then scheme ++ ':' :: pp else pp) ++ qp := by
      intro pp hcnd
      unfold urlunsplit
      dsimp only
      rw [if_neg hcnd]
      rw [if_neg (by simp : ¬ (([] : Str) ≠ []))]
      rw [hqpap]
    have hveq := hv path hcond
    have hss : splitScheme ((if scheme ≠ [] then scheme ++ ':' :: path else path) ++ qp) =
        (scheme, path ++ qp) := by
      split_ifs with hs
      · rcases H1 with h0 | hS
        · exact absurd h0 hs
        · have hassoc : (scheme ++ ':' :: path) ++ qp = scheme ++ ':' :: (path ++ qp) := by
            rw [List.append_assoc]
            rfl
          rw [hassoc]
          exact splitScheme_of_scheme _ hS.1 hS.2.1 hS.2.2.1 hS.2.2.2
      · have h0 : scheme = [] := not_not.1 hs
        obtain ⟨hC0, w, hw⟩ := H9 h0 rfl
        rw [h0]
        exact splitScheme_nil_transfer hqpc hw
    have hrest_ns : ['/', '/'].isPrefixOf (path ++ qp) = false := by
      cases path with
      | nil =>
        rw [List.nil_append]
        rcases hqpshape with hq0 | ⟨hqne, hqhd⟩
        · rw [hq0]
          rfl
        · cases qp with
          | nil => rfl
          | cons c t =>
            have hc : c = '?' := hqhd
            rw [hc]
            simp [List.isPrefixOf]
      | cons c t =>
        by_cases hc : c = '/'
        · subst hc
          cases t with
          | nil =>
            show List.isPrefixOf ['/', '/'] ('/' :: qp) = false
            rcases hqpshape with hq0 | ⟨hqne, hqhd⟩
            · rw [hq0]
              decide
            · cases qp with
              | nil => decide
              | cons c2 t2 =>
                have hc2 : c2 = '?' := hqhd
                rw [hc2]
                simp [List.isPrefixOf]
          | cons c2 t2 =>
            have hc2 : ¬ c2 = '/' := by
              intro he
              rw [he] at hnp
              simp [List.isPrefixOf] at hnp
            show List.isPrefixOf ['/', '/'] ('/' :: c2 :: (t2 ++ qp)) = false
            have h2 : ¬ ('/' : Char) = c2 := fun he => hc2 he.symm
            simp [List.isPrefixOf, h2]
        · have h2 : ¬ ('/' : Char) = c := fun he => hc he.symm
          show List.isPrefixOf ['/', '/'] (c :: (t ++ qp)) = false
          simp [List.isPrefixOf, h2]
    have hEu : ∀ c ∈ ((if scheme ≠ [] then scheme ++ ':' :: path else path) ++ qp),
        isUnsafeUrlChar c = false := by
      intro c hc
      rcases List.mem_append.1 hc with hc | hc
      · split_ifs at hc with hs
        · rcases List.mem_append.1 hc with hc | hc
          · exact isSchemeChar_not_unsafe (hscheme_chars c hc)
          · rcases List.mem_cons.1 hc with rfl | hc
            · decide
            · exact H8p c hc
        · exact H8p c hc
      · exact hqpu c hc
    have hEh : ((if scheme ≠ [] then scheme ++ ':' :: path else path) ++ qp) = [] ∨
        isC0OrSpace (((if scheme ≠ [] then scheme ++ ':' :: path else path) ++ qp)).headI =
          false := by
      split_ifs with hs
      · right
        rcases H1 with h0 | hS
        · exact absurd h0 hs
        · rw [List.append_assoc, headI_append_left _ hs]
          exact alpha_not_C0 hS.2.1
      · have h0 : scheme = [] := not_not.1 hs
        obtain ⟨hC0, _⟩ := H9 h0 rfl
        cases hpe : path with
        | nil =>
          rcases hqpshape with hq0 | ⟨hqne, hqhd⟩
          · left
            rw [hq0, List.append_nil]
          · right
            rw [List.nil_append]
            cases qp with
            | nil => exact absurd rfl hqne
            | cons c2 t2 =>
              have hc2 : c2 = '?' := hqhd
              rw [hc2]
              exact (by decide : isC0OrSpace '?' = false)
        | cons c t =>
          right
          rw [headI_append_left _ (by simp)]
          have := hC0 (by rw [hpe]; simp)
          rw [hpe] at this
          exact this
    have hsplit : urlsplit ((if scheme ≠ [] then scheme ++ ':' :: path else path) ++ qp) =
        some ⟨scheme, [], path, urlencode pairs, []⟩ := by
      unfold urlsplit
      dsimp only
      rw [clean_id hEh hEu, hss]
      dsimp only
      rw [if_neg (show ¬ (['/', '/'].isPrefixOf (path ++ qp) = true) by
        simp [hrest_ns])]
      dsimp only
      rw [if_pos (by decide : netlocOk [] = true)]
      rw [hhsplit path H4a]
      dsimp only
      obtain ⟨hq1, hq2⟩ := hqsplit path H4b
      rw [hq1, hq2]
      rfl
    unfold normalize_url
    rw [hveq, hsplit]
    rw [Option.map_some']
    dsimp only
    rw [hround, hveq]

theorem splitOnce_fst_not_mem (sep : Char) : ∀ (s : Str), sep ∉ (splitOnce sep s).1 := by
  intro s
  induction s with
  | nil =>
    intro hm
    cases hm
  | cons c cs ih =>
    show sep ∉ (splitOnce sep (c :: cs)).1
    unfold splitOnce
    by_cases hc : c = sep
    · rw [if_pos hc]
      intro hm
      cases hm
    · rw [if_neg hc]
      dsimp only
      intro hm
      rcases List.mem_cons.1 hm with he | hm2
      · exact hc he.symm
      · exact ih hm2

theorem splitOnce_cons_ne {sep c : Char} (t : Str) (hc : ¬ c = sep) :
    splitOnce sep (c :: t) = (c :: (splitOnce sep t).1, (splitOnce sep t).2) := by
  conv_lhs => unfold splitOnce
  rw [if_neg hc]

theorem splitOnce_cons_self (sep : Char) (t : Str) :
    splitOnce sep (sep :: t) = ([], some t) := by
  unfold splitOnce
  rw [if_pos rfl]

theorem not_C0_not_unsafe {c : Char} (h : isC0OrSpace c = false) :
    isUnsafeUrlChar c = false := by
  have htN : 32 < c.toNat := by
    simp only [isC0OrSpace, decide_eq_false_iff_not] at h
    omega
  simp only [isUnsafeUrlChar, decide_eq_false_iff_not]
  rintro (he | he | he)
  · have h2 := congrArg Char.toNat he
    rw [show (Char.ofNat 9).toNat = 9 from by decide] at h2
    omega
  · have h2 := congrArg Char.toNat he
    rw [show (Char.ofNat 13).toNat = 13 from by decide] at h2
    omega
  · have h2 := congrArg Char.toNat he
    rw [show (Char.ofNat 10).toNat = 10 from by decide] at h2
    omega

theorem takeWhile_subset {α : Type} {p : α → Bool} : ∀ {l : List α}, l.takeWhile p ⊆ l := by
  intro l
  induction l with
  | nil => intro x hx; exact hx
  | cons a t ih =>
    intro x hx
    by_cases ha : p a = true
    · rw [List.takeWhile_cons_of_pos ha] at hx
      rcases List.mem_cons.1 hx with rfl | hx2
      · exact List.mem_cons_self x t
      · exact List.mem_cons_of_mem a (ih hx2)
    · rw [Bool.not_eq_true] at ha
      rw [List.takeWhile_cons_of_neg (by simp [ha])] at hx
      cases hx

theorem dropWhile_subset {α : Type} {p : α → Bool} : ∀ {l : List α}, l.dropWhile p ⊆ l := by
  intro l
  induction l with
  | nil => intro x hx; exact hx
  | cons a t ih =>
    intro x hx
    by_cases ha : p a = true
    · rw [List.dropWhile_cons_of_pos ha] at hx
      exact List.mem_cons_of_mem a (ih hx)
    · rw [Bool.not_eq_true] at ha
      rw [List.dropWhile_cons_of_neg (by simp [ha])] at hx
      exact hx

/-- Every delimiter-and-path property the stability theorem needs holds of a
successful `urlsplit` result. -/
theorem urlsplit_wellformed {u : Str} {r : SplitResult} (hu : urlsplit u = some r) :
    (r.scheme = [] ∨ (r.scheme ≠ [] ∧ isAsciiAlpha r.scheme.headI = true ∧
      (∀ c ∈ r.scheme, isSchemeChar c = true) ∧ asciiLower r.scheme = r.scheme)) ∧
    (∀ c ∈ r.netloc, isNetlocDelim c = false) ∧
    netlocOk r.netloc = true ∧
    '#' ∉ r.path ∧ '?' ∉ r.path ∧
    (r.netloc ≠ [] → r.path = [] ∨ (r.path ≠ [] ∧ r.path.headI = '/')) ∧
    (∀ c ∈ r.path, isUnsafeUrlChar c = false) ∧
    (∀ c ∈ r.netloc, isUnsafeUrlChar c = false) ∧
    (r.scheme = [] → r.netloc = [] →
      (r.path ≠ [] → isC0OrSpace r.path.headI = false) ∧
      ∃ w, splitScheme (r.path ++ w) = ([], r.path ++ w)) := by
  unfold urlsplit at hu
  dsimp only at hu
  set U1 := ((u.dropWhile isC0OrSpace).filter (fun c => ¬ isUnsafeUrlChar c)) with hU1
  have hU1u : ∀ c ∈ U1, isUnsafeUrlChar c = false := by
    intro c hc
    rw [hU1] at hc
    have h2 := List.of_mem_filter hc
    simpa using h2
  have hU1h : U1 = [] ∨ isC0OrSpace U1.headI = false := by
    rw [hU1]
    cases hdw : u.dropWhile isC0OrSpace with
    | nil => exact Or.inl rfl
    | cons c t =>
      have hc0 : isC0OrSpace c = false := by
        rcases @dropWhile_headI_false isC0OrSpace u with h | h
        · rw [hdw] at h
          exact absurd h (by simp)
        · rw [hdw] at h
          exact h
      have hcu : isUnsafeUrlChar c = false := not_C0_not_unsafe hc0
      rw [List.filter_cons_of_pos (by simp [hcu])]
      exact Or.inr hc0
  have hsub2 : ∀ c ∈ (splitScheme U1).2, c ∈ U1 := by
    rcases splitScheme_cases U1 with hsc | hsc
    · intro c hc
      rw [hsc] at hc
      exact hc
    · obtain ⟨_, _, _, _, hdec, _⟩ := hsc
      intro c hc
      rw [hdec]
      exact List.mem_append_right _ (List.mem_cons_of_mem _ hc)
  have hH1 : (splitScheme U1).1 = [] ∨ ((splitScheme U1).1 ≠ [] ∧
      isAsciiAlpha (splitScheme U1).1.headI = true ∧
      (∀ c ∈ (splitScheme U1).1, isSchemeChar c = true) ∧
      asciiLower (splitScheme U1).1 = (splitScheme U1).1) := by
    rcases splitScheme_cases U1 with hsc | hsc
    · left
      rw [hsc]
    · exact Or.inr ⟨hsc.1, hsc.2.1, hsc.2.2.1, hsc.2.2.2.1⟩
  have hpathShape : ∀ (x : Str), (x = [] ∨ isNetlocDelim x.headI = true) →
      ((splitOnce '?' (splitOnce '#' x).1).1 = [] ∨
        ((splitOnce '?' (splitOnce '#' x).1).1 ≠ [] ∧
          (splitOnce '?' (splitOnce '#' x).1).1.headI = '/')) := by
    intro x hx
    rcases hx with hx | hx
    · rw [hx]
      left
      rfl
    · cases x with
      | nil => exact Or.inl rfl
      | cons d t =>
        have hd : d = '/' ∨ d = '?' ∨ d = '#' := by
          have h2 : isNetlocDelim d = true := hx
          simpa [isNetlocDelim] using h2
        rcases hd with rfl | rfl | rfl
        · rw [splitOnce_cons_ne t (by decide : ¬ ('/' : Char) = '#')]
          rw [show ((('/' : Char) :: (splitOnce '#' t).1, (splitOnce '#' t).2).1) =
            '/' :: (splitOnce '#' t).1 from rfl]
          rw [splitOnce_cons_ne _ (by decide : ¬ ('/' : Char) = '?')]
          exact Or.inr ⟨by simp, rfl⟩
        · rw [splitOnce_cons_ne t (by decide : ¬ ('?' : Char) = '#')]
          rw [show ((('?' : Char) :: (splitOnce '#' t).1, (splitOnce '#' t).2).1) =
            '?' :: (splitOnce '#' t).1 from rfl]
          rw [splitOnce_cons_self '?' (splitOnce '#' t).1]
          exact Or.inl rfl
        · rw [splitOnce_cons_self '#' t]
          exact Or.inl rfl
  have hpathQ : ∀ (x : Str), '?' ∉ (splitOnce '?' (splitOnce '#' x).1).1 := by
    intro x
    exact splitOnce_fst_not_mem '?' _
  have hpathH : ∀ (x : Str), '#' ∉ (splitOnce '?' (splitOnce '#' x).1).1 := by
    intro x hm
    have hdecq := splitOnce_decomp '?' (splitOnce '#' x).1
    have hmem : '#' ∈ (splitOnce '#' x).1 := by
      rw [hdecq]
      exact List.mem_append_left _ hm
    exact splitOnce_fst_not_mem '#' x hmem
  have hpathSub : ∀ (x : Str), ∀ c ∈ (splitOnce '?' (splitOnce '#' x).1).1, c ∈ x := by
    intro x c hc
    have hdecq := splitOnce_decomp '?' (splitOnce '#' x).1
    have hmem : c ∈ (splitOnce '#' x).1 := by
      rw [hdecq]
      exact List.mem_append_left _ hc
    have hdech := splitOnce_decomp '#' x
    rw [hdech]
    exact List.mem_append_left _ hmem
  by_cases hpre : ['/', '/'].isPrefixOf (splitScheme U1).2 = true
  · rw [if_pos hpre] at hu
    split at hu
    rotate_left
    · cases hu
    rename_i hOk
    · injection hu with he
      subst he
      dsimp only at hOk ⊢
      have hnr2 : (splitNetloc ((splitScheme U1).2.drop 2)).2 = [] ∨
          isNetlocDelim ((splitNetloc ((splitScheme U1).2.drop 2)).2).headI = true := by
        rcases @dropWhile_headI_false (fun c => ¬ isNetlocDelim c)
            ((splitScheme U1).2.drop 2) with h | h
        · exact Or.inl h
        · right
          have h2 : isNetlocDelim
              ((((splitScheme U1).2.drop 2).dropWhile
                (fun c => ¬ isNetlocDelim c)).headI) = true := by
            simpa using h
          exact h2
      have hshape := hpathShape _ hnr2
      refine ⟨hH1, ?_, hOk, hpathH _, hpathQ _, fun _ => hshape, ?_, ?_, ?_⟩
      · intro c hc
        have hc2 : c ∈ (((splitScheme U1).2.drop 2).takeWhile
            (fun c => ¬ isNetlocDelim c)) := hc
        have h2 := List.mem_takeWhile_imp hc2
        simpa using h2
      · intro c hc
        exact hU1u c (hsub2 c (List.drop_subset _ _ (dropWhile_subset (hpathSub _ c hc))))
      · intro c hc
        exact hU1u c (hsub2 c (List.drop_subset _ _ (takeWhile_subset hc)))
      · intro _ _
        constructor
        · intro hne
          rcases hshape with h0 | ⟨_, hhd⟩
          · exact absurd h0 hne
          · rw [hhd]
            decide
        · refine ⟨[], ?_⟩
          rw [List.append_nil]
          rcases hshape with h0 | ⟨hne, hhd⟩
          · rw [h0]
            rfl
          · apply splitScheme_headI_not_alpha
            rw [hhd]
            decide
  · rw [if_neg hpre] at hu
    split at hu
    rotate_left
    · cases hu
    rename_i hOk
    · injection hu with he
      subst he
      dsimp only at hOk ⊢
      refine ⟨hH1, ?_, hOk, hpathH _, hpathQ _, ?_, ?_, ?_, ?_⟩
      · intro c hc
        cases hc
      · intro hne
        exact absurd rfl hne
      · intro c hc
        exact hU1u c (hsub2 c (hpathSub _ c hc))
      · intro c hc
        cases hc
      · intro hs0 _
        have hsc : splitScheme U1 = ([], U1) := by
          rcases splitScheme_cases U1 with hsc | hsc
          · exact hsc
          · exact absurd hs0 hsc.1
        have hsr2 : (splitScheme U1).2 = U1 := by
          rw [hsc]
        have hdecq := splitOnce_decomp '?' (splitOnce '#' (splitScheme U1).2).1
        have hdech := splitOnce_decomp '#' (splitScheme U1).2
        constructor
        · intro hne
          have hU1ne : U1 ≠ [] := by
            intro h0
            apply hne
            rw [← hsr2] at h0
            have h1 : (splitOnce '#' (splitScheme U1).2).1 = [] := by
              rw [h0]
              rfl
            rw [h1]
            rfl
          rcases hU1h with h0 | h0
          · exact absurd h0 hU1ne
          · have hheq : ((splitOnce '?' (splitOnce '#' (splitScheme U1).2).1).1).headI =
                U1.headI := by
              conv_rhs => rw [← hsr2, hdech]
              rw [headI_append_left]
              · conv_rhs => rw [hdecq]
                rw [headI_append_left _ hne]
              · intro h1
                apply hne
                rw [hdecq] at h1
                rcases List.append_eq_nil.1 h1 with ⟨h2, _⟩
                exact h2
            rw [hheq]
            exact h0
        · refine ⟨(match (splitOnce '?' (splitOnce '#' (splitScheme U1).2).1).2 with
            | none => []
            | some t => '?' :: t) ++ (match (splitOnce '#' (splitScheme U1).2).2 with
            | none => []
            | some t => '#' :: t), ?_⟩
          have hfull : (splitOnce '?' (splitOnce '#' (splitScheme U1).2).1).1 ++
              ((match (splitOnce '?' (splitOnce '#' (splitScheme U1).2).1).2 with
                | none => []
                | some t => '?' :: t) ++ (match (splitOnce '#' (splitScheme U1).2).2 with
                | none => []
                | some t => '#' :: t)) = U1 := by
            rw [← List.append_assoc, ← hdecq, ← hdech]
            exact hsr2
          rw [hfull]
          exact hsc

/-- C9: amended idempotence and tracking-parameter behaviour of `normalize_url`.
For every URL `u` that `urlsplit` accepts, provided the parsed result is not in
the degenerate corner where the netloc is empty while the path still starts
with `//` (where the code is genuinely not idempotent, see the counterexample),
normalization is idempotent — `normalize_url` of the normalized URL returns it
unchanged — and the query pipeline removes exactly the tracking parameters:
re-parsing the re-encoded filtered query yields precisely the non-tracking
pairs, each preserved verbatim. -/
theorem C9_normalize_idempotent_amended (u : Str) (r : SplitResult)
    (hu : urlsplit u = some r)
    (hz : ¬ (r.netloc = [] ∧ ['/', '/'].isPrefixOf r.path = true)) :
    (normalize_url u).bind normalize_url = normalize_url u ∧
    parse_qsl (urlencode ((parse_qsl r.query).filter keepPair)) =
      (parse_qsl r.query).filter keepPair := by
  obtain ⟨h1, h2, h3, h4a, h4b, h5, h8p, h8n, h9⟩ := urlsplit_wellformed hu
  have h6 : r.netloc = [] → ['/', '/'].isPrefixOf r.path = false := by
    intro hn
    cases hb : ['/', '/'].isPrefixOf r.path
    · rfl
    · exact absurd ⟨hn, hb⟩ hz
  have hnu : normalize_url u = some (urlunsplit r.scheme r.netloc r.path
      (urlencode ((parse_qsl r.query).filter keepPair)) []) := by
    unfold normalize_url
    rw [hu]
    rfl
  constructor
  · rw [hnu, Option.some_bind]
    exact normalize_unsplit_stable r.scheme r.netloc r.path
      ((parse_qsl r.query).filter keepPair) h1 h2 h3 h4a h4b h5 h6 h8p h8n h9
      (List.filter_eq_self.2 (fun a ha => List.of_mem_filter ha))
  · exact parse_qsl_urlencode _

set_option maxHeartbeats 2000000 in
/-- Witness for C9 at a concrete URL with one tracking and one ordinary
query parameter. -/
theorem C9_normalize_idempotent_amended_witness :
    (normalize_url (str "https://example.com/a?utm_source=x&q=1")).bind normalize_url =
      normalize_url (str "https://example.com/a?utm_source=x&q=1") ∧
    parse_qsl (urlencode ((parse_qsl (str "utm_source=x&q=1")).filter keepPair)) =
      (parse_qsl (str "utm_source=x&q=1")).filter keepPair :=
  C9_normalize_idempotent_amended (str "https://example.com/a?utm_source=x&q=1")
    ⟨str "https", str "example.com", str "/a", str "utm_source=x&q=1", str ""⟩
    (by rfl) (by decide)

/-- The literal idempotence claim is false on the code as written: for the
input `"////"` normalization yields `"//"`, and normalizing `"//"` yields
`""`, so `normalize(normalize(u)) ≠ normalize(u)`. -/
theorem C9_idempotence_counterexample :
    ¬ ((normalize_url (str "////")).bind normalize_url = normalize_url (str "////")) := by
  decide

end NoteNomi
